import Mathlib

/-!
# slippery.c — hill-climbing attack on periodic polyalphabetic substitution ciphers

A shallow embedding of `slippery.c` and the properties proved about it.

Modelling conventions
* A C string / `char` buffer is a `List Char`; the string a C library routine sees
  ends at the first NUL byte of the buffer (`strlen`).
* `char` is the signed 8-bit type of the reference platform: `charVal` gives its
  integer value, so the byte `0xFF` is `-1` (the "unfilled" sentinel of key columns).
* `int` arithmetic is 32-bit two's complement (`wrap32`). The length of a string is
  a natural number: the conversion of the result of `strlen` to `int` is not
  modelled, lengths are taken to fit in an `int`; the period counter of the
  period detector is a natural number as well.
* `double` is the type `Dbl`, IEEE 754 binary64: the finite values are rationals,
  and every addition, multiplication and division rounds its exact result to the
  nearest binary64 number, ties to even (`round64`), with overflow to the
  infinities; NaN arises from the divisions `0.0/0` that the program can perform.
  The literals `1.65` and `1.2` are the binary64 numbers nearest to them, and every
  operation is evaluated in binary64 (no wider intermediate format).
* The tables of `monograms.h` and `tetragrams.h` are not part of the sources and
  are parameters of the functions that read them.
* `random()` is a list of the values it returns, consumed from the head.
-/

namespace Slippery

/-! ## Machine arithmetic -/

/-- Two's-complement reduction of an integer to the range of a 32-bit `int`. -/
def wrap32 (x : Int) : Int := (x + 2147483648) % 4294967296 - 2147483648

/-- Integer value of a `char` (signed, 8 bits). -/
def charVal (c : Char) : Int :=
  if c.toNat < 128 then (c.toNat : Int) else (c.toNat : Int) - 256

/-- C `double`, the IEEE 754 binary64 format: the finite values are rationals (the
results of the operations below are binary64 numbers), the infinities and NaN. The sign
of a zero is not represented: the program compares zeros and divides by zeros that come
from a converted non-negative `int`, never by a negative zero. -/
inductive Dbl where
  | fin (q : ℚ)
  | pinf
  | ninf
  | nan
deriving DecidableEq

/-- Rounding of a rational to the nearest integer, a tie going to the even one. -/
def roundEven (x : ℚ) : Int :=
  if x - ⌊x⌋ < 1 / 2 then ⌊x⌋
  else if 1 / 2 < x - ⌊x⌋ then ⌊x⌋ + 1
  else if ⌊x⌋ % 2 = 0 then ⌊x⌋ else ⌊x⌋ + 1

/-- Binary exponent of the unit in the last place of the binary64 numbers next to `q`:
`e - 52` where `2^e ≤ |q| < 2^(e+1)`, and `-1074` in the subnormal range. -/
def ulpExp (q : ℚ) : Int := max (Int.log 2 |q|) (-1022) - 52

/-- Rounding of the exact result of an operation to binary64, in the default mode of
IEEE 754 (to nearest, ties to even): the nearest multiple of the unit in the last place;
a result of magnitude `2^1024` or more after rounding is the infinity of its sign. -/
def round64 (q : ℚ) : Dbl :=
  if 2 ^ 1024 ≤ (roundEven (q / 2 ^ ulpExp q) : ℚ) * 2 ^ ulpExp q then Dbl.pinf
  else if (roundEven (q / 2 ^ ulpExp q) : ℚ) * 2 ^ ulpExp q ≤ -2 ^ 1024 then Dbl.ninf
  else Dbl.fin ((roundEven (q / 2 ^ ulpExp q) : ℚ) * 2 ^ ulpExp q)

namespace Dbl

/-- Conversion `int → double`; it is exact, every `int` being a binary64 number. -/
def ofInt (z : Int) : Dbl := fin (z : ℚ)

/-- Floating-point addition: the exact sum, rounded. -/
def add : Dbl → Dbl → Dbl
  | fin a, fin b => round64 (a + b)
  | nan, _ => nan
  | _, nan => nan
  | pinf, ninf => nan
  | ninf, pinf => nan
  | pinf, _ => pinf
  | _, pinf => pinf
  | ninf, _ => ninf
  | _, ninf => ninf

/-- Sign-aware infinity: the infinity with the sign of `q` (NaN for `q = 0`). -/
def infOfSign (q : ℚ) : Dbl :=
  if q = 0 then nan else if 0 < q then pinf else ninf

/-- Floating-point multiplication: the exact product, rounded. -/
def mul : Dbl → Dbl → Dbl
  | fin a, fin b => round64 (a * b)
  | nan, _ => nan
  | _, nan => nan
  | fin a, pinf => infOfSign a
  | fin a, ninf => infOfSign (-a)
  | pinf, fin b => infOfSign b
  | ninf, fin b => infOfSign (-b)
  | pinf, pinf => pinf
  | ninf, ninf => pinf
  | pinf, ninf => ninf
  | ninf, pinf => ninf

/-- Floating-point division: the exact quotient, rounded; the zero divisor is the
positive zero that a converted `int` or an accumulator that was never negative yields. -/
def div : Dbl → Dbl → Dbl
  | fin a, fin b => if b = 0 then infOfSign a else round64 (a / b)
  | nan, _ => nan
  | _, nan => nan
  | fin _, pinf => fin 0
  | fin _, ninf => fin 0
  | pinf, fin b => if 0 ≤ b then pinf else ninf
  | ninf, fin b => if 0 ≤ b then ninf else pinf
  | pinf, pinf => nan
  | pinf, ninf => nan
  | ninf, pinf => nan
  | ninf, ninf => nan

/-- The comparison `x > y` of C: false whenever an operand is NaN. -/
def gt : Dbl → Dbl → Bool
  | fin a, fin b => decide (b < a)
  | nan, _ => false
  | _, nan => false
  | pinf, pinf => false
  | pinf, _ => true
  | ninf, _ => false
  | fin _, ninf => true
  | fin _, pinf => false

end Dbl

/-! ## Strings -/

/-- The canonical alphabet `char alphabet[] = "ABCDEFGHIJKLMNOPQRSTUVWXYZ"`. -/
def alphabet : List Char := "ABCDEFGHIJKLMNOPQRSTUVWXYZ".toList

/-- The NUL byte. -/
def nul : Char := Char.ofNat 0

/-- `strlen`: number of bytes before the first NUL of the buffer. -/
def strlen (s : List Char) : Nat := (s.takeWhile (fun ch => ch != nul)).length

/-- The text is made of the uppercase letters `A`–`Z` only. -/
def isUpper (ch : Char) : Bool := decide (65 ≤ ch.toNat) && decide (ch.toNat ≤ 90)

/-- The `i`-th letter of the alphabet, `'A' + i`. -/
def letter (i : Nat) : Char := Char.ofNat (65 + i)

/-! ## Index of coincidence -/

/-- The statement `counts[k]++` on an `int` array; a write outside the array
(undefined in C) leaves the model array unchanged. -/
def incrAt (counts : List Int) (k : Int) : List Int :=
  if 0 ≤ k ∧ k < counts.length then counts.set k.toNat (counts.getD k.toNat 0 + 1) else counts

/-- The first two loops of `index_of_coincidence`: zero the 26 counters, then count
each character of the text. -/
def letterCounts (text : List Char) : List Int :=
  (text.take (strlen text)).foldl (fun counts ch => incrAt counts (charVal ch - charVal 'A'))
    (List.replicate 26 0)

/-- The third loop of `index_of_coincidence`: accumulates `(numer, total)`. -/
def iocSums (counts : List Int) : Int × Int :=
  (List.range 26).foldl
    (fun acc i =>
      (wrap32 (acc.1 + wrap32 (counts.getD i 0 * wrap32 (counts.getD i 0 - 1))),
       wrap32 (acc.2 + counts.getD i 0)))
    (0, 0)

/-- The function `index_of_coincidence`: `(26.*numer)/(total*(total-1))`. -/
def index_of_coincidence (text : List Char) : Dbl :=
  let nt := iocSums (letterCounts text)
  Dbl.div (Dbl.mul (Dbl.fin 26) (Dbl.ofInt nt.1)) (Dbl.ofInt (wrap32 (nt.2 * wrap32 (nt.2 - 1))))

/-! ## Tetragram fitness -/

/-- The character `s[i]` of a buffer (NUL past its end). -/
def charAt (s : List Char) (i : Nat) : Char := s.getD i nul

/-- The table index computed for the window starting at `i`:
`(text[i]-'A')*26*26*26 + (text[i+1]-'A')*26*26 + (text[i+2]-'A')*26 + (text[i+3]-'A')`. -/
def tetragramIndex (text : List Char) (i : Nat) : Int :=
  (charVal (charAt text (i + 0)) - charVal 'A') * 26 * 26 * 26
    + (charVal (charAt text (i + 1)) - charVal 'A') * 26 * 26
    + (charVal (charAt text (i + 2)) - charVal 'A') * 26
    + (charVal (charAt text (i + 3)) - charVal 'A')

/-- The loop of `fitness`: for `i` from `0` while `i < length - 3`, add the table entry of
window `i` to `result` and increment `count`; returns `(result, count)`. -/
def fitnessLoop (tetragrams : Int → Dbl) (text : List Char) : Dbl × Int :=
  (List.range ((strlen text : Int) - 3).toNat).foldl
    (fun acc i => (Dbl.add acc.1 (tetragrams (tetragramIndex text i)), acc.2 + 1))
    (Dbl.fin 0, 0)

/-- The function `fitness`; the table `tetragrams` of `tetragrams.h` is a parameter. -/
def fitness (tetragrams : Int → Dbl) (text : List Char) : Dbl :=
  let rc := fitnessLoop tetragrams text
  Dbl.div rc.1 (Dbl.ofInt rc.2)

/-- Rank of a letter in the alphabet, `ch - 'A'`, as the specification reads it. -/
def rank (ch : Char) : Int := (ch.toNat : Int) - 65

/-- Specification of the table key of the window starting at `i`:
`rank t[i] * 26^3 + rank t[i+1] * 26^2 + rank t[i+2] * 26 + rank t[i+3]`. -/
def windowKey (text : List Char) (i : Nat) : Int :=
  rank (text.getD i nul) * 26 ^ 3 + rank (text.getD (i + 1) nul) * 26 ^ 2
    + rank (text.getD (i + 2) nul) * 26 + rank (text.getD (i + 3) nul)

/-! ## Decryption -/

/-- A key array `char s[MAXKEYLEN][26]`, as the list of its rows (the key columns). -/
abbrev Key := List (List Char)

/-- The bytes seen through the pointer `s[r]` to row `r` of a key array: row `r`
followed by the later rows, which are contiguous in memory (rows are not NUL-terminated). -/
def rowString (s : Key) (r : Nat) : List Char := (s.drop r).flatten

/-- The loop of `position`: the index of the first `s[i]` equal to `c`, counting from
`i`, or `-1` when the scanned bytes do not contain `c`. -/
def positionFrom (c : Char) : List Char → Nat → Int
  | [], _ => -1
  | x :: rest, i => if c = x then (i : Int) else positionFrom c rest (i + 1)

/-- The function `position`: scans the `strlen(s)` bytes of `s`. -/
def position (c : Char) (s : List Char) : Int := positionFrom c (s.take (strlen s)) 0

/-- The read `alphabet[k]`; the array holds the 26 letters and the terminating NUL.
`none` stands for a read outside the array, which C leaves undefined. -/
def alphabetAt (k : Int) : Option Char :=
  if 0 ≤ k ∧ k ≤ 26 then some ((alphabet ++ [nul]).getD k.toNat nul) else none

/-- The loop of `decrypt` from index `i` on: `p[i] = alphabet[position(c[i], s[i%keylen])]`.
(`keylen` is positive in every call; `i % 0` is `i` here.) -/
def decryptFrom (s : Key) (keylen : Nat) : Nat → List Char → Option (List Char)
  | _, [] => some []
  | i, ch :: rest =>
    match alphabetAt (position ch (rowString s (i % keylen))), decryptFrom s keylen (i + 1) rest with
    | some x, some xs => some (x :: xs)
    | _, _ => none

/-- The function `decrypt`: the plaintext buffer `p[0 .. strlen(c) - 1]`, or `none` when
some `alphabet[...]` read falls outside the array. -/
def decrypt (c : List Char) (s : Key) (keylen : Nat) : Option (List Char) :=
  decryptFrom s keylen 0 (c.take (strlen c))

/-- Specification of the encryption that `decrypt` inverts (the program itself has no
encryption routine): the plaintext letter at index `i` is replaced by the entry of
column `i mod keylen` at the letter's rank. -/
def encryptFrom (s : Key) (keylen : Nat) : Nat → List Char → List Char
  | _, [] => []
  | i, ch :: rest =>
    (s.getD (i % keylen) []).getD (rank ch).toNat nul :: encryptFrom s keylen (i + 1) rest

/-- Specification of encryption of a whole plaintext, see `encryptFrom`. -/
def encrypt (p : List Char) (s : Key) (keylen : Nat) : List Char := encryptFrom s keylen 0 p

/-- A key column is valid when it is a permutation of the 26 letters. -/
def isPermutation (column : List Char) : Prop := column.Perm alphabet

instance (column : List Char) : Decidable (isPermutation column) := by
  unfold isPermutation; infer_instance

/-! ## Monogram frequencies and the initial key -/

/-- The byte `(char)-1`, stored in a key column slot that is not filled yet. -/
def sentinel : Char := Char.ofNat 255

/-- The statement `freqs[k]++` on a `double` array; a write outside the array
(undefined in C) leaves the model array unchanged. -/
def incrDblAt (freqs : List Dbl) (k : Int) : List Dbl :=
  if 0 ≤ k ∧ k < freqs.length then
    freqs.set k.toNat (Dbl.add (freqs.getD k.toNat Dbl.nan) (Dbl.fin 1))
  else freqs

/-- The counting loop of `monogram_frequencies`: returns `(freqs, total)`. -/
def monogramCounts (text : List Char) : List Dbl × Int :=
  (text.take (strlen text)).foldl
    (fun acc ch => (incrDblAt acc.1 (charVal ch - charVal 'A'), acc.2 + 1))
    (List.replicate 26 (Dbl.fin 0), 0)

/-- The function `monogram_frequencies`: every counter is multiplied by `1./total`. -/
def monogram_frequencies (text : List Char) : List Dbl :=
  let ft := monogramCounts text
  ft.1.map (fun f => Dbl.mul f (Dbl.div (Dbl.fin 1) (Dbl.ofInt ft.2)))

/-- One array's half of the body of the `k` loop of the key initialiser:
`if (x[k] > max) { index = k; max = x[k]; }` on the pair `(index, max)`. -/
def scanUpdate (x : List Dbl) (st : Nat × Dbl) (k : Nat) : Nat × Dbl :=
  if Dbl.gt (x.getD k Dbl.nan) st.2 = true then (k, x.getD k Dbl.nan) else st

/-- The `k` loop of the key initialiser: starting from `maxf = maxr = -1.` and
`indexf = indexr = 0`, returns `((indexf, maxf), (indexr, maxr))`. -/
def scanMax (freqs reference : List Dbl) : (Nat × Dbl) × (Nat × Dbl) :=
  (List.range 26).foldl
    (fun st k => (scanUpdate freqs st.1 k, scanUpdate reference st.2 k))
    ((0, Dbl.fin (-1)), (0, Dbl.fin (-1)))

/-- The arrays that the key initialiser works on for one column. -/
structure InitState where
  /-- The key column `pk[i]`. -/
  pk : List Char
  /-- The remaining observed frequencies `freqs[i]`. -/
  freqs : List Dbl
  /-- The remaining reference frequencies `reference`. -/
  reference : List Dbl

/-- The body of the `j` loop of the key initialiser: pair the most frequent remaining
observed letter with the most frequent remaining reference letter and mark both used. -/
def assignStep (st : InitState) : InitState :=
  let sc := scanMax st.freqs st.reference
  { pk := st.pk.set sc.2.1 (alphabet.getD sc.1.1 nul)
    freqs := st.freqs.set sc.1.1 (Dbl.fin (-1))
    reference := st.reference.set sc.2.1 (Dbl.fin (-1)) }

/-- The arrays before the `j` loop: `pk[i][j] = -1`, `reference[j] = monograms[j]`, and
`freqs[i]` as computed by `monogram_frequencies(slice, freqs[i])`. -/
def initStart (monograms : Nat → Dbl) (slice : List Char) : InitState :=
  { pk := List.replicate 26 sentinel
    freqs := monogram_frequencies slice
    reference := (List.range 26).map monograms }

/-- The body of the `i` loop of the key initialiser: the column computed from `slice`;
the table `monograms` of `monograms.h` is a parameter. -/
def initColumn (monograms : Nat → Dbl) (slice : List Char) : List Char :=
  ((List.range 26).foldl (fun st _ => assignStep st) (initStart monograms slice)).pk

/-- The `i` loop of the key initialiser ("set the initial key alphabets"): rows
`0 .. period - 1` of `pk` are computed, each from the buffer `slice`; the other rows
keep their contents. -/
def initKey (monograms : Nat → Dbl) (slice : List Char) (period : Nat) (pk : Key) : Key :=
  (List.range period).foldl (fun key i => key.set i (initColumn monograms slice)) pk

/-- Entry `k` of a frequency array is not consumed yet: it is above the sentinel `-1`. -/
def live (x : List Dbl) (k : Nat) : Prop := Dbl.gt (x.getD k Dbl.nan) (Dbl.fin (-1)) = true

/-- Invariant of the `j` loop of the key initialiser after `n` rounds: `n` slots of the
column hold `n` distinct letters, the other slots hold the sentinel; the slots of
unconsumed reference entries are unfilled and the letters of unconsumed observed entries
are unused; `26 - n` entries of each frequency array are unconsumed. -/
structure InitInv (n : Nat) (st : InitState) : Prop where
  len_pk : st.pk.length = 26
  len_f : st.freqs.length = 26
  len_r : st.reference.length = 26
  live_r : ∀ k, k < 26 → live st.reference k → st.pk.getD k nul = sentinel
  live_f : ∀ k, k < 26 → live st.freqs k → letter k ∉ st.pk
  cnt_f : st.freqs.countP (fun v => Dbl.gt v (Dbl.fin (-1))) = 26 - n
  cnt_r : st.reference.countP (fun v => Dbl.gt v (Dbl.fin (-1))) = 26 - n
  cnt_s : st.pk.count sentinel = 26 - n
  le_one : ∀ c, c ≠ sentinel → st.pk.count c ≤ 1
  upper : ∀ c ∈ st.pk, c = sentinel ∨ isUpper c = true

/-! ## Random mutation of key columns

The values returned by `random()` are a list consumed from the head; an operator yields
`none` when the list is used up before the operator returns. -/

/-- The loop `while (i == j) j = random()%26;` of `random_swap`, entered with `j = i`. -/
def drawOther (i : Nat) : List Nat → Option (Nat × List Nat)
  | [] => none
  | r :: rest => if r % 26 = i then drawOther i rest else some (r % 26, rest)

/-- The function `random_swap`: exchanges `s[i]` and `s[j]` for the drawn `i ≠ j`;
returns the column and the unused random values. -/
def random_swap (s : List Char) (rnd : List Nat) : Option (List Char × List Nat) :=
  match rnd with
  | [] => none
  | r :: rest =>
    match drawOther (r % 26) rest with
    | none => none
    | some (j, rest') =>
      let i := r % 26
      let temp := s.getD i nul
      some ((s.set i (s.getD j nul)).set j temp, rest')

/-- The draw `j = random()%26; while (s[j] != -1) j = random()%26;` of `randomize`. -/
def drawFree (s : List Char) : List Nat → Option (Nat × List Nat)
  | [] => none
  | r :: rest =>
    if s.getD (r % 26) nul ≠ sentinel then drawFree s rest else some (r % 26, rest)

/-- The second loop of `randomize`, for the letters still to be placed: each letter is
written to a drawn slot that holds the sentinel. -/
def placeLetters : List Char → List Char → List Nat → Option (List Char × List Nat)
  | [], s, rnd => some (s, rnd)
  | a :: rest, s, rnd =>
    match drawFree s rnd with
    | none => none
    | some (j, rnd') => placeLetters rest (s.set j a) rnd'

/-- The function `randomize`: every slot is set to the sentinel `-1`, then the letters
`alphabet[0]`, …, `alphabet[25]` are placed in that order. -/
def randomize (s : List Char) (rnd : List Nat) : Option (List Char × List Nat) :=
  placeLetters alphabet ((List.range 26).foldl (fun s i => s.set i sentinel) s) rnd

/-! ## Period detection (first loop of `main`) -/

/-- The buffer `slice` after the `j` loop for position `i`:
`slice[j] = c[period*j+i]` for `j < length/period`, then the terminating NUL. -/
def sliceOf (c : List Char) (period i : Nat) : List Char :=
  (List.range (strlen c / period)).map (fun j => charAt c (period * j + i))

/-- The averaged index of coincidence computed for a candidate period: `ioc` is the sum
over `i < period` of `index_of_coincidence(slice)`, then `ioc /= period`. -/
def averagedIoc (c : List Char) (period : Nat) : Dbl :=
  Dbl.div
    ((List.range period).foldl
      (fun ioc i => Dbl.add ioc (index_of_coincidence (sliceOf c period i))) (Dbl.fin 0))
    (Dbl.ofInt period)

/-- The constant `IOCTHRESHOLD`: the literal `1.65`, the binary64 number nearest to
`165/100`. -/
def IOCTHRESHOLD : Dbl := round64 (165 / 100)

/-- The constant `IOCMULTTHRESH`: the literal `1.2`, the binary64 number nearest to
`12/10`. -/
def IOCMULTTHRESH : Dbl := round64 (12 / 10)

/-- The variables of the period-detection loop. -/
structure PeriodState where
  /-- The candidate period. -/
  period : Nat
  /-- The averaged index of coincidence of the previous candidate. -/
  oldioc : Dbl
  /-- The flag `found`. -/
  found : Bool
  /-- The string left in the buffer `slice`. -/
  slice : List Char

/-- The state before the loop: `period = 0`, `oldioc = 99.`, `found = 0`; `slice` holds
whatever the uninitialised buffer holds. -/
def periodStart (slice0 : List Char) : PeriodState :=
  { period := 0, oldioc := Dbl.fin 99, found := false, slice := slice0 }

/-- The body of the loop `while (!found)`. -/
def periodStep (c : List Char) (st : PeriodState) : PeriodState :=
  let period := st.period + 1
  let ioc := averagedIoc c period
  { period := period
    oldioc := ioc
    found := Dbl.gt ioc IOCTHRESHOLD && Dbl.gt ioc (Dbl.mul IOCMULTTHRESH st.oldioc)
    slice := sliceOf c period (period - 1) }

/-- The loop `while (!found)`, run for at most `fuel` iterations; `none` when `found`
is still unset after `fuel` iterations. -/
def periodLoop (c : List Char) : Nat → PeriodState → Option PeriodState
  | 0, _ => none
  | fuel + 1, st =>
    let st' := periodStep c st
    if st'.found = true then some st' else periodLoop c fuel st'

/-- Period detection from the initial state. -/
def findPeriod (c : List Char) (slice0 : List Char) (fuel : Nat) : Option PeriodState :=
  periodLoop c fuel (periodStart slice0)

/-- Specification: the characters of the text at the positions congruent to `i` modulo
`p`, in order. -/
def residueClass (text : List Char) (p i : Nat) : List Char :=
  ((List.range text.length).filter (fun n => n % p = i)).map (fun n => text.getD n nul)

/-- Specification: the score of the candidate before `p` in the scan: the initial `99`
for `p = 1`, the averaged index of coincidence at `p - 1` otherwise. -/
def previousIoc (c : List Char) (p : Nat) : Dbl :=
  if p ≤ 1 then Dbl.fin 99 else averagedIoc c (p - 1)

/-- Specification: both acceptance conditions hold at candidate `p`: the averaged index
of coincidence exceeds 1.65 and exceeds 1.2 times the previous candidate's score, the
constants and the product being those of binary64 arithmetic. -/
def accepts (c : List Char) (p : Nat) : Bool :=
  Dbl.gt (averagedIoc c p) (round64 (165 / 100))
    && Dbl.gt (averagedIoc c p) (Dbl.mul (round64 (12 / 10)) (previousIoc c p))

/-! ## Hill climbing (main loop of `main`) -/

/-- The function `copy_keys`: rows `0 .. keylen - 1` of `target` receive the 26 bytes of
the same rows of `source`. -/
def copy_keys (source target : Key) (keylen : Nat) : Key :=
  (List.range keylen).foldl (fun tgt i => tgt.set i (source.getD i [])) target

/-- The string that `strcpy(dst, src)` leaves in `dst`. -/
def strcpy (src : List Char) : List Char := src.take (strlen src)

/-- The inputs that stay fixed during the search. -/
structure Env where
  /-- The table of `tetragrams.h`. -/
  tetragrams : Int → Dbl
  /-- The ciphertext `c`. -/
  c : List Char
  /-- The detected period. -/
  period : Nat

/-- The variables of `main` used by the search, and the unused values of `random()`. -/
structure Search where
  /-- The parent key alphabets. -/
  pk : Key
  /-- The child key alphabets. -/
  ck : Key
  /-- The best keys so far. -/
  bestk : Key
  /-- The plaintext buffer. -/
  p : List Char
  /-- The best plaintext so far. -/
  bestp : List Char
  /-- The fitness of the parent. -/
  fitp : Dbl
  /-- The fitness of the child. -/
  fitc : Dbl
  /-- The best fitness so far. -/
  bestf : Dbl
  /-- The stagnation counter of the inner loop. -/
  count : Int
  /-- The counter of steps without a new best. -/
  bigcount : Int
  /-- The values that `random()` will return. -/
  rnd : List Nat

/-- The body of the inner loop `while (count < 1000)` for column `j`. -/
def innerIter (env : Env) (j : Nat) (s : Search) : Option Search :=
  let ck := copy_keys s.pk s.ck env.period
  match random_swap (ck.getD j []) s.rnd with
  | none => none
  | some (col, rnd) =>
    let ck := ck.set j col
    match decrypt env.c ck env.period with
    | none => none
    | some p =>
      let fitc := fitness env.tetragrams p
      let s1 : Search := { s with ck := ck, p := p, fitc := fitc, rnd := rnd }
      let s2 : Search :=
        if Dbl.gt fitc s1.fitp = true then
          { s1 with pk := copy_keys ck s1.pk env.period, fitp := fitc, count := 0 }
        else { s1 with count := s1.count + 1 }
      some
        (if Dbl.gt fitc s2.bestf = true then
          { s2 with
            bestk := copy_keys ck s2.bestk env.period
            bestf := fitc
            bigcount := 0
            bestp := strcpy p }
        else { s2 with bigcount := s2.bigcount + 1 })

/-- The statements of the `for` body before the inner loop: column `j` of the parent is
randomised, the plaintext is decrypted and scored, the stagnation counter is reset. -/
def columnRestart (env : Env) (j : Nat) (s : Search) : Option Search :=
  match randomize (s.pk.getD j []) s.rnd with
  | none => none
  | some (col, rnd) =>
    let pk := s.pk.set j col
    match decrypt env.c pk env.period with
    | none => none
    | some p =>
      some { s with pk := pk, p := p, fitp := fitness env.tetragrams p, count := 0, rnd := rnd }

/-- The inner loop `while (count < 1000)`, run for at most `fuel` iterations. -/
def innerLoop (env : Env) (j : Nat) : Nat → Search → Option Search
  | 0, _ => none
  | fuel + 1, s =>
    if s.count < 1000 then
      match innerIter env j s with
      | none => none
      | some s' => innerLoop env j fuel s'
    else some s

/-- The loop `for (j=0;j<period;j++)` over the listed columns. -/
def forLoop (env : Env) (fuel : Nat) : List Nat → Search → Option Search
  | [], s => some s
  | j :: js, s =>
    match columnRestart env j s with
    | none => none
    | some s1 =>
      match innerLoop env j fuel s1 with
      | none => none
      | some s2 => forLoop env fuel js s2

/-- The bound `5000000*period*period/length` of the main loop, in `int` arithmetic. -/
def budget (period length : Int) : Int :=
  Int.tdiv (wrap32 (wrap32 (5000000 * period) * period)) length

/-- The main loop `while (bigcount < 5000000*period*period/length)`, run for at most
`fuel` iterations (each inner loop for at most `fuel` iterations as well). -/
def mainLoop (env : Env) : Nat → Search → Option Search
  | 0, _ => none
  | fuel + 1, s =>
    if s.bigcount < budget env.period (strlen env.c) then
      match forLoop env fuel (List.range env.period) s with
      | none => none
      | some s' => mainLoop env fuel s'
    else some s

/-- The variables at the entry of the main loop, after `decrypt (c,p,pk,period);
bestf = fitness(p);`: `bigcount` is 0, and `ck`, `bestk`, `bestp`, `fitp`, `fitc` and
`count` hold whatever the uninitialised variables `u` hold. -/
def searchStart (env : Env) (pk : Key) (u : Search) : Option Search :=
  match decrypt env.c pk env.period with
  | none => none
  | some p => some { u with pk := pk, p := p, bestf := fitness env.tetragrams p, bigcount := 0 }

/-- One state-changing block of the search: a column restart or an inner-loop
iteration, on any column. -/
inductive Step (env : Env) : Search → Search → Prop
  | restart (j : Nat) (s s' : Search) : columnRestart env j s = some s' → Step env s s'
  | inner (j : Nat) (s s' : Search) : innerIter env j s = some s' → Step env s s'

/-- What `main` prints. -/
structure Report where
  /-- The string printed from `bestp`. -/
  bestp : List Char
  /-- The rows `bestk[0 .. period - 1]`. -/
  bestk : Key
  /-- The value printed from `bestf`. -/
  bestf : Dbl

/-- The function `main` on the command-line argument `arg`. The uninitialised local
variables hold `u` (of which `u.rnd` is the sequence of values of `random()`) and the
buffer `slice` holds `slice0`; every loop runs for at most `fuel` iterations. -/
def main (monograms : Nat → Dbl) (tetragrams : Int → Dbl) (arg : List Char) (u : Search)
    (slice0 : List Char) (fuel : Nat) : Option Report :=
  let c := strcpy arg
  match findPeriod c slice0 fuel with
  | none => none
  | some st =>
    let env : Env := { tetragrams := tetragrams, c := c, period := st.period }
    match searchStart env (initKey monograms st.slice st.period u.pk) u with
    | none => none
    | some s0 =>
      match mainLoop env fuel s0 with
      | none => none
      | some s =>
        some { bestp := strcpy s.bestp, bestk := s.bestk.take st.period, bestf := s.bestf }

/-! ## A small concrete search state -/

/-- A concrete environment: ciphertext `ABCD`, period 1, the table whose entry at key `k`
is `k`. -/
def demoEnv : Env := { tetragrams := fun k => Dbl.fin k, c := "ABCD".toList, period := 1 }

/-- A concrete state: the identity key as parent, recorded best of fitness 0, and the
random values `0, 1` to come. -/
def demoParent : Search :=
  { pk := [alphabet], ck := [alphabet], bestk := [alphabet], p := "ABCD".toList,
    bestp := "ABCD".toList, fitp := Dbl.fin 0, fitc := Dbl.fin 0, bestf := Dbl.fin 0,
    count := 0, bigcount := 0, rnd := [0, 1] }

/-- The state after one inner-loop iteration from `demoParent`: the child key has `A` and
`B` exchanged, its plaintext `BACD` has fitness 17631. -/
def demoChild : Search :=
  { pk := ["BACDEFGHIJKLMNOPQRSTUVWXYZ".toList], ck := ["BACDEFGHIJKLMNOPQRSTUVWXYZ".toList],
    bestk := ["BACDEFGHIJKLMNOPQRSTUVWXYZ".toList], p := "BACD".toList,
    bestp := "BACD".toList, fitp := Dbl.fin 17631, fitc := Dbl.fin 17631,
    bestf := Dbl.fin 17631, count := 0, bigcount := 0, rnd := [] }

/-- The state `demoParent` with `bigcount` at the bound of the main loop. -/
def demoIdle : Search := { demoParent with bigcount := 1250000 }

/-! ## A ciphertext on which the search never runs -/

/-- The 46-letter ciphertext `ABCDEFGHIJKLMNOPQRSTUVW` written twice. -/
def cipher46 : List Char := "ABCDEFGHIJKLMNOPQRSTUVWABCDEFGHIJKLMNOPQRSTUVW".toList

/-- Uninitialised variables of `main` for the run on `cipher46`: the arrays `bestk` and
`bestp` hold `bestk0` and `bestp0`, the other arrays are zeroed. -/
def uninit46 (bestk0 : Key) (bestp0 : List Char) : Search :=
  { pk := List.replicate 100 (List.replicate 26 nul)
    ck := List.replicate 100 (List.replicate 26 nul)
    bestk := bestk0
    p := []
    bestp := bestp0
    fitp := Dbl.fin 0
    fitc := Dbl.fin 0
    bestf := Dbl.fin 0
    count := 0
    bigcount := 0
    rnd := [] }

/-! ## A ciphertext on which the rounding of the product `IOCMULTTHRESH*oldioc` decides -/

/-- The 12-letter ciphertext `AABCAAABCACA`. -/
def cipher12 : List Char := "AABCAAABCACA".toList

/-! ## A table on which the running sum of `fitness` rounds -/

/-- The values of a tetragram table: `2^54` at key 0, `1` at key 1, `-2^54` elsewhere. -/
def cancelTable (k : Int) : ℚ :=
  if k = 0 then 18014398509481984 else if k = 1 then 1 else -18014398509481984

/-! ## Frequency ranks (specification of the pairing made by the key initialiser) -/

/-- Specification: in the descending-frequency order of the array `x`, equal frequencies
being ordered by ascending index, index `m` comes before index `k`. -/
def precedes (x : List Dbl) (m k : Nat) : Bool :=
  Dbl.gt (x.getD m Dbl.nan) (x.getD k Dbl.nan)
    || (decide (x.getD m Dbl.nan = x.getD k Dbl.nan) && decide (m < k))

/-- Specification: the rank of index `k` in the descending-frequency order of `x`, the
number of the 26 indices that come before `k`; the index of rank `r` is the `r`-th letter
of the order. -/
def rankIn (x : List Dbl) (k : Nat) : Nat := (List.range 26).countP (fun m => precedes x m k)

/-- Specification-side invariant of the `j` loop of the key initialiser after `n` rounds,
relative to the arrays `f0` and `r0` the loop started from: the entries of rank below `n`
are consumed and the others unchanged, and the slot of a reference letter of rank below
`n` holds the observed letter of the same rank. -/
structure RankInv (f0 r0 : List Dbl) (n : Nat) (st : InitState) : Prop where
  len_pk : st.pk.length = 26
  len_f : st.freqs.length = 26
  len_r : st.reference.length = 26
  val_f : ∀ k, k < 26 →
    st.freqs.getD k Dbl.nan = if rankIn f0 k < n then Dbl.fin (-1) else f0.getD k Dbl.nan
  val_r : ∀ k, k < 26 →
    st.reference.getD k Dbl.nan = if rankIn r0 k < n then Dbl.fin (-1) else r0.getD k Dbl.nan
  paired : ∀ kr kf, kr < 26 → kf < 26 → rankIn r0 kr = rankIn f0 kf → rankIn r0 kr < n →
    st.pk.getD kr nul = letter kf

/-! # Properties -/

/-! ## Rounding to binary64 -/

theorem floor_le_roundEven (x : ℚ) : ⌊x⌋ ≤ roundEven x := by
  unfold roundEven; split_ifs <;> omega

theorem roundEven_le_floor_add_one (x : ℚ) : roundEven x ≤ ⌊x⌋ + 1 := by
  unfold roundEven; split_ifs <;> omega

theorem roundEven_intCast (n : Int) : roundEven (n : ℚ) = n := by
  unfold roundEven
  simp

theorem roundEven_mono {x y : ℚ} (h : x ≤ y) : roundEven x ≤ roundEven y := by
  have hf : ⌊x⌋ ≤ ⌊y⌋ := Int.floor_mono h
  rcases lt_or_eq_of_le hf with hlt | heq
  · calc roundEven x ≤ ⌊x⌋ + 1 := roundEven_le_floor_add_one x
      _ ≤ ⌊y⌋ := hlt
      _ ≤ roundEven y := floor_le_roundEven y
  · unfold roundEven
    rw [heq]
    split_ifs <;> first | omega | (exfalso; linarith)

theorem abs_roundEven_sub_le (x : ℚ) : |(roundEven x : ℚ) - x| ≤ 1 / 2 := by
  have h1 := Int.floor_le x
  have h2 := Int.lt_floor_add_one x
  unfold roundEven
  split_ifs <;> (push_cast; rw [abs_le]; constructor <;> linarith)

theorem roundEven_eq_of_abs_sub_lt {x : ℚ} {m : Int} (h : |x - m| < 1 / 2) : roundEven x = m := by
  have h1 := abs_roundEven_sub_le x
  have h2 : |((roundEven x - m : Int) : ℚ)| < 1 := by
    push_cast
    have e : (roundEven x : ℚ) - m = ((roundEven x : ℚ) - x) + (x - m) := by ring
    rw [e]
    calc |((roundEven x : ℚ) - x) + (x - m)| ≤ |(roundEven x : ℚ) - x| + |x - m| := abs_add _ _
      _ < 1 := by linarith
  have h3 : |roundEven x - m| < 1 := by exact_mod_cast h2
  have := Int.abs_lt_one_iff.1 h3
  omega

theorem roundEven_half_even (m : Int) (hm : m % 2 = 0) : roundEven ((m : ℚ) + 1 / 2) = m := by
  have hf : ⌊(m : ℚ) + 1 / 2⌋ = m := by
    rw [Int.floor_eq_iff]; constructor <;> linarith
  unfold roundEven
  rw [hf, if_neg (by linarith), if_neg (by linarith), if_pos hm]

theorem ulpExp_le_zero {q : ℚ} (h : |q| < 2 ^ 53) : ulpExp q ≤ 0 := by
  have hlog : Int.log 2 |q| ≤ 52 := by
    rcases eq_or_lt_of_le (abs_nonneg q) with h0 | hpos
    · rw [← h0]; simp
    · have := (Int.lt_zpow_iff_log_lt (b := 2) (by norm_num) hpos (x := 53)).1
        (by exact_mod_cast h)
      omega
  unfold ulpExp
  have := max_le hlog (show (-1022 : Int) ≤ 52 by norm_num)
  omega

theorem ulpExp_eq {q : ℚ} {e : Int} (h1 : (2 : ℚ) ^ e ≤ |q|) (h2 : |q| < 2 ^ (e + 1))
    (he : -1022 ≤ e) : ulpExp q = e - 52 := by
  have hqpos : 0 < |q| := lt_of_lt_of_le (by positivity) h1
  have hl1 : e ≤ Int.log 2 |q| := (Int.zpow_le_iff_le_log (b := 2) (by norm_num) hqpos).1 h1
  have hl2 : Int.log 2 |q| < e + 1 := (Int.lt_zpow_iff_log_lt (b := 2) (by norm_num) hqpos).1 h2
  unfold ulpExp
  rw [max_eq_left (by omega)]
  omega

/-- Rounding keeps a value of magnitude below `2^53` between two integers. -/
theorem round64_between {q : ℚ} {a b : Int} (hq : |q| < 2 ^ 53) (ha : -9007199254740992 ≤ a)
    (hb : b ≤ 9007199254740992) (h1 : (a : ℚ) ≤ q) (h2 : q ≤ b) :
    ∃ r, round64 q = Dbl.fin r ∧ (a : ℚ) ≤ r ∧ r ≤ b := by
  have haq : (-9007199254740992 : ℚ) ≤ a := by exact_mod_cast ha
  have hbq : (b : ℚ) ≤ 9007199254740992 := by exact_mod_cast hb
  have hu := ulpExp_le_zero hq
  obtain ⟨k, hk⟩ : ∃ k : Nat, ulpExp q = -(k : Int) := ⟨(-ulpExp q).toNat, by omega⟩
  have hpow : (2 : ℚ) ^ ulpExp q = ((2 : ℚ) ^ k)⁻¹ := by
    rw [hk, zpow_neg, zpow_natCast]
  have hpos : (0 : ℚ) < 2 ^ k := by positivity
  have hA : a * 2 ^ k ≤ roundEven (q / 2 ^ ulpExp q) := by
    have := roundEven_mono (show ((a * 2 ^ k : Int) : ℚ) ≤ q / 2 ^ ulpExp q by
      rw [hpow, div_inv_eq_mul]; push_cast
      exact mul_le_mul_of_nonneg_right h1 hpos.le)
    rwa [roundEven_intCast] at this
  have hB : roundEven (q / 2 ^ ulpExp q) ≤ b * 2 ^ k := by
    have := roundEven_mono (show q / 2 ^ ulpExp q ≤ ((b * 2 ^ k : Int) : ℚ) by
      rw [hpow, div_inv_eq_mul]; push_cast
      exact mul_le_mul_of_nonneg_right h2 hpos.le)
    rwa [roundEven_intCast] at this
  have hAq : (a : ℚ) * 2 ^ k ≤ (roundEven (q / 2 ^ ulpExp q) : ℚ) := by exact_mod_cast hA
  have hBq : (roundEven (q / 2 ^ ulpExp q) : ℚ) ≤ (b : ℚ) * 2 ^ k := by exact_mod_cast hB
  have hlo : (a : ℚ) ≤ (roundEven (q / 2 ^ ulpExp q) : ℚ) * 2 ^ ulpExp q := by
    generalize (roundEven (q / 2 ^ ulpExp q) : ℚ) = R at hAq
    rw [hpow, ← div_eq_mul_inv, le_div_iff₀ hpos]; exact hAq
  have hhi : (roundEven (q / 2 ^ ulpExp q) : ℚ) * 2 ^ ulpExp q ≤ b := by
    generalize (roundEven (q / 2 ^ ulpExp q) : ℚ) = R at hBq
    rw [hpow, ← div_eq_mul_inv, div_le_iff₀ hpos]; exact hBq
  refine ⟨_, ?_, hlo, hhi⟩
  unfold round64
  rw [if_neg, if_neg]
  · intro h; norm_num at h; linarith
  · intro h; norm_num at h; linarith

/-- Rounding keeps a value between two integers of magnitude below `2^53`. -/
theorem round64_bracket {q : ℚ} {a b : Int} (ha : -9007199254740992 < a)
    (hb : b < 9007199254740992) (h1 : (a : ℚ) ≤ q) (h2 : q ≤ b) :
    ∃ r, round64 q = Dbl.fin r ∧ (a : ℚ) ≤ r ∧ r ≤ b := by
  have haq : (-9007199254740992 : ℚ) < a := by exact_mod_cast ha
  have hbq : (b : ℚ) < 9007199254740992 := by exact_mod_cast hb
  have habs : |q| < 2 ^ 53 := by
    rw [abs_lt]; constructor <;> norm_num <;> linarith
  exact round64_between habs (le_of_lt ha) (le_of_lt hb) h1 h2

theorem round64_intCast (n : Int) (h1 : -9007199254740992 < n) (h2 : n < 9007199254740992) :
    round64 (n : ℚ) = Dbl.fin n := by
  obtain ⟨r, hr, ha, hb⟩ := round64_bracket h1 h2 (le_refl (n : ℚ)) (le_refl _)
  rw [hr, le_antisymm hb ha]

theorem round64_zero : round64 0 = Dbl.fin 0 := by
  have := round64_intCast 0 (by norm_num) (by norm_num)
  simpa using this

/-- Evaluation of `round64` away from a tie: `q` lies in the binade of exponent `e` and
`m` is the integer nearest to `q / 2^(e-52)`. -/
theorem round64_eval {q : ℚ} (e m : Int) (h1 : (2 : ℚ) ^ e ≤ |q|) (h2 : |q| < 2 ^ (e + 1))
    (he : -1022 ≤ e) (hm : |q / 2 ^ (e - 52) - m| < 1 / 2)
    (hfin : |(m : ℚ) * 2 ^ (e - 52)| < 2 ^ 1024) :
    round64 q = Dbl.fin ((m : ℚ) * 2 ^ (e - 52)) := by
  unfold round64
  rw [ulpExp_eq h1 h2 he, roundEven_eq_of_abs_sub_lt hm]
  have hb := abs_lt.1 hfin
  rw [if_neg (not_le.2 hb.2), if_neg (not_le.2 hb.1)]

theorem round64_two_pow_53 : round64 9007199254740992 = Dbl.fin 9007199254740992 := by
  rw [round64_eval 53 4503599627370496 (by norm_num [abs_of_pos]) (by norm_num [abs_of_pos])
    (by norm_num) (by norm_num [abs_lt]) (by norm_num [abs_lt])]
  norm_num

/-- The tie `2^53 + 1` rounds to the even neighbour `2^53`: a counter incremented by
`freqs[k]++` stays at `2^53`. -/
theorem round64_two_pow_53_succ : round64 (9007199254740992 + 1) = Dbl.fin 9007199254740992 := by
  have hu : ulpExp (9007199254740992 + 1) = 53 - 52 :=
    ulpExp_eq (by norm_num [abs_of_pos]) (by norm_num [abs_of_pos]) (by norm_num)
  have hr : roundEven ((9007199254740992 + 1 : ℚ) / 2 ^ ((53 : Int) - 52)) = 4503599627370496 := by
    have := roundEven_half_even 4503599627370496 (by norm_num)
    rw [← this]; congr 1; norm_num
  unfold round64
  rw [hu, hr]
  norm_num

/-- Rounding keeps a value between 0 and `2^53`. -/
theorem round64_nonneg_le {q : ℚ} (h0 : 0 ≤ q) (h1 : q ≤ 9007199254740992) :
    ∃ r, round64 q = Dbl.fin r ∧ 0 ≤ r ∧ r ≤ 9007199254740992 := by
  rcases eq_or_lt_of_le h1 with he | hlt
  · exact ⟨_, by rw [he]; exact round64_two_pow_53, by norm_num, le_refl _⟩
  · have hq : |q| < 2 ^ 53 := by rw [abs_of_nonneg h0]; norm_num; exact hlt
    obtain ⟨r, hr, ha, hb⟩ := round64_between (a := 0) (b := 9007199254740992) hq (by norm_num)
      (by norm_num) (by simpa using h0) (by push_cast; exact h1)
    exact ⟨r, hr, by simpa using ha, by simpa using hb⟩

/-- In the normal range the rounded value is within the relative error `2^-53`. -/
theorem round64_near {q : ℚ} (h1 : (2 : ℚ) ^ (-1022 : Int) ≤ |q|) (h2 : |q| < 2 ^ 1023) :
    ∃ r, round64 q = Dbl.fin r ∧ |r - q| ≤ |q| / 2 ^ 53 := by
  have hqpos : 0 < |q| := lt_of_lt_of_le (by positivity) h1
  have hlog : (-1022 : Int) ≤ Int.log 2 |q| :=
    (Int.zpow_le_iff_le_log (b := 2) (by norm_num) hqpos).1 h1
  have hu : ulpExp q = Int.log 2 |q| - 52 := by
    unfold ulpExp; rw [max_eq_left hlog]
  have hle : (2 : ℚ) ^ (Int.log 2 |q|) ≤ |q| := Int.zpow_log_le_self (by norm_num) hqpos
  have hupos : (0 : ℚ) < 2 ^ ulpExp q := by positivity
  have hulp : (2 : ℚ) ^ ulpExp q = 2 ^ (Int.log 2 |q|) / 2 ^ 52 := by
    rw [hu, zpow_sub₀ (by norm_num)]; norm_num
  have herr := abs_roundEven_sub_le (q / 2 ^ ulpExp q)
  have hdiff : |(roundEven (q / 2 ^ ulpExp q) : ℚ) * 2 ^ ulpExp q - q| ≤ |q| / 2 ^ 53 := by
    have e : (roundEven (q / 2 ^ ulpExp q) : ℚ) * 2 ^ ulpExp q - q
        = ((roundEven (q / 2 ^ ulpExp q) : ℚ) - q / 2 ^ ulpExp q) * 2 ^ ulpExp q := by
      field_simp
    rw [e, abs_mul, abs_of_pos hupos]
    calc |(roundEven (q / 2 ^ ulpExp q) : ℚ) - q / 2 ^ ulpExp q| * 2 ^ ulpExp q
        ≤ 1 / 2 * 2 ^ ulpExp q := mul_le_mul_of_nonneg_right herr hupos.le
      _ = 2 ^ (Int.log 2 |q|) / 2 ^ 53 := by rw [hulp]; ring
      _ ≤ |q| / 2 ^ 53 := by gcongr
  refine ⟨_, ?_, hdiff⟩
  have hb := abs_le.1 hdiff
  have hq := abs_le.1 (le_of_lt h2)
  have hq2 : |q| / 2 ^ 53 < 2 ^ 1023 := by
    have : |q| / 2 ^ 53 ≤ |q| := div_le_self hqpos.le (by norm_num)
    linarith
  have hpow : (2 : ℚ) ^ 1024 = 2 ^ 1023 + 2 ^ 1023 := by ring
  unfold round64
  rw [if_neg, if_neg]
  · intro h; rw [hpow] at h; linarith [hb.1, hb.2, hq.1, hq.2]
  · intro h; rw [hpow] at h; linarith [hb.1, hb.2, hq.1, hq.2]

theorem wrap32_range (x : Int) : -2147483648 ≤ wrap32 x ∧ wrap32 x < 2147483648 := by
  unfold wrap32; omega

theorem wrap32_of_range {x : Int} (h1 : -2147483648 ≤ x) (h2 : x < 2147483648) : wrap32 x = x := by
  unfold wrap32; omega

theorem wrap32_add_left (a b : Int) : wrap32 (wrap32 a + b) = wrap32 (a + b) := by
  unfold wrap32; omega

theorem wrap32_add_right (a b : Int) : wrap32 (a + wrap32 b) = wrap32 (a + b) := by
  unfold wrap32; omega

theorem wrap32_sub_left (a b : Int) : wrap32 (wrap32 a - b) = wrap32 (a - b) := by
  unfold wrap32; omega

theorem wrap32_eq_sub (x : Int) : ∃ k : Int, wrap32 x = x + 4294967296 * k := by
  refine ⟨-((x + 2147483648) / 4294967296), ?_⟩
  unfold wrap32
  have := Int.emod_add_ediv (x + 2147483648) 4294967296
  omega

theorem wrap32_add_mul (x k : Int) : wrap32 (x + 4294967296 * k) = wrap32 x := by
  unfold wrap32
  have : x + 4294967296 * k + 2147483648 = x + 2147483648 + 4294967296 * k := by ring
  rw [this, Int.add_mul_emod_self_left]

theorem wrap32_mul_right (a b : Int) : wrap32 (a * wrap32 b) = wrap32 (a * b) := by
  obtain ⟨k, hk⟩ := wrap32_eq_sub b
  rw [hk, mul_add, show a * (4294967296 * k) = 4294967296 * (a * k) by ring, wrap32_add_mul]

theorem wrap32_mul_left (a b : Int) : wrap32 (wrap32 a * b) = wrap32 (a * b) := by
  rw [mul_comm, wrap32_mul_right, mul_comm]

/-! ## Strings -/

theorem isUpper_iff (ch : Char) : isUpper ch = true ↔ 65 ≤ ch.toNat ∧ ch.toNat ≤ 90 := by
  simp [isUpper]

theorem ne_nul_of_isUpper {ch : Char} (h : isUpper ch = true) : (ch != nul) = true := by
  rw [isUpper_iff] at h
  have : ch ≠ nul := by
    rintro rfl
    have : nul.toNat = 0 := by decide
    omega
  simpa using this

theorem strlen_of_isUpper {text : List Char} (h : ∀ ch ∈ text, isUpper ch = true) :
    strlen text = text.length := by
  unfold strlen
  rw [List.takeWhile_eq_self_iff.2 (fun ch hch => ne_nul_of_isUpper (h ch hch))]

theorem toNat_letter {i : Nat} (hi : i < 26) : (letter i).toNat = 65 + i := by
  unfold letter
  interval_cases i <;> rfl

theorem eq_letter_of_isUpper {ch : Char} (h : isUpper ch = true) : ch = letter (ch.toNat - 65) := by
  rw [isUpper_iff] at h
  unfold letter
  rw [show 65 + (ch.toNat - 65) = ch.toNat by omega, Char.ofNat_toNat]

theorem charVal_of_isUpper {ch : Char} (h : isUpper ch = true) :
    charVal ch - charVal 'A' = ((ch.toNat - 65 : Nat) : Int) := by
  rw [isUpper_iff] at h
  have hA : charVal 'A' = 65 := by decide
  rw [hA]
  unfold charVal
  rw [if_pos (by omega)]
  omega

/-! ## Index of coincidence -/

theorem length_incrAt (counts : List Int) (k : Int) : (incrAt counts k).length = counts.length := by
  unfold incrAt; split <;> simp

theorem getD_incrAt (counts : List Int) (k i : Nat) (hk : k < counts.length) :
    (incrAt counts (k : Int)).getD i 0 = counts.getD i 0 + (if k = i then 1 else 0) := by
  unfold incrAt
  rw [if_pos ⟨by omega, by omega⟩]
  simp only [Int.toNat_ofNat, List.getD_eq_getElem?_getD, List.getElem?_set]
  by_cases h : k = i
  · subst h; simp [hk]
  · simp [h]

theorem getD_foldl_incrAt (text : List Char) (h : ∀ ch ∈ text, isUpper ch = true) :
    ∀ (counts : List Int), counts.length = 26 → ∀ i, i < 26 →
      ((text.foldl (fun counts ch => incrAt counts (charVal ch - charVal 'A')) counts).getD i 0
        = counts.getD i 0 + (text.count (letter i) : Int)) := by
  induction text with
  | nil => intro counts _ i _; simp
  | cons ch t ih =>
    intro counts hlen i hi
    have hch : isUpper ch = true := h ch (List.mem_cons_self _ _)
    have hup := (isUpper_iff ch).1 hch
    rw [List.foldl_cons, ih (fun c hc => h c (List.mem_cons_of_mem _ hc)) _
      (by rw [length_incrAt]; exact hlen) i hi, charVal_of_isUpper hch,
      getD_incrAt _ _ _ (by omega), List.count_cons]
    have hiff : (ch.toNat - 65 = i) ↔ (ch == letter i) = true := by
      rw [beq_iff_eq]
      constructor
      · intro e; rw [← e]; exact eq_letter_of_isUpper hch
      · intro e; rw [e, toNat_letter hi]; omega
    by_cases hc : ch.toNat - 65 = i
    · rw [if_pos hc, if_pos (hiff.1 hc)]; push_cast; ring
    · rw [if_neg hc, if_neg (fun e => hc (hiff.2 e))]; push_cast; ring

theorem getD_letterCounts (text : List Char) (h : ∀ ch ∈ text, isUpper ch = true) (i : Nat)
    (hi : i < 26) : (letterCounts text).getD i 0 = (text.count (letter i) : Int) := by
  unfold letterCounts
  rw [strlen_of_isUpper h, List.take_length, getD_foldl_incrAt text h _ (by simp) i hi]
  simp only [List.getD_eq_getElem?_getD, List.getElem?_replicate]
  simp [hi]

theorem iocSums_foldl (counts : List Int) (l : List Nat) (a b : Int) :
    l.foldl
      (fun acc i =>
        (wrap32 (acc.1 + wrap32 (counts.getD i 0 * wrap32 (counts.getD i 0 - 1))),
         wrap32 (acc.2 + counts.getD i 0)))
      (wrap32 a, wrap32 b)
    = (wrap32 (a + (l.map (fun i => counts.getD i 0 * (counts.getD i 0 - 1))).sum),
       wrap32 (b + (l.map (fun i => counts.getD i 0)).sum)) := by
  induction l generalizing a b with
  | nil => simp
  | cons i t ih =>
    simp only [List.foldl_cons, List.map_cons, List.sum_cons]
    rw [wrap32_add_left, wrap32_mul_right, wrap32_add_right, wrap32_add_left, ih]
    simp only [add_assoc]

theorem sum_range_eq_list (f : Nat → Int) (n : Nat) :
    ((List.range n).map f).sum = ∑ i in Finset.range n, f i := by
  induction n with
  | zero => simp
  | succ n ih => rw [List.range_succ, List.map_append, List.sum_append, ih, Finset.sum_range_succ]; simp

theorem iocSums_eq (counts : List Int) :
    iocSums counts
      = (wrap32 (∑ i in Finset.range 26, counts.getD i 0 * (counts.getD i 0 - 1)),
         wrap32 (∑ i in Finset.range 26, counts.getD i 0)) := by
  unfold iocSums
  have h := iocSums_foldl counts (List.range 26) 0 0
  rw [show wrap32 0 = 0 by decide] at h
  rw [h, sum_range_eq_list, sum_range_eq_list]
  simp

theorem count_letter_sum (text : List Char) (h : ∀ ch ∈ text, isUpper ch = true) :
    ∑ i in Finset.range 26, (text.count (letter i) : Int) = text.length := by
  induction text with
  | nil => simp
  | cons ch t ih =>
    have hch : isUpper ch = true := h ch (List.mem_cons_self _ _)
    have hup := (isUpper_iff ch).1 hch
    simp only [List.count_cons, List.length_cons]
    push_cast
    rw [Finset.sum_add_distrib, ih (fun c hc => h c (List.mem_cons_of_mem _ hc))]
    congr 1
    have : ∀ i ∈ Finset.range 26,
        (if (ch == letter i) = true then (1 : Int) else 0)
          = if ch.toNat - 65 = i then 1 else 0 := by
      intro i hi
      rw [Finset.mem_range] at hi
      have hiff : (ch.toNat - 65 = i) ↔ (ch == letter i) = true := by
        rw [beq_iff_eq]
        constructor
        · intro e; rw [← e]; exact eq_letter_of_isUpper hch
        · intro e; rw [e, toNat_letter hi]; omega
      by_cases hc : ch.toNat - 65 = i
      · rw [if_pos hc, if_pos (hiff.1 hc)]
      · rw [if_neg hc, if_neg (fun e => hc (hiff.2 e))]
    rw [Finset.sum_congr rfl this, Finset.sum_ite_eq]
    simp; omega

theorem numer_bounds (text : List Char) (h : ∀ ch ∈ text, isUpper ch = true) :
    0 ≤ ∑ i in Finset.range 26, (text.count (letter i) : Int) * ((text.count (letter i) : Int) - 1)
    ∧ ∑ i in Finset.range 26, (text.count (letter i) : Int) * ((text.count (letter i) : Int) - 1)
        ≤ (text.length : Int) * ((text.length : Int) - 1) := by
  constructor
  · apply Finset.sum_nonneg
    intro i _
    rcases Nat.eq_zero_or_pos (text.count (letter i)) with h0 | h0
    · rw [h0]; simp
    · apply mul_nonneg <;> omega
  · calc ∑ i in Finset.range 26, (text.count (letter i) : Int) * ((text.count (letter i) : Int) - 1)
        ≤ ∑ i in Finset.range 26, (text.count (letter i) : Int) * ((text.length : Int) - 1) := by
          apply Finset.sum_le_sum
          intro i _
          have hle : text.count (letter i) ≤ text.length := List.count_le_length _ _
          apply mul_le_mul_of_nonneg_left <;> omega
      _ = (text.length : Int) * ((text.length : Int) - 1) := by
          rw [← Finset.sum_mul, count_letter_sum text h]

theorem Dbl.mul_fin (a b : ℚ) : Dbl.mul (Dbl.fin a) (Dbl.fin b) = round64 (a * b) := rfl

theorem Dbl.add_fin (a b : ℚ) : Dbl.add (Dbl.fin a) (Dbl.fin b) = round64 (a + b) := rfl

theorem Dbl.div_fin {a b : ℚ} (hb : b ≠ 0) : Dbl.div (Dbl.fin a) (Dbl.fin b) = round64 (a / b) := by
  simp [Dbl.div, hb]

theorem Dbl.div_zero_zero : Dbl.div (Dbl.fin 0) (Dbl.fin 0) = Dbl.nan := by
  simp [Dbl.div, Dbl.infOfSign]

/-- The product `26.*numer` of `index_of_coincidence` is exact for every `int`. -/
theorem Dbl.mul_26 (n : Int) (h1 : -2147483648 ≤ n) (h2 : n < 2147483648) :
    Dbl.mul (Dbl.fin 26) (Dbl.ofInt n) = Dbl.fin (26 * (n : ℚ)) := by
  unfold Dbl.ofInt
  rw [Dbl.mul_fin]
  have := round64_intCast (26 * n) (by omega) (by omega)
  push_cast at this
  exact this

/-- The single rounding of `index_of_coincidence`: on a text of `L` uppercase letters,
`2 ≤ L ≤ 10000`, the `int` sums do not wrap, the product `26.*numer` is exact, and the
result is the rounded quotient. -/
theorem index_of_coincidence_rounded (text : List Char)
    (hup : ∀ ch ∈ text, isUpper ch = true) (h2 : 2 ≤ text.length) (hmax : text.length ≤ 10000) :
    index_of_coincidence text
      = round64 (26 * (∑ i in Finset.range 26,
            (text.count (letter i) : ℚ) * ((text.count (letter i) : ℚ) - 1))
          / ((text.length : ℚ) * ((text.length : ℚ) - 1))) := by
  have hc : ∀ i ∈ Finset.range 26, (letterCounts text).getD i 0 = (text.count (letter i) : Int) :=
    fun i hi => getD_letterCounts text hup i (Finset.mem_range.1 hi)
  obtain ⟨hn0, hn1⟩ := numer_bounds text hup
  have hL : (text.length : Int) * ((text.length : Int) - 1) ≤ 10000 * 9999 :=
    mul_le_mul (by omega) (by omega) (by omega) (by omega)
  have hL0 : 0 < (text.length : Int) * ((text.length : Int) - 1) :=
    mul_pos (by omega) (by omega)
  unfold index_of_coincidence
  simp only [iocSums_eq]
  rw [Finset.sum_congr rfl (fun i hi => by rw [hc i hi]),
    Finset.sum_congr rfl hc, count_letter_sum text hup,
    wrap32_of_range (by omega) (by omega),
    wrap32_of_range (x := (text.length : Int)) (by omega) (by omega),
    wrap32_of_range (x := (text.length : Int) - 1) (by omega) (by omega),
    wrap32_of_range (by omega) (by omega)]
  rw [Dbl.mul_26 _ (by omega) (by omega)]
  unfold Dbl.ofInt
  rw [Dbl.div_fin]
  · push_cast; rfl
  · have : ((text.length : Int) * ((text.length : Int) - 1) : Int) ≠ 0 := by omega
    exact_mod_cast this

/-- The value of `index_of_coincidence` on `ABAB`: the binary64 number next to `26/3`. -/
theorem index_of_coincidence_ABAB :
    index_of_coincidence "ABAB".toList = Dbl.fin (4878899596318037 / 562949953421312) := by
  have hs : (∑ i in Finset.range 26,
      (("ABAB".toList).count (letter i) : Int) * ((("ABAB".toList).count (letter i) : Int) - 1))
        = 4 := by decide
  have hq : (∑ i in Finset.range 26,
      (("ABAB".toList).count (letter i) : ℚ) * ((("ABAB".toList).count (letter i) : ℚ) - 1))
        = 4 := by exact_mod_cast hs
  have hl : "ABAB".toList.length = 4 := by decide
  rw [index_of_coincidence_rounded "ABAB".toList (by decide) (by decide) (by decide), hq, hl,
    round64_eval 3 4878899596318037 (by norm_num [abs_of_pos]) (by norm_num [abs_of_pos])
      (by norm_num) (by norm_num [abs_lt]) (by norm_num [abs_lt])]
  norm_num

/-- C1 as stated fails: on the text `ABAB` (counts 2, 2, length 4) the formula
`26 * Σ count_i * (count_i - 1) / (L * (L - 1))` has the value `26/3`, which is not a
binary64 number; `index_of_coincidence` returns the binary64 number
`4878899596318037 / 2^49` next to it. -/
theorem index_of_coincidence_not_exact :
    (26 * (∑ i in Finset.range 26,
          (("ABAB".toList).count (letter i) : ℚ) * ((("ABAB".toList).count (letter i) : ℚ) - 1))
        / ((("ABAB".toList).length : ℚ) * ((("ABAB".toList).length : ℚ) - 1)) : ℚ) = 26 / 3
      ∧ index_of_coincidence "ABAB".toList = Dbl.fin (4878899596318037 / 562949953421312)
      ∧ index_of_coincidence "ABAB".toList ≠ Dbl.fin (26 / 3) := by
  have hf : (26 * (∑ i in Finset.range 26,
          (("ABAB".toList).count (letter i) : ℚ) * ((("ABAB".toList).count (letter i) : ℚ) - 1))
        / ((("ABAB".toList).length : ℚ) * ((("ABAB".toList).length : ℚ) - 1)) : ℚ) = 26 / 3 := by
    have hs : (∑ i in Finset.range 26,
        (("ABAB".toList).count (letter i) : Int) * ((("ABAB".toList).count (letter i) : Int) - 1))
          = 4 := by decide
    have hq : (∑ i in Finset.range 26,
        (("ABAB".toList).count (letter i) : ℚ) * ((("ABAB".toList).count (letter i) : ℚ) - 1))
          = 4 := by exact_mod_cast hs
    have hl : "ABAB".toList.length = 4 := by decide
    rw [hq, hl]; norm_num
  have hv := index_of_coincidence_ABAB
  refine ⟨hf, hv, ?_⟩
  rw [hv]
  intro h
  have := Dbl.fin.inj h
  norm_num at this

/-- C1 (amended): on a text of `L` uppercase letters, `2 ≤ L ≤ 10000`,
`index_of_coincidence` returns the binary64 number nearest to
`26 * Σ count_i * (count_i - 1) / (L * (L - 1))` (a tie going to the even one), the sum
ranging over the 26 letters and `count_i` being the number of occurrences of the `i`-th
letter in the text; the returned number is finite and differs from that value by at most
`2^-53` times the value. -/
theorem index_of_coincidence_formula (text : List Char)
    (hup : ∀ ch ∈ text, isUpper ch = true) (h2 : 2 ≤ text.length) (hmax : text.length ≤ 10000) :
    index_of_coincidence text
        = round64 (26 * (∑ i in Finset.range 26,
            (text.count (letter i) : ℚ) * ((text.count (letter i) : ℚ) - 1))
          / ((text.length : ℚ) * ((text.length : ℚ) - 1)))
      ∧ ∃ r : ℚ, index_of_coincidence text = Dbl.fin r
          ∧ |r - 26 * (∑ i in Finset.range 26,
                (text.count (letter i) : ℚ) * ((text.count (letter i) : ℚ) - 1))
              / ((text.length : ℚ) * ((text.length : ℚ) - 1))|
            ≤ 26 * (∑ i in Finset.range 26,
                (text.count (letter i) : ℚ) * ((text.count (letter i) : ℚ) - 1))
              / ((text.length : ℚ) * ((text.length : ℚ) - 1)) / 2 ^ 53 := by
  have hr := index_of_coincidence_rounded text hup h2 hmax
  refine ⟨hr, ?_⟩
  rw [hr]
  obtain ⟨hn0, hn1⟩ := numer_bounds text hup
  have hL : (text.length : Int) * ((text.length : Int) - 1) ≤ 10000 * 9999 :=
    mul_le_mul (by omega) (by omega) (by omega) (by omega)
  have hL0 : 0 < (text.length : Int) * ((text.length : Int) - 1) :=
    mul_pos (by omega) (by omega)
  have hsum : (∑ i in Finset.range 26,
      (text.count (letter i) : ℚ) * ((text.count (letter i) : ℚ) - 1))
        = ((∑ i in Finset.range 26,
            (text.count (letter i) : Int) * ((text.count (letter i) : Int) - 1) : Int) : ℚ) := by
    push_cast; rfl
  have hden : (text.length : ℚ) * ((text.length : ℚ) - 1)
      = (((text.length : Int) * ((text.length : Int) - 1) : Int) : ℚ) := by
    push_cast; rfl
  rw [hsum, hden]
  generalize (∑ i in Finset.range 26,
      (text.count (letter i) : Int) * ((text.count (letter i) : Int) - 1)) = n at hn0 hn1
  generalize (text.length : Int) * ((text.length : Int) - 1) = d at hn1 hL hL0
  have hdq : (0 : ℚ) < d := by exact_mod_cast hL0
  have hdq2 : (d : ℚ) ≤ 99990000 := by exact_mod_cast hL
  rcases eq_or_lt_of_le hn0 with h0 | hpos
  · rw [← h0]
    refine ⟨0, ?_, by simp⟩
    simp [round64_zero]
  · have hnq : (1 : ℚ) ≤ n := by exact_mod_cast hpos
    have hnd : (n : ℚ) ≤ d := by exact_mod_cast hn1
    have hq0 : (0 : ℚ) < 26 * n / d := by positivity
    have hlo : (1 : ℚ) / 99990000 ≤ 26 * n / d := by
      rw [div_le_div_iff₀ (by norm_num) hdq]; nlinarith
    have hhi : 26 * (n : ℚ) / d ≤ 26 := by
      rw [div_le_iff₀ hdq]; nlinarith
    obtain ⟨r, hr1, hr2⟩ := round64_near (q := 26 * (n : ℚ) / d)
      (by rw [abs_of_pos hq0]; exact le_trans (by norm_num) hlo)
      (by rw [abs_of_pos hq0]; exact lt_of_le_of_lt hhi (by norm_num))
    rw [abs_of_pos hq0] at hr2
    exact ⟨r, hr1, hr2⟩

/-- Witness for C1 (amended): the text `ABAB`. -/
theorem index_of_coincidence_formula_witness :
    (∀ ch ∈ "ABAB".toList, isUpper ch = true) ∧ 2 ≤ "ABAB".toList.length
      ∧ "ABAB".toList.length ≤ 10000
      ∧ (index_of_coincidence "ABAB".toList
          = round64 (26 * (∑ i in Finset.range 26,
              (("ABAB".toList).count (letter i) : ℚ) * ((("ABAB".toList).count (letter i) : ℚ) - 1))
            / ((("ABAB".toList).length : ℚ) * ((("ABAB".toList).length : ℚ) - 1)))
        ∧ ∃ r : ℚ, index_of_coincidence "ABAB".toList = Dbl.fin r
            ∧ |r - 26 * (∑ i in Finset.range 26,
                  (("ABAB".toList).count (letter i) : ℚ)
                    * ((("ABAB".toList).count (letter i) : ℚ) - 1))
                / ((("ABAB".toList).length : ℚ) * ((("ABAB".toList).length : ℚ) - 1))|
              ≤ 26 * (∑ i in Finset.range 26,
                  (("ABAB".toList).count (letter i) : ℚ)
                    * ((("ABAB".toList).count (letter i) : ℚ) - 1))
                / ((("ABAB".toList).length : ℚ) * ((("ABAB".toList).length : ℚ) - 1)) / 2 ^ 53) :=
  ⟨by decide, by decide, by decide,
    index_of_coincidence_formula "ABAB".toList (by decide) (by decide) (by decide)⟩

/-! ## Tetragram fitness -/

theorem charVal_sub_eq_rank {text : List Char} (hup : ∀ ch ∈ text, isUpper ch = true) {i : Nat}
    (hi : i < text.length) : charVal (charAt text i) - charVal 'A' = rank (text.getD i nul) := by
  have hmem : text.getD i nul ∈ text := by
    rw [List.getD_eq_getElem _ _ hi]; exact List.getElem_mem hi
  have h := (isUpper_iff _).1 (hup _ hmem)
  have hA : charVal 'A' = 65 := by decide
  rw [hA]
  unfold charAt rank charVal
  rw [if_pos (by omega)]

theorem tetragramIndex_eq_windowKey {text : List Char} (hup : ∀ ch ∈ text, isUpper ch = true)
    {i : Nat} (hi : i + 3 < text.length) : tetragramIndex text i = windowKey text i := by
  unfold tetragramIndex windowKey
  rw [charVal_sub_eq_rank hup (show i + 0 < text.length by omega),
    charVal_sub_eq_rank hup (show i + 1 < text.length by omega),
    charVal_sub_eq_rank hup (show i + 2 < text.length by omega),
    charVal_sub_eq_rank hup hi]
  simp only [Nat.add_zero]
  ring

theorem fitnessLoop_foldl (f : Nat → Dbl) (l : List Nat) (r : Dbl) (c : Int) :
    l.foldl (fun (acc : Dbl × Int) i => (Dbl.add acc.1 (f i), acc.2 + 1)) (r, c)
      = ((l.map f).foldl Dbl.add r, c + l.length) := by
  induction l generalizing r c with
  | nil => simp
  | cons i t ih =>
    simp only [List.foldl_cons, List.map_cons, List.length_cons]
    rw [ih]
    congr 1
    push_cast; ring

/-- The loop of `fitness` on a text of `L ≥ 4` uppercase letters: the table entries of the
windows `0 .. L - 4` are added to `0.` in this order, and `count` ends at `L - 3`. -/
theorem fitnessLoop_eq (tetragrams : Int → Dbl) (text : List Char)
    (hup : ∀ ch ∈ text, isUpper ch = true) (h4 : 4 ≤ text.length) :
    fitnessLoop tetragrams text
      = (((List.range (text.length - 3)).map (fun i => tetragrams (windowKey text i))).foldl
          Dbl.add (Dbl.fin 0), (text.length : Int) - 3) := by
  unfold fitnessLoop
  rw [strlen_of_isUpper hup, fitnessLoop_foldl (fun i => tetragrams (tetragramIndex text i))]
  have hn : ((text.length : Int) - 3).toNat = text.length - 3 := by omega
  simp only [hn, List.length_range, zero_add]
  congr 1
  · congr 1
    apply List.map_congr_left
    intro i hi
    rw [List.mem_range] at hi
    rw [tetragramIndex_eq_windowKey hup (by omega)]
  · omega

/-- The additions and the division that `fitness` performs on the text `AAAABA`. -/
theorem fitness_AAAABA (t : Int → Dbl) :
    fitness t "AAAABA".toList
      = Dbl.div (Dbl.add (Dbl.add (Dbl.add (Dbl.fin 0) (t 0)) (t 1)) (t 26)) (Dbl.fin 3) := by
  have hl : "AAAABA".toList.length = 6 := by decide
  have hw0 : windowKey "AAAABA".toList 0 = 0 := by decide
  have hw1 : windowKey "AAAABA".toList 1 = 1 := by decide
  have hw2 : windowKey "AAAABA".toList 2 = 26 := by decide
  unfold fitness
  rw [fitnessLoop_eq t "AAAABA".toList (by decide) (by decide), hl,
    show (6 - 3 : Nat) = 3 from rfl, show List.range 3 = [0, 1, 2] from rfl]
  simp only [List.map_cons, List.map_nil, List.foldl_cons, List.foldl_nil, hw0, hw1, hw2]
  unfold Dbl.ofInt
  norm_num

/-- C2 as stated fails: on the text `AAAABA`, whose windows have the keys 0, 1 and 26,
with the table entries `2^54`, `1` and `-2^54` at these keys, the sum of the entries
divided by the number of windows is `1/3`, whereas `fitness` returns `0.0`: the running
sum `2^54 + 1` rounds back to `2^54`. -/
theorem fitness_not_exact :
    (List.range ("AAAABA".toList.length - 3)).map (fun i => windowKey "AAAABA".toList i)
        = [0, 1, 26]
      ∧ (∑ i in Finset.range ("AAAABA".toList.length - 3),
            cancelTable (windowKey "AAAABA".toList i))
          / (("AAAABA".toList.length : ℚ) - 3) = 1 / 3
      ∧ fitness (fun k => Dbl.fin (cancelTable k)) "AAAABA".toList = Dbl.fin 0 := by
  have hk : (List.range ("AAAABA".toList.length - 3)).map (fun i => windowKey "AAAABA".toList i)
      = [0, 1, 26] := by decide
  have hl : "AAAABA".toList.length = 6 := by decide
  have hw0 : windowKey "AAAABA".toList 0 = 0 := by decide
  have hw1 : windowKey "AAAABA".toList 1 = 1 := by decide
  have hw2 : windowKey "AAAABA".toList 2 = 26 := by decide
  have c0 : cancelTable 0 = 18014398509481984 := by unfold cancelTable; norm_num
  have c1 : cancelTable 1 = 1 := by unfold cancelTable; norm_num
  have c2 : cancelTable 26 = -18014398509481984 := by unfold cancelTable; norm_num
  have h1 : round64 (0 + 18014398509481984) = Dbl.fin 18014398509481984 := by
    rw [round64_eval 54 4503599627370496 (by norm_num [abs_of_pos]) (by norm_num [abs_of_pos])
      (by norm_num) (by norm_num [abs_lt]) (by norm_num [abs_lt])]
    norm_num
  have h2 : round64 (18014398509481984 + 1) = Dbl.fin 18014398509481984 := by
    rw [round64_eval 54 4503599627370496 (by norm_num [abs_of_pos]) (by norm_num [abs_of_pos])
      (by norm_num) (by norm_num [abs_lt]) (by norm_num [abs_lt])]
    norm_num
  have h3 : round64 (18014398509481984 + -18014398509481984) = Dbl.fin 0 := by
    rw [show (18014398509481984 + -18014398509481984 : ℚ) = 0 by norm_num, round64_zero]
  refine ⟨hk, ?_, ?_⟩
  · rw [hl, Finset.sum_range_succ, Finset.sum_range_succ, Finset.sum_range_succ,
      Finset.sum_range_zero, hw0, hw1, hw2, c0, c1, c2]
    norm_num
  · rw [fitness_AAAABA]
    show Dbl.div (Dbl.add (Dbl.add (Dbl.add (Dbl.fin 0) (Dbl.fin (cancelTable 0)))
      (Dbl.fin (cancelTable 1))) (Dbl.fin (cancelTable 26))) (Dbl.fin 3) = Dbl.fin 0
    rw [c0, c1, c2, Dbl.add_fin, h1, Dbl.add_fin, h2, Dbl.add_fin, h3,
      Dbl.div_fin (by norm_num), zero_div, round64_zero]

/-- C2 (amended): on a text of `L ≥ 4` uppercase letters, `fitness` returns the binary64
quotient by `L - 3`, the number of windows, of the running sum obtained by adding to `0.`,
one after the other for the window starts `i = 0, …, L - 4`, the table entries at key
`rank t[i] * 26^3 + rank t[i+1] * 26^2 + rank t[i+2] * 26 + rank t[i+3]`, each addition
and the division rounding its result to binary64. -/
theorem fitness_formula (tetragrams : Int → Dbl) (text : List Char)
    (hup : ∀ ch ∈ text, isUpper ch = true) (h4 : 4 ≤ text.length) :
    fitnessLoop tetragrams text
        = (((List.range (text.length - 3)).map (fun i => tetragrams (windowKey text i))).foldl
            Dbl.add (Dbl.fin 0), (text.length : Int) - 3)
      ∧ fitness tetragrams text
        = Dbl.div
            (((List.range (text.length - 3)).map (fun i => tetragrams (windowKey text i))).foldl
              Dbl.add (Dbl.fin 0))
            (Dbl.ofInt ((text.length : Int) - 3)) := by
  have h := fitnessLoop_eq tetragrams text hup h4
  refine ⟨h, ?_⟩
  unfold fitness
  rw [h]

/-- Witness for C2 (amended): the text `HELLO` and the table whose entry at key `k` is
`k`. -/
theorem fitness_formula_witness :
    (∀ ch ∈ "HELLO".toList, isUpper ch = true) ∧ 4 ≤ "HELLO".toList.length
      ∧ (fitnessLoop (fun k => Dbl.fin k) "HELLO".toList
          = (((List.range ("HELLO".toList.length - 3)).map
                (fun i => (fun k : Int => Dbl.fin k) (windowKey "HELLO".toList i))).foldl
              Dbl.add (Dbl.fin 0), ("HELLO".toList.length : Int) - 3)
        ∧ fitness (fun k => Dbl.fin k) "HELLO".toList
          = Dbl.div
              (((List.range ("HELLO".toList.length - 3)).map
                  (fun i => (fun k : Int => Dbl.fin k) (windowKey "HELLO".toList i))).foldl
                Dbl.add (Dbl.fin 0))
              (Dbl.ofInt (("HELLO".toList.length : Int) - 3))) :=
  ⟨by decide, by decide, fitness_formula (fun k => Dbl.fin k) "HELLO".toList (by decide) (by decide)⟩

/-! ## Decryption -/

theorem take_strlen (s : List Char) : s.take (strlen s) = s.takeWhile (fun ch => ch != nul) := by
  unfold strlen
  exact (List.prefix_iff_eq_take.1 (List.takeWhile_prefix _)).symm

theorem positionFrom_of_mem (c : Char) : ∀ (l : List Char) (i : Nat), c ∈ l →
    positionFrom c l i = ((i + List.indexOf c l : Nat) : Int) := by
  intro l
  induction l with
  | nil => intro i h; simp at h
  | cons x t ih =>
    intro i h
    unfold positionFrom
    by_cases hx : c = x
    · subst hx; simp
    · rw [if_neg hx, ih (i + 1) (by simpa [hx] using h),
        List.indexOf_cons_ne _ (fun e => hx e.symm)]
      congr 1; omega

theorem isUpper_of_mem_alphabet {ch : Char} (h : ch ∈ alphabet) : isUpper ch = true := by
  revert ch; decide

theorem mem_alphabet_of_isUpper {ch : Char} (h : isUpper ch = true) : ch ∈ alphabet := by
  rw [eq_letter_of_isUpper h]
  have hlt : ch.toNat - 65 < 26 := by have := (isUpper_iff ch).1 h; omega
  generalize ch.toNat - 65 = n at hlt
  interval_cases n <;> decide

theorem isPermutation.length_eq {column : List Char} (h : isPermutation column) :
    column.length = 26 := by
  rw [List.Perm.length_eq h]; rfl

theorem isPermutation.mem_iff {column : List Char} (h : isPermutation column) (ch : Char) :
    ch ∈ column ↔ isUpper ch = true :=
  ⟨fun hm => isUpper_of_mem_alphabet ((List.Perm.mem_iff h).1 hm),
   fun hu => (List.Perm.mem_iff h).2 (mem_alphabet_of_isUpper hu)⟩

/-- On a permutation column followed by any bytes, `position` finds every letter at its
first index within the column. -/
theorem position_of_isPermutation {column : List Char} (h : isPermutation column)
    (rest : List Char) {c : Char} (hc : isUpper c = true) :
    position c (column ++ rest) = (List.indexOf c column : Int)
      ∧ List.indexOf c column < 26 := by
  have hmem : c ∈ column := (h.mem_iff c).2 hc
  have hlt : List.indexOf c column < 26 := by
    rw [← h.length_eq]; exact List.indexOf_lt_length.2 hmem
  refine ⟨?_, hlt⟩
  unfold position
  rw [take_strlen, List.takeWhile_append_of_pos
      (fun a ha => ne_nul_of_isUpper ((h.mem_iff a).1 ha)),
    positionFrom_of_mem c _ 0 (List.mem_append_left _ hmem), List.indexOf_append_of_mem hmem]
  simp

theorem rowString_eq_append (key : Key) (r : Nat) (hr : r < key.length) :
    rowString key r = key.getD r [] ++ rowString key (r + 1) := by
  unfold rowString
  rw [List.drop_eq_getElem_cons hr, List.flatten_cons, List.getD_eq_getElem _ _ hr]

theorem lt_length_of_isPermutation {key : Key} {r : Nat} (h : isPermutation (key.getD r [])) :
    r < key.length := by
  by_contra hlt
  have h0 : key.getD r [] = [] := by
    rw [List.getD_eq_getElem?_getD, List.getElem?_eq_none (by omega)]; rfl
  have := h.length_eq
  rw [h0] at this
  simp at this

theorem alphabetAt_of_lt {n : Nat} (hn : n < 26) :
    alphabetAt (n : Int) = some (alphabet.getD n nul) ∧ alphabet.getD n nul = letter n := by
  unfold alphabetAt
  rw [if_pos ⟨by omega, by omega⟩, Int.toNat_ofNat]
  interval_cases n <;> exact ⟨rfl, by decide⟩

theorem rank_letter {n : Nat} (hn : n < 26) : (rank (letter n)).toNat = n := by
  unfold rank
  rw [toNat_letter hn]
  omega

/-- One step of `decrypt` on a permutation column: the read succeeds, and the letter it
yields has the rank at which the ciphertext letter first occurs in the column. -/
theorem decrypt_step {key : Key} {r : Nat} (h : isPermutation (key.getD r [])) {ch : Char}
    (hch : isUpper ch = true) :
    position ch (rowString key r) = (List.indexOf ch (key.getD r []) : Int)
      ∧ List.indexOf ch (key.getD r []) < 26
      ∧ alphabetAt (position ch (rowString key r))
          = some (alphabet.getD (List.indexOf ch (key.getD r [])) nul)
      ∧ alphabet.getD (List.indexOf ch (key.getD r [])) nul
          = letter (List.indexOf ch (key.getD r []))
      ∧ (key.getD r []).getD (List.indexOf ch (key.getD r [])) nul = ch := by
  have hr := lt_length_of_isPermutation h
  obtain ⟨hpos, hlt⟩ := position_of_isPermutation h (rowString key (r + 1)) hch
  rw [← rowString_eq_append key r hr] at hpos
  refine ⟨hpos, hlt, ?_, (alphabetAt_of_lt hlt).2, ?_⟩
  · rw [hpos]; exact (alphabetAt_of_lt hlt).1
  · have hl : List.indexOf ch (key.getD r []) < (key.getD r []).length := by
      rw [h.length_eq]; exact hlt
    rw [List.getD_eq_getElem _ _ hl]
    exact List.getElem_indexOf hl

theorem decryptFrom_spec {key : Key} {k : Nat} (hk : 1 ≤ k)
    (hkey : ∀ r, r < k → isPermutation (key.getD r [])) :
    ∀ (text : List Char) (i : Nat), (∀ ch ∈ text, isUpper ch = true) →
      ∃ p, decryptFrom key k i text = some p ∧ p.length = text.length
        ∧ (∀ j, j < text.length →
            p.getD j nul
              = alphabet.getD (List.indexOf (text.getD j nul) (key.getD ((i + j) % k) [])) nul)
        ∧ encryptFrom key k i p = text := by
  intro text
  induction text with
  | nil => intro i _; exact ⟨[], rfl, rfl, fun j hj => by simp at hj, rfl⟩
  | cons ch t ih =>
    intro i hup
    obtain ⟨p, hp, hlen, hget, henc⟩ := ih (i + 1) (fun c hc => hup c (List.mem_cons_of_mem _ hc))
    have hperm := hkey (i % k) (Nat.mod_lt _ (by omega))
    obtain ⟨_, hlt, hal, hlet, hcol⟩ := decrypt_step hperm (hup ch (List.mem_cons_self _ _))
    refine ⟨alphabet.getD (List.indexOf ch (key.getD (i % k) [])) nul :: p, ?_,
      by simp [hlen], ?_, ?_⟩
    · unfold decryptFrom
      rw [hal, hp]
    · intro j hj
      cases j with
      | zero => simp
      | succ j =>
        have := hget j (by simpa using hj)
        simpa [show i + (j + 1) = i + 1 + j by omega] using this
    · unfold encryptFrom
      rw [henc, hlet, rank_letter hlt, hcol]

/-- C3: for a ciphertext over `A`–`Z`, a period `k ≥ 1` and a key whose first `k` columns
are permutations of the 26 letters, `decrypt` produces a plaintext of the length of the
ciphertext; at every index `i`, `position` returns the first index of the ciphertext
letter within column `i mod k` (below 26, never `-1`), and the plaintext letter is the
letter of the canonical alphabet at that index, an uppercase letter. -/
theorem decrypt_isPermutation (c : List Char) (key : Key) (k : Nat)
    (hc : ∀ ch ∈ c, isUpper ch = true) (hk : 1 ≤ k)
    (hkey : ∀ r, r < k → isPermutation (key.getD r [])) :
    ∃ p, decrypt c key k = some p ∧ p.length = c.length
      ∧ ∀ i, i < c.length →
          position (c.getD i nul) (rowString key (i % k))
              = (List.indexOf (c.getD i nul) (key.getD (i % k) []) : Int)
            ∧ position (c.getD i nul) (rowString key (i % k)) ≠ -1
            ∧ List.indexOf (c.getD i nul) (key.getD (i % k) []) < 26
            ∧ p.getD i nul
                = alphabet.getD (List.indexOf (c.getD i nul) (key.getD (i % k) [])) nul
            ∧ isUpper (p.getD i nul) = true := by
  obtain ⟨p, hp, hlen, hget, _⟩ := decryptFrom_spec hk hkey c 0 hc
  refine ⟨p, ?_, hlen, ?_⟩
  · unfold decrypt
    rw [strlen_of_isUpper hc, List.take_length]
    exact hp
  · intro i hi
    have hci : isUpper (c.getD i nul) = true := by
      rw [List.getD_eq_getElem _ _ hi]; exact hc _ (List.getElem_mem hi)
    obtain ⟨hpos, hlt, _, hlet, _⟩ := decrypt_step (hkey (i % k) (Nat.mod_lt _ (by omega))) hci
    have hg := hget i hi
    rw [Nat.zero_add] at hg
    refine ⟨hpos, by rw [hpos]; omega, hlt, hg, ?_⟩
    rw [hg, hlet, isUpper_iff, toNat_letter hlt]
    omega

/-- Witness for C3: the ciphertext `QAZ` under the one-column key `QWERTY…`. -/
theorem decrypt_isPermutation_witness :
    (∀ ch ∈ "QAZ".toList, isUpper ch = true) ∧ 1 ≤ 1
      ∧ (∀ r, r < 1 → isPermutation (["QWERTYUIOPASDFGHJKLZXCVBNM".toList].getD r []))
      ∧ ∃ p, decrypt "QAZ".toList ["QWERTYUIOPASDFGHJKLZXCVBNM".toList] 1 = some p
          ∧ p.length = "QAZ".toList.length
          ∧ ∀ i, i < "QAZ".toList.length →
              position ("QAZ".toList.getD i nul)
                  (rowString ["QWERTYUIOPASDFGHJKLZXCVBNM".toList] (i % 1))
                  = (List.indexOf ("QAZ".toList.getD i nul)
                      (["QWERTYUIOPASDFGHJKLZXCVBNM".toList].getD (i % 1) []) : Int)
                ∧ position ("QAZ".toList.getD i nul)
                    (rowString ["QWERTYUIOPASDFGHJKLZXCVBNM".toList] (i % 1)) ≠ -1
                ∧ List.indexOf ("QAZ".toList.getD i nul)
                    (["QWERTYUIOPASDFGHJKLZXCVBNM".toList].getD (i % 1) []) < 26
                ∧ p.getD i nul
                    = alphabet.getD (List.indexOf ("QAZ".toList.getD i nul)
                        (["QWERTYUIOPASDFGHJKLZXCVBNM".toList].getD (i % 1) [])) nul
                ∧ isUpper (p.getD i nul) = true :=
  ⟨by decide, by decide, by decide,
    decrypt_isPermutation "QAZ".toList ["QWERTYUIOPASDFGHJKLZXCVBNM".toList] 1
      (by decide) (by decide) (by decide)⟩

/-- C4 (round trip): on a column that is a permutation of the 26 letters, `position`
of a letter `ch` is an index at which the column holds `ch`, so re-encrypting the
decrypted letter with the same column recovers it; and for a key whose first `k` columns
are permutations, encrypting `decrypt c key k` index by index with column `i mod k`
gives back the ciphertext `c`. -/
theorem decrypt_encrypt_roundtrip (column rest : List Char) (ch : Char)
    (hcol : isPermutation column) (hch : isUpper ch = true)
    (c : List Char) (key : Key) (k : Nat)
    (hc : ∀ x ∈ c, isUpper x = true) (hk : 1 ≤ k)
    (hkey : ∀ r, r < k → isPermutation (key.getD r [])) :
    (∃ n : Nat, position ch (column ++ rest) = (n : Int) ∧ column.getD n nul = ch
        ∧ alphabetAt (position ch (column ++ rest)) = some (letter n)
        ∧ column.getD (rank (letter n)).toNat nul = ch)
      ∧ (∃ p, decrypt c key k = some p ∧ encrypt p key k = c) := by
  constructor
  · obtain ⟨hpos, hlt⟩ := position_of_isPermutation hcol rest hch
    have hl : List.indexOf ch column < column.length := by rw [hcol.length_eq]; exact hlt
    have hget : column.getD (List.indexOf ch column) nul = ch := by
      rw [List.getD_eq_getElem _ _ hl]; exact List.getElem_indexOf hl
    refine ⟨List.indexOf ch column, hpos, hget, ?_, ?_⟩
    · rw [hpos, (alphabetAt_of_lt hlt).1, (alphabetAt_of_lt hlt).2]
    · rw [rank_letter hlt, hget]
  · obtain ⟨p, hp, _, _, henc⟩ := decryptFrom_spec hk hkey c 0 hc
    refine ⟨p, ?_, henc⟩
    unfold decrypt
    rw [strlen_of_isUpper hc, List.take_length]
    exact hp

/-- Witness for C4: the letter `T` and the ciphertext `QAZQ` under the two-column key
`QWERTY…`, `ZYX…`. -/
theorem decrypt_encrypt_roundtrip_witness :
    isPermutation "QWERTYUIOPASDFGHJKLZXCVBNM".toList ∧ isUpper 'T' = true
      ∧ (∀ x ∈ "QAZQ".toList, isUpper x = true) ∧ 1 ≤ 2
      ∧ (∀ r, r < 2 → isPermutation
          (["QWERTYUIOPASDFGHJKLZXCVBNM".toList, "ZYXWVUTSRQPONMLKJIHGFEDCBA".toList].getD r []))
      ∧ ((∃ n : Nat, position 'T' ("QWERTYUIOPASDFGHJKLZXCVBNM".toList ++ []) = (n : Int)
            ∧ "QWERTYUIOPASDFGHJKLZXCVBNM".toList.getD n nul = 'T'
            ∧ alphabetAt (position 'T' ("QWERTYUIOPASDFGHJKLZXCVBNM".toList ++ []))
                = some (letter n)
            ∧ "QWERTYUIOPASDFGHJKLZXCVBNM".toList.getD (rank (letter n)).toNat nul = 'T')
          ∧ (∃ p, decrypt "QAZQ".toList
                ["QWERTYUIOPASDFGHJKLZXCVBNM".toList, "ZYXWVUTSRQPONMLKJIHGFEDCBA".toList] 2
                = some p
              ∧ encrypt p
                  ["QWERTYUIOPASDFGHJKLZXCVBNM".toList, "ZYXWVUTSRQPONMLKJIHGFEDCBA".toList] 2
                = "QAZQ".toList)) :=
  ⟨by decide, by decide, by decide, by decide, by decide,
    decrypt_encrypt_roundtrip "QWERTYUIOPASDFGHJKLZXCVBNM".toList [] 'T' (by decide) (by decide)
      "QAZQ".toList
      ["QWERTYUIOPASDFGHJKLZXCVBNM".toList, "ZYXWVUTSRQPONMLKJIHGFEDCBA".toList] 2
      (by decide) (by decide) (by decide)⟩

/-! ## The initial key -/

theorem Dbl.gt_trans {a b c : Dbl} (h1 : Dbl.gt a b = true) (h2 : Dbl.gt b c = true) :
    Dbl.gt a c = true := by
  cases a <;> cases b <;> cases c <;> simp_all [Dbl.gt]
  exact lt_trans h2 h1

theorem Dbl.gt_irrefl (a : Dbl) : Dbl.gt a a = false := by
  cases a <;> simp [Dbl.gt]

theorem foldl_pair {α β γ : Type} (f : α → γ → α) (g : β → γ → β) (l : List γ) (a : α) (b : β) :
    l.foldl (fun st k => (f st.1 k, g st.2 k)) (a, b) = (l.foldl f a, l.foldl g b) := by
  induction l generalizing a b with
  | nil => rfl
  | cons x t ih => simp only [List.foldl_cons]; rw [ih]

theorem scanUpdate_foldl (x : List Dbl) (n : Nat) :
    ((List.range n).foldl (scanUpdate x) (0, Dbl.fin (-1)) = (0, Dbl.fin (-1))
        ∧ ∀ k, k < n → ¬ live x k)
      ∨ (((List.range n).foldl (scanUpdate x) (0, Dbl.fin (-1))).1 < n
        ∧ ((List.range n).foldl (scanUpdate x) (0, Dbl.fin (-1))).2
            = x.getD ((List.range n).foldl (scanUpdate x) (0, Dbl.fin (-1))).1 Dbl.nan
        ∧ live x ((List.range n).foldl (scanUpdate x) (0, Dbl.fin (-1))).1) := by
  induction n with
  | zero => left; exact ⟨rfl, fun k hk => by omega⟩
  | succ n ih =>
    rw [List.range_succ, List.foldl_append]
    simp only [List.foldl_cons, List.foldl_nil]
    generalize (List.range n).foldl (scanUpdate x) (0, Dbl.fin (-1)) = st at ih
    unfold scanUpdate
    by_cases hgt : Dbl.gt (x.getD n Dbl.nan) st.2 = true
    · rw [if_pos hgt]
      right
      refine ⟨by simp, rfl, ?_⟩
      rcases ih with ⟨hst, _⟩ | ⟨_, hmax, hlive⟩
      · rw [hst] at hgt; exact hgt
      · rw [hmax] at hgt; exact Dbl.gt_trans hgt hlive
    · rw [if_neg hgt]
      rcases ih with ⟨hst, hnone⟩ | ⟨hlt, hmax, hlive⟩
      · left
        refine ⟨hst, fun k hk => ?_⟩
        rcases Nat.lt_succ_iff_lt_or_eq.1 hk with h | h
        · exact hnone k h
        · subst h; rw [hst] at hgt; exact hgt
      · right; exact ⟨by omega, hmax, hlive⟩

/-- When some entry is unconsumed, the scan selects an unconsumed entry. -/
theorem scanUpdate_live (x : List Dbl) {k : Nat} (hk : k < 26) (hlive : live x k) :
    ((List.range 26).foldl (scanUpdate x) (0, Dbl.fin (-1))).1 < 26
      ∧ live x ((List.range 26).foldl (scanUpdate x) (0, Dbl.fin (-1))).1 := by
  rcases scanUpdate_foldl x 26 with ⟨_, hnone⟩ | ⟨hlt, _, hl⟩
  · exact absurd hlive (hnone k hk)
  · exact ⟨hlt, hl⟩

theorem exists_live_of_countP {x : List Dbl} (hlen : x.length = 26)
    (h : 0 < x.countP (fun v => Dbl.gt v (Dbl.fin (-1)))) : ∃ k, k < 26 ∧ live x k := by
  obtain ⟨a, ha, hp⟩ := List.countP_pos_iff.1 h
  obtain ⟨i, hi, rfl⟩ := List.mem_iff_getElem.1 ha
  refine ⟨i, by omega, ?_⟩
  unfold live
  rw [List.getD_eq_getElem _ _ hi]
  exact hp

theorem live_set_iff {x : List Dbl} {i k : Nat} (hi : i < x.length) :
    live (x.set i (Dbl.fin (-1))) k ↔ live x k ∧ k ≠ i := by
  unfold live
  simp only [List.getD_eq_getElem?_getD, List.getElem?_set]
  by_cases h : i = k
  · subst h; simp [hi, Dbl.gt]
  · simp [h, Ne.symm h]

theorem countP_set_consumed {x : List Dbl} {i : Nat} (hi : i < x.length) (hl : live x i) :
    (x.set i (Dbl.fin (-1))).countP (fun v => Dbl.gt v (Dbl.fin (-1)))
      = x.countP (fun v => Dbl.gt v (Dbl.fin (-1))) - 1 := by
  unfold live at hl
  rw [List.getD_eq_getElem _ _ hi] at hl
  rw [List.countP_set _ _ _ _ hi, if_pos hl, if_neg (by simp [Dbl.gt])]
  simp

theorem letter_ne_sentinel {k : Nat} (hk : k < 26) : letter k ≠ sentinel := by
  intro h
  have h1 := toNat_letter hk
  rw [h] at h1
  have : sentinel.toNat = 255 := by decide
  omega

theorem letter_injective {k i : Nat} (hk : k < 26) (hi : i < 26) (h : letter k = letter i) :
    k = i := by
  have h1 := toNat_letter hk
  rw [h, toNat_letter hi] at h1
  omega

theorem isUpper_letter {k : Nat} (hk : k < 26) : isUpper (letter k) = true := by
  rw [isUpper_iff, toNat_letter hk]; omega

theorem scanMax_eq (freqs reference : List Dbl) :
    scanMax freqs reference
      = ((List.range 26).foldl (scanUpdate freqs) (0, Dbl.fin (-1)),
         (List.range 26).foldl (scanUpdate reference) (0, Dbl.fin (-1))) := by
  unfold scanMax
  exact foldl_pair _ _ _ _ _

/-- One round of the key initialiser preserves the invariant. -/
theorem InitInv.step {n : Nat} {st : InitState} (h : InitInv n st) (hn : n < 26) :
    InitInv (n + 1) (assignStep st) := by
  obtain ⟨kf, hkf, hlf⟩ := exists_live_of_countP h.len_f (by rw [h.cnt_f]; omega)
  obtain ⟨kr, hkr, hlr⟩ := exists_live_of_countP h.len_r (by rw [h.cnt_r]; omega)
  obtain ⟨hIf, hLf⟩ := scanUpdate_live st.freqs hkf hlf
  obtain ⟨hIr, hLr⟩ := scanUpdate_live st.reference hkr hlr
  unfold assignStep
  rw [scanMax_eq]
  simp only
  generalize ((List.range 26).foldl (scanUpdate st.freqs) (0, Dbl.fin (-1))).1 = If at hIf hLf
  generalize ((List.range 26).foldl (scanUpdate st.reference) (0, Dbl.fin (-1))).1 = Ir at hIr hLr
  rw [(alphabetAt_of_lt hIf).2]
  have hIr' : Ir < st.pk.length := by rw [h.len_pk]; exact hIr
  have hpkIr : st.pk[Ir] = sentinel := by
    have := h.live_r Ir hIr hLr
    rwa [List.getD_eq_getElem _ _ hIr'] at this
  have hnotin : letter If ∉ st.pk := h.live_f If hIf hLf
  constructor
  · simp [h.len_pk]
  · simp [h.len_f]
  · simp [h.len_r]
  · intro k hk hl
    obtain ⟨hl', hne⟩ := (live_set_iff (by rw [h.len_r]; exact hIr)).1 hl
    simp only [List.getD_eq_getElem?_getD, List.getElem?_set, if_neg (Ne.symm hne)]
    have := h.live_r k hk hl'
    rwa [List.getD_eq_getElem?_getD] at this
  · intro k hk hl hmem
    obtain ⟨hl', hne⟩ := (live_set_iff (by rw [h.len_f]; exact hIf)).1 hl
    rcases List.mem_or_eq_of_mem_set hmem with hm | he
    · exact h.live_f k hk hl' hm
    · exact hne (letter_injective hk hIf he)
  · rw [countP_set_consumed (by rw [h.len_f]; exact hIf) hLf, h.cnt_f]; omega
  · rw [countP_set_consumed (by rw [h.len_r]; exact hIr) hLr, h.cnt_r]; omega
  · rw [List.count_set _ _ _ _ (by rw [h.len_pk]; exact hIr), hpkIr, h.cnt_s]
    have hne : (letter If == sentinel) = false := by simpa using letter_ne_sentinel hIf
    simp [hne]
    omega
  · intro c hc
    rw [List.count_set _ _ _ _ (by rw [h.len_pk]; exact hIr), hpkIr]
    have hne : (sentinel == c) = false := by simpa using Ne.symm hc
    rw [hne]
    by_cases hx : letter If = c
    · subst hx
      rw [List.count_eq_zero_of_not_mem hnotin]; simp
    · have hne2 : (letter If == c) = false := by simpa using hx
      rw [hne2]
      simpa using h.le_one c hc
  · intro c hc
    rcases List.mem_or_eq_of_mem_set hc with hm | he
    · exact h.upper c hm
    · right; rw [he]; exact isUpper_letter hIf

theorem InitInv.iterate {st : InitState} (h : InitInv 0 st) :
    ∀ n, n ≤ 26 → InitInv n ((List.range n).foldl (fun st _ => assignStep st) st) := by
  intro n
  induction n with
  | zero => intro _; exact h
  | succ n ih =>
    intro hn
    rw [List.range_succ, List.foldl_append]
    exact (ih (by omega)).step (by omega)

/-- When the invariant holds after all 26 rounds the column is a permutation. -/
theorem InitInv.isPermutation {st : InitState} (h : InitInv 26 st) : isPermutation st.pk := by
  have hs : sentinel ∉ st.pk := by
    have := h.cnt_s
    exact List.count_eq_zero.1 (by simpa using this)
  have hnodup : st.pk.Nodup := by
    rw [List.nodup_iff_count_le_one]
    intro c
    by_cases hc : c = sentinel
    · rw [hc, List.count_eq_zero_of_not_mem hs]; omega
    · exact h.le_one c hc
  have hsub : st.pk ⊆ alphabet := by
    intro c hc
    rcases h.upper c hc with he | hu
    · exact absurd (he ▸ hc) hs
    · exact mem_alphabet_of_isUpper hu
  exact (List.subperm_of_subset hnodup hsub).perm_of_length_le (by rw [h.len_pk]; decide)

theorem length_incrDblAt (freqs : List Dbl) (k : Int) :
    (incrDblAt freqs k).length = freqs.length := by
  unfold incrDblAt; split <;> simp

theorem getD_incrDblAt (freqs : List Dbl) (k i : Nat) (hk : k < freqs.length) :
    (incrDblAt freqs (k : Int)).getD i Dbl.nan
      = if k = i then Dbl.add (freqs.getD i Dbl.nan) (Dbl.fin 1) else freqs.getD i Dbl.nan := by
  unfold incrDblAt
  rw [if_pos ⟨by omega, by omega⟩]
  simp only [Int.toNat_ofNat, List.getD_eq_getElem?_getD, List.getElem?_set]
  by_cases h : k = i
  · subst h; simp [hk]
  · simp only [if_neg h]

/-- The increment `freqs[k]++` of a counter: exact below `2^53`, where the counter stays. -/
theorem Dbl.add_one_sat (n : Nat) :
    Dbl.add (Dbl.fin ((min n 9007199254740992 : Nat) : ℚ)) (Dbl.fin 1)
      = Dbl.fin ((min (n + 1) 9007199254740992 : Nat) : ℚ) := by
  rw [Dbl.add_fin]
  rcases Nat.lt_trichotomy (n + 1) 9007199254740992 with h | h | h
  · rw [min_eq_left (by omega), min_eq_left (by omega)]
    have := round64_intCast ((n : Int) + 1) (by omega) (by omega)
    push_cast at this ⊢
    exact this
  · rw [min_eq_left (by omega), min_eq_left (by omega)]
    have hn : (n : ℚ) + 1 = 9007199254740992 := by exact_mod_cast h
    rw [hn, round64_two_pow_53]
    exact congrArg Dbl.fin (by exact_mod_cast h.symm)
  · rw [min_eq_right (by omega), min_eq_right (by omega)]
    push_cast
    exact round64_two_pow_53_succ

theorem monogramCounts_foldl (text : List Char) (h : ∀ ch ∈ text, isUpper ch = true) :
    ∀ (freqs : List Dbl) (total : Int) (base : Nat → Nat), freqs.length = 26 →
      (∀ i, i < 26 →
        freqs.getD i Dbl.nan = Dbl.fin ((min (base i) 9007199254740992 : Nat) : ℚ)) →
      (text.foldl (fun (acc : List Dbl × Int) ch =>
          (incrDblAt acc.1 (charVal ch - charVal 'A'), acc.2 + 1)) (freqs, total)).2
        = total + text.length
      ∧ (text.foldl (fun (acc : List Dbl × Int) ch =>
          (incrDblAt acc.1 (charVal ch - charVal 'A'), acc.2 + 1)) (freqs, total)).1.length = 26
      ∧ ∀ i, i < 26 →
        (text.foldl (fun (acc : List Dbl × Int) ch =>
          (incrDblAt acc.1 (charVal ch - charVal 'A'), acc.2 + 1)) (freqs, total)).1.getD i Dbl.nan
          = Dbl.fin ((min (base i + text.count (letter i)) 9007199254740992 : Nat) : ℚ) := by
  induction text with
  | nil =>
    intro freqs total base hlen hbase
    refine ⟨by simp, hlen, fun i hi => ?_⟩
    simp only [List.foldl_nil, List.count_nil, Nat.add_zero]
    exact hbase i hi
  | cons ch t ih =>
    intro freqs total base hlen hbase
    have hch : isUpper ch = true := h ch (List.mem_cons_self _ _)
    have hup := (isUpper_iff ch).1 hch
    have hiff : ∀ i, i < 26 → ((ch.toNat - 65 = i) ↔ (ch == letter i) = true) := by
      intro i hi
      rw [beq_iff_eq]
      constructor
      · intro e; rw [← e]; exact eq_letter_of_isUpper hch
      · intro e; rw [e, toNat_letter hi]; omega
    obtain ⟨h1, h2, h3⟩ := ih (fun c hc => h c (List.mem_cons_of_mem _ hc))
      (incrDblAt freqs (charVal ch - charVal 'A')) (total + 1)
      (fun i => base i + if ch.toNat - 65 = i then 1 else 0)
      (by rw [length_incrDblAt]; exact hlen)
      (by
        intro i hi
        rw [charVal_of_isUpper hch, getD_incrDblAt _ _ _ (by omega), hbase i hi]
        show _ = Dbl.fin ((min (base i + if ch.toNat - 65 = i then 1 else 0)
          9007199254740992 : Nat) : ℚ)
        by_cases hc : ch.toNat - 65 = i
        · rw [if_pos hc, if_pos hc, Dbl.add_one_sat]
        · rw [if_neg hc, if_neg hc, Nat.add_zero])
    simp only [List.foldl_cons]
    refine ⟨by rw [h1]; simp only [List.length_cons]; push_cast; ring, h2, fun i hi => ?_⟩
    rw [h3 i hi, List.count_cons]
    by_cases hc : ch.toNat - 65 = i
    · rw [if_pos hc, if_pos ((hiff i hi).1 hc)]
      congr 3; omega
    · rw [if_neg hc, if_neg (fun e => hc ((hiff i hi).2 e))]
      congr 3

/-- On a text of `L` uppercase letters, entry `i` of `monogram_frequencies` is
the binary64 product of the counter of the `i`-th letter (the number of its occurrences,
a counter staying at `2^53` once it is reached) and the binary64 quotient `1./L`. -/
theorem monogram_frequencies_getD (text : List Char) (h : ∀ ch ∈ text, isUpper ch = true) :
    (monogram_frequencies text).length = 26
      ∧ ∀ i, i < 26 → (monogram_frequencies text).getD i Dbl.nan
          = Dbl.mul (Dbl.fin ((min (text.count (letter i)) 9007199254740992 : Nat) : ℚ))
              (Dbl.div (Dbl.fin 1) (Dbl.fin (text.length : ℚ))) := by
  have hrep : ∀ i, i < 26 → (List.replicate 26 (Dbl.fin 0)).getD i Dbl.nan
      = Dbl.fin ((min ((fun _ => 0) i) 9007199254740992 : Nat) : ℚ) := by
    intro i hi
    simp only [List.getD_eq_getElem?_getD, List.getElem?_replicate]
    simp [hi]
  obtain ⟨h1, h2, h3⟩ := monogramCounts_foldl text h (List.replicate 26 (Dbl.fin 0)) 0
    (fun _ => 0) (by simp) hrep
  unfold monogram_frequencies monogramCounts
  rw [strlen_of_isUpper h, List.take_length]
  refine ⟨by rw [List.length_map]; exact h2, fun i hi => ?_⟩
  have hi' : i < (text.foldl (fun (acc : List Dbl × Int) ch =>
      (incrDblAt acc.1 (charVal ch - charVal 'A'), acc.2 + 1))
        (List.replicate 26 (Dbl.fin 0), 0)).1.length := by rw [h2]; exact hi
  have h3i := h3 i hi
  rw [List.getD_eq_getElem _ _ hi'] at h3i
  rw [List.getD_eq_getElem _ _ (by rw [List.length_map]; exact hi'), List.getElem_map, h3i, h1]
  unfold Dbl.ofInt
  simp only [Nat.zero_add, zero_add, Int.cast_natCast]

/-- On a non-empty text of uppercase letters every entry of `monogram_frequencies` is a
finite number that is not negative. -/
theorem monogram_frequencies_nonneg (text : List Char) (h : ∀ ch ∈ text, isUpper ch = true)
    (hne : text ≠ []) :
    ∀ i, i < 26 → ∃ r : ℚ, (monogram_frequencies text).getD i Dbl.nan = Dbl.fin r ∧ 0 ≤ r := by
  intro i hi
  rw [(monogram_frequencies_getD text h).2 i hi]
  have hpos : (0 : ℚ) < text.length := by exact_mod_cast List.length_pos.2 hne
  have hge : (1 : ℚ) ≤ text.length := by exact_mod_cast List.length_pos.2 hne
  rw [Dbl.div_fin (ne_of_gt hpos)]
  obtain ⟨s, hs, hs0, hs1⟩ := round64_bracket (q := 1 / (text.length : ℚ)) (a := 0) (b := 1)
    (by norm_num) (by norm_num) (by push_cast; positivity)
    (by push_cast; rw [div_le_one hpos]; exact hge)
  rw [hs, Dbl.mul_fin]
  have hc0 : (0 : ℚ) ≤ ((min (text.count (letter i)) 9007199254740992 : Nat) : ℚ) :=
    Nat.cast_nonneg _
  have hc1 : ((min (text.count (letter i)) 9007199254740992 : Nat) : ℚ) ≤ 9007199254740992 := by
    exact_mod_cast min_le_right _ _
  push_cast at hs0 hs1
  obtain ⟨r, hr, hr0, _⟩ := round64_nonneg_le
    (q := ((min (text.count (letter i)) 9007199254740992 : Nat) : ℚ) * s)
    (mul_nonneg hc0 hs0) (by nlinarith)
  exact ⟨r, hr, hr0⟩

theorem initStart_inv (monograms : Nat → Dbl) (slice : List Char)
    (hslice : ∀ ch ∈ slice, isUpper ch = true) (hne : slice ≠ [])
    (href : ∀ k, k < 26 → Dbl.gt (monograms k) (Dbl.fin (-1)) = true) :
    InitInv 0 (initStart monograms slice) := by
  have hlen := (monogram_frequencies_getD slice hslice).1
  have hget := monogram_frequencies_nonneg slice hslice hne
  unfold initStart
  constructor
  · simp
  · exact hlen
  · simp
  · intro k hk _
    simp only [List.getD_eq_getElem?_getD, List.getElem?_replicate]
    simp [hk]
  · intro k hk _ hmem
    exact letter_ne_sentinel hk (List.eq_of_mem_replicate hmem)
  · show List.countP _ (monogram_frequencies slice) = 26 - 0
    rw [← hlen, Nat.sub_zero, List.countP_eq_length]
    intro a ha
    obtain ⟨i, hi, rfl⟩ := List.mem_iff_getElem.1 ha
    obtain ⟨r, hr, hr0⟩ := hget i (by omega)
    rw [List.getD_eq_getElem _ _ hi] at hr
    rw [hr]
    simp only [Dbl.gt, decide_eq_true_eq]
    linarith
  · show List.countP _ ((List.range 26).map monograms) = 26 - 0
    rw [Nat.sub_zero]
    have hl : ((List.range 26).map monograms).length = 26 := by simp
    have hall : ∀ a ∈ (List.range 26).map monograms, Dbl.gt a (Dbl.fin (-1)) = true := by
      intro a ha
      obtain ⟨k, hk, rfl⟩ := List.mem_map.1 ha
      exact href k (List.mem_range.1 hk)
    rw [List.countP_eq_length.2 hall, hl]
  · show List.count sentinel (List.replicate 26 sentinel) = 26 - 0
    rw [List.count_replicate_self]
  · intro c hc
    show List.count c (List.replicate 26 sentinel) ≤ 1
    rw [List.count_replicate]
    have : (sentinel == c) = false := by simpa using Ne.symm hc
    simp [this]
  · intro c hc
    left; exact List.eq_of_mem_replicate hc

/-- The column computed by the key initialiser is a permutation of the 26 letters. -/
theorem initColumn_isPermutation (monograms : Nat → Dbl) (slice : List Char)
    (hslice : ∀ ch ∈ slice, isUpper ch = true) (hne : slice ≠ [])
    (href : ∀ k, k < 26 → Dbl.gt (monograms k) (Dbl.fin (-1)) = true) :
    isPermutation (initColumn monograms slice) :=
  ((initStart_inv monograms slice hslice hne href).iterate 26 (le_refl _)).isPermutation

theorem initKey_getD (col : List Char) (pk : Key) :
    ∀ n, n ≤ pk.length →
      ((List.range n).foldl (fun key i => key.set i col) pk).length = pk.length
      ∧ (∀ i, i < n → ((List.range n).foldl (fun key i => key.set i col) pk).getD i [] = col)
      ∧ (∀ i, n ≤ i → ((List.range n).foldl (fun key i => key.set i col) pk).getD i []
          = pk.getD i []) := by
  intro n
  induction n with
  | zero => intro _; exact ⟨rfl, fun i hi => by omega, fun i _ => rfl⟩
  | succ n ih =>
    intro hn
    obtain ⟨h1, h2, h3⟩ := ih (by omega)
    rw [List.range_succ, List.foldl_append]
    simp only [List.foldl_cons, List.foldl_nil]
    refine ⟨by rw [List.length_set, h1], fun i hi => ?_, fun i hi => ?_⟩
    · simp only [List.getD_eq_getElem?_getD, List.getElem?_set]
      by_cases he : n = i
      · subst he
        rw [if_pos rfl, if_pos (by rw [h1]; omega)]
        rfl
      · rw [if_neg he]
        have := h2 i (by omega)
        rwa [List.getD_eq_getElem?_getD] at this
    · have := h3 i (by omega)
      simp only [List.getD_eq_getElem?_getD, List.getElem?_set] at this ⊢
      rw [if_neg (by omega)]
      exact this

theorem count_eq_one_of_isPermutation {column : List Char} (h : isPermutation column) {k : Nat}
    (hk : k < 26) : column.count (letter k) = 1 := by
  rw [List.Perm.count_eq h]
  interval_cases k <;> decide

theorem sentinel_not_mem_of_isPermutation {column : List Char} (h : isPermutation column) :
    sentinel ∉ column := by
  intro hm
  have := (h.mem_iff sentinel).1 hm
  revert this; decide

/-- C5: for a non-empty slice over `A`–`Z` and a reference monogram table whose 26 entries
are all above the sentinel `-1`, the key-initialisation loop leaves every column `pk[i]`,
`i < period`, a permutation of the 26 letters: it has 26 slots, each of the 26 letters
occurs in it exactly once, and no slot keeps the unfilled sentinel. -/
theorem initKey_isPermutation (monograms : Nat → Dbl) (slice : List Char) (period : Nat)
    (pk : Key) (hslice : ∀ ch ∈ slice, isUpper ch = true) (hne : slice ≠ [])
    (href : ∀ k, k < 26 → Dbl.gt (monograms k) (Dbl.fin (-1)) = true)
    (hroom : period ≤ pk.length) :
    ∀ i, i < period →
      isPermutation ((initKey monograms slice period pk).getD i [])
        ∧ ((initKey monograms slice period pk).getD i []).length = 26
        ∧ (∀ k, k < 26 → ((initKey monograms slice period pk).getD i []).count (letter k) = 1)
        ∧ sentinel ∉ (initKey monograms slice period pk).getD i [] := by
  intro i hi
  have hcol := initColumn_isPermutation monograms slice hslice hne href
  unfold initKey
  rw [(initKey_getD (initColumn monograms slice) pk period hroom).2.1 i hi]
  exact ⟨hcol, hcol.length_eq, fun k hk => count_eq_one_of_isPermutation hcol hk,
    sentinel_not_mem_of_isPermutation hcol⟩

/-- Witness for C5: the slice `EEA`, period 2, and the table whose entry `k` is `k`. -/
theorem initKey_isPermutation_witness :
    (∀ ch ∈ "EEA".toList, isUpper ch = true) ∧ "EEA".toList ≠ []
      ∧ (∀ k, k < 26 → Dbl.gt ((fun k : Nat => Dbl.fin (k : ℚ)) k) (Dbl.fin (-1)) = true)
      ∧ 2 ≤ ([[], []] : Key).length
      ∧ ∀ i, i < 2 →
          isPermutation ((initKey (fun k => Dbl.fin (k : ℚ)) "EEA".toList 2 [[], []]).getD i [])
            ∧ ((initKey (fun k => Dbl.fin (k : ℚ)) "EEA".toList 2 [[], []]).getD i []).length = 26
            ∧ (∀ k, k < 26 →
                ((initKey (fun k => Dbl.fin (k : ℚ)) "EEA".toList 2 [[], []]).getD i []).count
                  (letter k) = 1)
            ∧ sentinel ∉ (initKey (fun k => Dbl.fin (k : ℚ)) "EEA".toList 2 [[], []]).getD i [] :=
  have href : ∀ k, k < 26 → Dbl.gt ((fun k : Nat => Dbl.fin (k : ℚ)) k) (Dbl.fin (-1)) = true :=
    fun k _ => by
      have : (0 : ℚ) ≤ (k : ℚ) := Nat.cast_nonneg k
      simp only [Dbl.gt, decide_eq_true_eq]
      linarith
  ⟨by decide, by decide, href, by decide,
    initKey_isPermutation (fun k => Dbl.fin (k : ℚ)) "EEA".toList 2 [[], []]
      (by decide) (by decide) href (by decide)⟩

/-! ## Random mutation of key columns -/

theorem drawOther_spec (i : Nat) : ∀ (rnd : List Nat) (j : Nat) (rest : List Nat),
    drawOther i rnd = some (j, rest) → j < 26 ∧ j ≠ i := by
  intro rnd
  induction rnd with
  | nil => intro j rest h; simp [drawOther] at h
  | cons r t ih =>
    intro j rest h
    unfold drawOther at h
    by_cases hr : r % 26 = i
    · rw [if_pos hr] at h; exact ih j rest h
    · rw [if_neg hr] at h
      simp only [Option.some.injEq, Prod.mk.injEq] at h
      obtain ⟨rfl, _⟩ := h
      exact ⟨Nat.mod_lt _ (by omega), hr⟩

/-- Exchanging two entries of a list gives a permutation of the list. -/
theorem swap_perm (s : List Char) {i j : Nat} (hi : i < s.length) (hj : j < s.length)
    (hij : i ≠ j) : ((s.set i (s.getD j nul)).set j (s.getD i nul)).Perm s := by
  rw [List.getD_eq_getElem _ _ hi, List.getD_eq_getElem _ _ hj, List.perm_iff_count]
  intro c
  have hj' : j < (s.set i s[j]).length := by simpa using hj
  rw [List.count_set _ _ _ _ hj', List.count_set _ _ _ _ hi, List.getElem_set_ne hij]
  have h1 : (s[i] == c) = true → 0 < s.count c := fun h => by
    rw [beq_iff_eq] at h
    exact List.count_pos_iff.2 (h ▸ List.getElem_mem hi)
  have h2 : (s[j] == c) = true → 0 < s.count c := fun h => by
    rw [beq_iff_eq] at h
    exact List.count_pos_iff.2 (h ▸ List.getElem_mem hj)
  by_cases ha : (s[i] == c) = true <;> by_cases hb : (s[j] == c) = true
  · have := h1 ha; rw [if_pos ha, if_pos hb]; omega
  · have := h1 ha; rw [if_pos ha, if_neg hb]; omega
  · have := h2 hb; rw [if_neg ha, if_pos hb]; omega
  · rw [if_neg ha, if_neg hb]; omega

theorem random_swap_spec (s : List Char) (rnd : List Nat) (s' : List Char) (rnd' : List Nat)
    (h : random_swap s rnd = some (s', rnd')) :
    ∃ i j, i < 26 ∧ j < 26 ∧ i ≠ j ∧ s' = (s.set i (s.getD j nul)).set j (s.getD i nul) := by
  unfold random_swap at h
  cases rnd with
  | nil => simp at h
  | cons r rest =>
    simp only at h
    cases hd : drawOther (r % 26) rest with
    | none => rw [hd] at h; simp at h
    | some jr =>
      obtain ⟨j, rest'⟩ := jr
      rw [hd] at h
      simp only [Option.some.injEq, Prod.mk.injEq] at h
      obtain ⟨hj, hne⟩ := drawOther_spec _ _ _ _ hd
      exact ⟨r % 26, j, Nat.mod_lt _ (by omega), hj, Ne.symm hne, h.1.symm⟩

theorem drawFree_spec (s : List Char) : ∀ (rnd : List Nat) (j : Nat) (rest : List Nat),
    drawFree s rnd = some (j, rest) → j < 26 ∧ s.getD j nul = sentinel := by
  intro rnd
  induction rnd with
  | nil => intro j rest h; simp [drawFree] at h
  | cons r t ih =>
    intro j rest h
    unfold drawFree at h
    by_cases hr : s.getD (r % 26) nul ≠ sentinel
    · rw [if_pos hr] at h; exact ih j rest h
    · rw [if_neg hr] at h
      simp only [Option.some.injEq, Prod.mk.injEq] at h
      obtain ⟨rfl, _⟩ := h
      exact ⟨Nat.mod_lt _ (by omega), not_not.1 hr⟩

theorem placeLetters_count : ∀ (letters s : List Char) (rnd : List Nat) (s' : List Char)
    (rnd' : List Nat), s.length = 26 → sentinel ∉ letters →
    placeLetters letters s rnd = some (s', rnd') →
      s'.length = 26
        ∧ s'.count sentinel = s.count sentinel - letters.length
        ∧ ∀ c, c ≠ sentinel → s'.count c = s.count c + letters.count c := by
  intro letters
  induction letters with
  | nil =>
    intro s rnd s' rnd' hlen _ h
    simp only [placeLetters, Option.some.injEq, Prod.mk.injEq] at h
    obtain ⟨rfl, _⟩ := h
    exact ⟨hlen, by simp, fun c _ => by simp⟩
  | cons a t ih =>
    intro s rnd s' rnd' hlen hs h
    unfold placeLetters at h
    cases hd : drawFree s rnd with
    | none => rw [hd] at h; simp at h
    | some jr =>
      obtain ⟨j, rnd1⟩ := jr
      rw [hd] at h
      simp only at h
      obtain ⟨hj, hfree⟩ := drawFree_spec s rnd j rnd1 hd
      have hj' : j < s.length := by omega
      rw [List.getD_eq_getElem _ _ hj'] at hfree
      have ha : a ≠ sentinel := fun e => hs (e ▸ List.mem_cons_self _ _)
      obtain ⟨h1, h2, h3⟩ := ih (s.set j a) rnd1 s' rnd' (by simpa using hlen)
        (fun hm => hs (List.mem_cons_of_mem _ hm)) h
      refine ⟨h1, ?_, fun c hc => ?_⟩
      · rw [h2, List.count_set _ _ _ _ hj', hfree]
        have : (a == sentinel) = false := by simpa using ha
        simp [this]
        omega
      · rw [h3 c hc, List.count_set _ _ _ _ hj', hfree, List.count_cons]
        have : (sentinel == c) = false := by simpa using Ne.symm hc
        simp [this]
        omega

theorem fill_sentinel (s : List Char) (hlen : s.length = 26) :
    (List.range 26).foldl (fun s i => s.set i sentinel) s = List.replicate 26 sentinel := by
  have hgen : ∀ n, n ≤ 26 →
      (List.range n).foldl (fun s i => s.set i sentinel) s
        = List.replicate n sentinel ++ s.drop n := by
    intro n
    induction n with
    | zero => intro _; simp
    | succ n ih =>
      intro hn
      rw [List.range_succ, List.foldl_append, ih (by omega)]
      simp only [List.foldl_cons, List.foldl_nil]
      rw [List.set_append_right _ _ (by simp), List.length_replicate, Nat.sub_self,
        List.drop_eq_getElem_cons (by omega), List.set_cons_zero, List.replicate_succ',
        List.append_assoc]
      rfl
  rw [hgen 26 (le_refl _), List.drop_eq_nil_of_le (by omega), List.append_nil]

/-- C6: every key-column mutation operator yields a permutation of the 26-letter alphabet
on every sequence of random values on which it returns: `random_swap` applied to a
permutation column returns that column with two distinct positions `i`, `j` exchanged,
again a permutation; `randomize` applied to a column of 26 slots with arbitrary contents
returns a permutation, in which no slot is left at the sentinel `-1`. -/
theorem mutation_isPermutation (s : List Char) (rnd : List Nat) (s' : List Char)
    (rnd' : List Nat) (t : List Char) (rnd2 : List Nat) (t' : List Char) (rnd2' : List Nat)
    (hs : isPermutation s) (hswap : random_swap s rnd = some (s', rnd'))
    (ht : t.length = 26) (hrand : randomize t rnd2 = some (t', rnd2')) :
    (isPermutation s'
        ∧ ∃ i j, i < 26 ∧ j < 26 ∧ i ≠ j ∧ s'.getD i nul = s.getD j nul
            ∧ s'.getD j nul = s.getD i nul
            ∧ ∀ k, k ≠ i → k ≠ j → s'.getD k nul = s.getD k nul)
      ∧ (isPermutation t' ∧ sentinel ∉ t') := by
  constructor
  · obtain ⟨i, j, hi, hj, hij, rfl⟩ := random_swap_spec s rnd s' rnd' hswap
    have hlen := hs.length_eq
    refine ⟨(swap_perm s (by omega) (by omega) hij).trans hs, i, j, hi, hj, hij, ?_, ?_, ?_⟩
    · simp only [List.getD_eq_getElem?_getD, List.getElem?_set, if_neg (Ne.symm hij),
        List.length_set]
      simp [hlen, hi]
    · simp only [List.getD_eq_getElem?_getD, List.getElem?_set, List.length_set]
      simp [hlen, hj]
    · intro k hki hkj
      simp only [List.getD_eq_getElem?_getD, List.getElem?_set, if_neg (Ne.symm hki),
        if_neg (Ne.symm hkj)]
  · unfold randomize at hrand
    rw [fill_sentinel t ht] at hrand
    obtain ⟨h1, h2, h3⟩ := placeLetters_count alphabet _ rnd2 t' rnd2' (by simp) (by decide) hrand
    have hperm : isPermutation t' := by
      unfold isPermutation
      rw [List.perm_iff_count]
      intro c
      by_cases hc : c = sentinel
      · rw [hc, h2, List.count_replicate_self]; decide
      · rw [h3 c hc, List.count_replicate]
        have : (sentinel == c) = false := by simpa using Ne.symm hc
        simp [this]
    exact ⟨hperm, sentinel_not_mem_of_isPermutation hperm⟩

/-- Witness for C6: `random_swap` on the canonical alphabet with draws `3, 29, 7`
(the second draw repeats position 3 and is rejected), and `randomize` on a column of
26 `X` with draws `25, 25, 24, 23, …, 0`. -/
theorem mutation_isPermutation_witness :
    isPermutation alphabet
      ∧ random_swap alphabet [3, 29, 7] = some ("ABCHEFGDIJKLMNOPQRSTUVWXYZ".toList, [])
      ∧ "XXXXXXXXXXXXXXXXXXXXXXXXXX".toList.length = 26
      ∧ randomize "XXXXXXXXXXXXXXXXXXXXXXXXXX".toList
          [25, 25, 24, 23, 22, 21, 20, 19, 18, 17, 16, 15, 14, 13, 12, 11, 10, 9, 8, 7, 6, 5,
            4, 3, 2, 1, 0]
          = some ("ZYXWVUTSRQPONMLKJIHGFEDCBA".toList, [])
      ∧ ((isPermutation "ABCHEFGDIJKLMNOPQRSTUVWXYZ".toList
          ∧ ∃ i j, i < 26 ∧ j < 26 ∧ i ≠ j
              ∧ "ABCHEFGDIJKLMNOPQRSTUVWXYZ".toList.getD i nul = alphabet.getD j nul
              ∧ "ABCHEFGDIJKLMNOPQRSTUVWXYZ".toList.getD j nul = alphabet.getD i nul
              ∧ ∀ k, k ≠ i → k ≠ j →
                  "ABCHEFGDIJKLMNOPQRSTUVWXYZ".toList.getD k nul = alphabet.getD k nul)
        ∧ (isPermutation "ZYXWVUTSRQPONMLKJIHGFEDCBA".toList
          ∧ sentinel ∉ "ZYXWVUTSRQPONMLKJIHGFEDCBA".toList)) :=
  ⟨by decide, by decide, by decide, by decide,
    mutation_isPermutation alphabet [3, 29, 7] "ABCHEFGDIJKLMNOPQRSTUVWXYZ".toList []
      "XXXXXXXXXXXXXXXXXXXXXXXXXX".toList
      [25, 25, 24, 23, 22, 21, 20, 19, 18, 17, 16, 15, 14, 13, 12, 11, 10, 9, 8, 7, 6, 5,
        4, 3, 2, 1, 0]
      "ZYXWVUTSRQPONMLKJIHGFEDCBA".toList [] (by decide) (by decide) (by decide) (by decide)⟩

/-! ## Period detection -/

theorem strlen_le_length (s : List Char) : strlen s ≤ s.length := by
  unfold strlen
  exact (List.takeWhile_prefix _).length_le

theorem filter_mod_range (p q i : Nat) (hi : i < p) :
    (List.range (p * q)).filter (fun n => n % p = i) = (List.range q).map (fun j => p * j + i) := by
  apply List.eq_of_perm_of_sorted (r := fun a b : Nat => a < b)
  · rw [List.perm_ext_iff_of_nodup ((List.nodup_range _).filter _)
      ((List.nodup_range _).map (fun a b h => by
        have : p * a = p * b := by omega
        exact Nat.eq_of_mul_eq_mul_left (by omega) this))]
    intro n
    simp only [List.mem_filter, List.mem_range, decide_eq_true_eq, List.mem_map]
    constructor
    · rintro ⟨hn, hmod⟩
      refine ⟨n / p, Nat.div_lt_of_lt_mul hn, ?_⟩
      rw [← hmod]; exact Nat.div_add_mod n p
    · rintro ⟨j, hj, rfl⟩
      constructor
      · calc p * j + i < p * j + p := by omega
          _ = p * (j + 1) := by ring
          _ ≤ p * q := Nat.mul_le_mul_left p hj
      · rw [Nat.mul_add_mod, Nat.mod_eq_of_lt hi]
  · exact (List.sorted_lt_range _).filter _
  · exact List.Pairwise.map _ (fun a b h => by
      have : p * a < p * b := Nat.mul_lt_mul_of_pos_left h (by omega)
      omega) (List.pairwise_lt_range q)

/-- The slice built for position `i` holds the characters at the positions congruent to
`i` modulo `p` among the first `p * (length / p)` characters of the ciphertext. -/
theorem sliceOf_eq_residueClass_take (c : List Char) (p i : Nat) (hi : i < p) :
    sliceOf c p i = residueClass (c.take (p * (strlen c / p))) p i := by
  have hle : p * (strlen c / p) ≤ c.length :=
    le_trans (Nat.mul_div_le _ _) (strlen_le_length c)
  unfold sliceOf residueClass
  rw [List.length_take, Nat.min_eq_left hle, filter_mod_range p _ i hi, List.map_map]
  apply List.map_congr_left
  intro j hj
  rw [List.mem_range] at hj
  have hlt : p * j + i < p * (strlen c / p) := by
    calc p * j + i < p * j + p := by omega
      _ = p * (j + 1) := by ring
      _ ≤ p * (strlen c / p) := Nat.mul_le_mul_left p hj
  simp only [Function.comp, charAt, List.getD_eq_getElem?_getD, List.getElem?_take, if_pos hlt]

/-- C10 as stated fails: for the ciphertext `ABCDE` and period 2, the slice of position 0
is `AC`, while the characters at the even positions are `ACE`. -/
theorem sliceOf_drops_tail :
    sliceOf "ABCDE".toList 2 0 = "AC".toList
      ∧ residueClass "ABCDE".toList 2 0 = "ACE".toList
      ∧ sliceOf "ABCDE".toList 2 0 ≠ residueClass "ABCDE".toList 2 0 := by
  decide

/-- C10 (amended): for every ciphertext, period `p` and position `i < p`, the slice whose
index of coincidence the period detector computes has `length / p` characters and
consists of the characters at the positions congruent to `i` modulo `p` among the first
`p * (length / p)` characters of the ciphertext, in order; the last `length mod p`
characters are in no slice. When `p` divides the length, the slice consists of the
characters at all positions congruent to `i` modulo `p`. -/
theorem sliceOf_eq_residueClass (c : List Char) (p i : Nat) (hi : i < p) :
    sliceOf c p i = residueClass (c.take (p * (strlen c / p))) p i
      ∧ (sliceOf c p i).length = strlen c / p
      ∧ (p ∣ strlen c → sliceOf c p i = residueClass (c.take (strlen c)) p i) := by
  refine ⟨sliceOf_eq_residueClass_take c p i hi, by simp [sliceOf], fun hdvd => ?_⟩
  have h := sliceOf_eq_residueClass_take c p i hi
  rwa [Nat.mul_div_cancel' hdvd] at h

/-- Witness for C10 (amended): the ciphertext `ABCDE`, period 2, position 0. -/
theorem sliceOf_eq_residueClass_witness :
    0 < 2
      ∧ sliceOf "ABCDE".toList 2 0
          = residueClass ("ABCDE".toList.take (2 * (strlen "ABCDE".toList / 2))) 2 0
      ∧ (sliceOf "ABCDE".toList 2 0).length = strlen "ABCDE".toList / 2
      ∧ (2 ∣ strlen "ABCDE".toList →
          sliceOf "ABCDE".toList 2 0 = residueClass ("ABCDE".toList.take (strlen "ABCDE".toList)) 2 0) :=
  ⟨by decide, sliceOf_eq_residueClass "ABCDE".toList 2 0 (by decide)⟩

theorem periodStep_found (c : List Char) (st : PeriodState)
    (hold : st.oldioc = previousIoc c (st.period + 1)) :
    (periodStep c st).found = accepts c (st.period + 1)
      ∧ (periodStep c st).period = st.period + 1
      ∧ (periodStep c st).oldioc = previousIoc c (st.period + 1 + 1)
      ∧ (periodStep c st).slice = sliceOf c (st.period + 1) st.period := by
  refine ⟨?_, rfl, ?_, rfl⟩
  · unfold periodStep accepts IOCTHRESHOLD IOCMULTTHRESH
    simp only [hold]
  · unfold periodStep previousIoc
    simp

/-- Soundness of the period scan: a returned period is the first accepted candidate
after the starting one. -/
theorem periodLoop_sound (c : List Char) : ∀ (fuel : Nat) (st st' : PeriodState),
    st.oldioc = previousIoc c (st.period + 1) → periodLoop c fuel st = some st' →
      st.period < st'.period ∧ st'.period ≤ st.period + fuel
        ∧ accepts c st'.period = true
        ∧ (∀ q, st.period < q → q < st'.period → accepts c q = false)
        ∧ st'.slice = sliceOf c st'.period (st'.period - 1) := by
  intro fuel
  induction fuel with
  | zero => intro st st' _ h; simp [periodLoop] at h
  | succ fuel ih =>
    intro st st' hold h
    obtain ⟨hf, hp, ho, hs⟩ := periodStep_found c st hold
    unfold periodLoop at h
    simp only at h
    by_cases hfound : (periodStep c st).found = true
    · rw [if_pos hfound] at h
      simp only [Option.some.injEq] at h
      subst h
      rw [hp]
      refine ⟨by omega, by omega, by rw [← hf]; exact hfound, fun q h1 h2 => by omega, ?_⟩
      rw [hs]; simp
    · rw [if_neg hfound] at h
      obtain ⟨h1, h2, h3, h4, h5⟩ := ih (periodStep c st) st' (by rw [ho, hp]) h
      rw [hp] at h1 h2 h4
      refine ⟨by omega, by omega, h3, fun q hq1 hq2 => ?_, h5⟩
      rcases Nat.lt_or_ge (st.period + 1) q with hlt | hge
      · exact h4 q hlt hq2
      · have : q = st.period + 1 := by omega
        rw [this, ← hf]
        simpa using hfound

/-- Completeness of the period scan: when some candidate after the starting one is
accepted, the loop stops at the first such candidate. -/
theorem periodLoop_complete (c : List Char) : ∀ (fuel : Nat) (st : PeriodState) (p : Nat),
    st.oldioc = previousIoc c (st.period + 1) → st.period < p → p ≤ st.period + fuel →
    accepts c p = true → (∀ q, st.period < q → q < p → accepts c q = false) →
      ∃ st', periodLoop c fuel st = some st' ∧ st'.period = p := by
  intro fuel
  induction fuel with
  | zero => intro st p _ h1 h2; omega
  | succ fuel ih =>
    intro st p hold h1 h2 hacc hfirst
    obtain ⟨hf, hp, ho, _⟩ := periodStep_found c st hold
    unfold periodLoop
    simp only
    rcases Nat.lt_or_ge (st.period + 1) p with hlt | hge
    · have hnf : ¬ (periodStep c st).found = true := by
        rw [hf, hfirst (st.period + 1) (by omega) hlt]; simp
      rw [if_neg hnf]
      exact ih (periodStep c st) p (by rw [ho, hp]) (by rw [hp]; exact hlt) (by rw [hp]; omega)
        hacc (fun q hq1 hq2 => hfirst q (by rw [hp] at hq1; omega) hq2)
    · have hpe : p = st.period + 1 := by omega
      have hfd : (periodStep c st).found = true := by rw [hf, ← hpe]; exact hacc
      rw [if_pos hfd]
      exact ⟨_, rfl, by rw [hp, hpe]⟩

/-- Evaluation of `index_of_coincidence` from the integer sums of its third loop. -/
theorem index_of_coincidence_eval (text : List Char) (n d : Int)
    (hn : (iocSums (letterCounts text)).1 = n)
    (hd : wrap32 ((iocSums (letterCounts text)).2 * wrap32 ((iocSums (letterCounts text)).2 - 1)) = d)
    (h1 : -2147483648 ≤ n) (h2 : n < 2147483648) :
    index_of_coincidence text = Dbl.div (Dbl.fin (26 * (n : ℚ))) (Dbl.fin (d : ℚ)) := by
  unfold index_of_coincidence
  simp only [hn, hd]
  rw [Dbl.mul_26 n h1 h2]
  rfl

/-- The literal `1.65` as a binary64 number. -/
theorem round64_165 :
    round64 (165 / 100) = Dbl.fin (3715469692580659 / 2251799813685248) := by
  rw [round64_eval 0 7430939385161318 (by norm_num [abs_of_pos]) (by norm_num [abs_of_pos])
    (by norm_num) (by norm_num [abs_lt]) (by norm_num [abs_lt])]
  norm_num

/-- The literal `1.2` as a binary64 number. -/
theorem round64_12 :
    round64 (12 / 10) = Dbl.fin (5404319552844595 / 4503599627370496) := by
  rw [round64_eval 0 5404319552844595 (by norm_num [abs_of_pos]) (by norm_num [abs_of_pos])
    (by norm_num) (by norm_num [abs_lt]) (by norm_num [abs_lt])]
  norm_num

/-- The product `IOCMULTTHRESH*oldioc` for a previous score between two integers `a ≥ 0`
and `b < 2^52`: a finite number between `a` and `2 * b`. -/
theorem mul_12_bounds {x : ℚ} {a b : Int} (ha : 0 ≤ a) (hb : b < 4503599627370496)
    (h1 : (a : ℚ) ≤ x) (h2 : x ≤ b) :
    ∃ w : ℚ, Dbl.mul (round64 (12 / 10)) (Dbl.fin x) = Dbl.fin w ∧ (a : ℚ) ≤ w ∧ w ≤ 2 * b := by
  rw [round64_12, Dbl.mul_fin]
  have haq : (0 : ℚ) ≤ a := by exact_mod_cast ha
  obtain ⟨w, hw, hw1, hw2⟩ := round64_bracket (q := 5404319552844595 / 4503599627370496 * x)
    (a := a) (b := 2 * b) (by omega) (by omega) (by nlinarith)
    (by push_cast; nlinarith)
  exact ⟨w, hw, hw1, by push_cast at hw2; exact hw2⟩

theorem averagedIoc_ABAB_1 :
    averagedIoc "ABAB".toList 1 = Dbl.fin (4878899596318037 / 562949953421312) := by
  have hs : sliceOf "ABAB".toList 1 0 = "ABAB".toList := by decide
  have hv : round64 (4878899596318037 / 562949953421312)
      = Dbl.fin (4878899596318037 / 562949953421312) := by
    rw [round64_eval 3 4878899596318037 (by norm_num [abs_of_pos]) (by norm_num [abs_of_pos])
      (by norm_num) (by norm_num [abs_lt]) (by norm_num [abs_lt])]
    norm_num
  unfold averagedIoc
  rw [show List.range 1 = [0] from rfl, List.foldl_cons, List.foldl_nil, hs,
    index_of_coincidence_ABAB, Dbl.add_fin, zero_add, hv]
  unfold Dbl.ofInt
  rw [Dbl.div_fin (by norm_num)]
  norm_num
  exact hv

set_option maxRecDepth 20000 in
theorem averagedIoc_ABAB_2 : averagedIoc "ABAB".toList 2 = Dbl.fin 26 := by
  have hs0 : sliceOf "ABAB".toList 2 0 = "AA".toList := by decide
  have hs1 : sliceOf "ABAB".toList 2 1 = "BB".toList := by decide
  have h26 : round64 26 = Dbl.fin 26 := by
    have := round64_intCast 26 (by norm_num) (by norm_num)
    norm_num at this; exact this
  have h52 : round64 52 = Dbl.fin 52 := by
    have := round64_intCast 52 (by norm_num) (by norm_num)
    norm_num at this; exact this
  have hi0 : index_of_coincidence "AA".toList = Dbl.fin 26 := by
    rw [index_of_coincidence_eval "AA".toList 2 2 (by decide) (by decide) (by norm_num)
      (by norm_num), Dbl.div_fin (by norm_num)]
    norm_num; exact h26
  have hi1 : index_of_coincidence "BB".toList = Dbl.fin 26 := by
    rw [index_of_coincidence_eval "BB".toList 2 2 (by decide) (by decide) (by norm_num)
      (by norm_num), Dbl.div_fin (by norm_num)]
    norm_num; exact h26
  unfold averagedIoc
  rw [show List.range 2 = [0, 1] from rfl, List.foldl_cons, List.foldl_cons, List.foldl_nil,
    hs0, hs1, hi0, hi1, Dbl.add_fin, zero_add, h26, Dbl.add_fin]
  unfold Dbl.ofInt
  norm_num
  rw [h52, Dbl.div_fin (by norm_num)]
  norm_num; exact h26

/-- The scan stops at period 2 when period 1 is rejected and period 2 is accepted. -/
theorem findPeriod_two (c slice0 : List Char) (h1 : accepts c 1 = false)
    (h2 : accepts c 2 = true) :
    findPeriod c slice0 2
      = some { period := 2, oldioc := averagedIoc c 2, found := true, slice := sliceOf c 2 1 } := by
  obtain ⟨hf1, hp1, ho1, _⟩ := periodStep_found c (periodStart slice0) rfl
  obtain ⟨hf2, hp2, ho2, hs2⟩ := periodStep_found c (periodStep c (periodStart slice0))
    (by rw [ho1, hp1])
  have e1 : ¬ (periodStep c (periodStart slice0)).found = true := by
    rw [hf1]; show ¬ accepts c 1 = true; rw [h1]; exact Bool.noConfusion
  have e2 : (periodStep c (periodStep c (periodStart slice0))).found = true := by
    rw [hf2, hp1]; exact h2
  have hst : ∀ st : PeriodState,
      st = { period := st.period, oldioc := st.oldioc, found := st.found, slice := st.slice } :=
    fun st => by cases st; rfl
  unfold findPeriod
  rw [periodLoop]
  simp only [if_neg e1]
  rw [periodLoop]
  simp only [if_pos e2]
  rw [hst (periodStep c (periodStep c (periodStart slice0))), e2, hp2, hs2, hp1]
  rfl

/-- The acceptance test on the ciphertext `ABAB`: period 1 is rejected (its score, the
binary64 number next to `26/3`, is not above `1.2 * 99`) and period 2 is accepted. -/
theorem accepts_ABAB : accepts "ABAB".toList 1 = false ∧ accepts "ABAB".toList 2 = true := by
  obtain ⟨w1, hw1, hw1a, _⟩ := mul_12_bounds (x := 99) (a := 99) (b := 99) (by norm_num)
    (by norm_num) (by norm_num) (by norm_num)
  obtain ⟨w2, hw2, _, hw2b⟩ := mul_12_bounds (x := 4878899596318037 / 562949953421312)
    (a := 8) (b := 9) (by norm_num) (by norm_num) (by norm_num) (by norm_num)
  constructor
  · unfold accepts previousIoc
    rw [if_pos (le_refl 1), averagedIoc_ABAB_1, hw1]
    have : Dbl.gt (Dbl.fin (4878899596318037 / 562949953421312)) (Dbl.fin w1) = false := by
      simp only [Dbl.gt, decide_eq_false_iff_not, not_lt]
      push_cast at hw1a
      exact le_trans (by norm_num) hw1a
    rw [this, Bool.and_false]
  · unfold accepts previousIoc
    rw [if_neg (by norm_num), averagedIoc_ABAB_2, averagedIoc_ABAB_1, hw2, round64_165]
    have h3 : Dbl.gt (Dbl.fin 26) (Dbl.fin (3715469692580659 / 2251799813685248)) = true := by
      simp only [Dbl.gt, decide_eq_true_eq]
      norm_num
    have h4 : Dbl.gt (Dbl.fin 26) (Dbl.fin w2) = true := by
      simp only [Dbl.gt, decide_eq_true_eq]
      push_cast at hw2b
      exact lt_of_le_of_lt hw2b (by norm_num)
    rw [h3, h4]; rfl

/-- Period detection on the ciphertext `ABAB`: period 2, with score 26, and `BB` left in
`slice`. -/
theorem findPeriod_abab :
    findPeriod "ABAB".toList [] 2
      = some { period := 2, oldioc := Dbl.fin 26, found := true, slice := "BB".toList } := by
  have hs1 : sliceOf "ABAB".toList 2 1 = "BB".toList := by decide
  rw [findPeriod_two "ABAB".toList [] accepts_ABAB.1 accepts_ABAB.2, averagedIoc_ABAB_2, hs1]

/-- Effect of one inner-loop iteration on the recorded best: either the child scores
strictly above the best recorded before the step and is recorded, or the record is kept
and `bigcount` is incremented. -/
theorem innerIter_best (env : Env) (j : Nat) (s s' : Search) (h : innerIter env j s = some s') :
    (Dbl.gt s'.fitc s.bestf = true ∧ s'.bestf = s'.fitc ∧ s'.bestp = strcpy s'.p
        ∧ s'.bestk = copy_keys s'.ck s.bestk env.period ∧ s'.bigcount = 0)
      ∨ (Dbl.gt s'.fitc s.bestf = false ∧ s'.bestf = s.bestf ∧ s'.bestk = s.bestk
        ∧ s'.bestp = s.bestp ∧ s'.bigcount = s.bigcount + 1) := by
  unfold innerIter at h
  simp only at h
  split at h
  · exact Option.noConfusion h
  · split at h
    · exact Option.noConfusion h
    · rename_i col rnd _ p _
      simp only [Option.some.injEq] at h
      subst h
      by_cases hp : Dbl.gt (fitness env.tetragrams p) s.fitp = true <;>
        by_cases hb : Dbl.gt (fitness env.tetragrams p) s.bestf = true
      · left; simp [hp, hb]
      · right; simp [hp, hb]
      · left; simp [hp, hb]
      · right; simp [hp, hb]

/-- A column restart leaves the recorded best and `bigcount` unchanged. -/
theorem columnRestart_best (env : Env) (j : Nat) (s s' : Search)
    (h : columnRestart env j s = some s') :
    s'.bestf = s.bestf ∧ s'.bestk = s.bestk ∧ s'.bestp = s.bestp ∧ s'.fitc = s.fitc
      ∧ s'.bigcount = s.bigcount := by
  unfold columnRestart at h
  simp only at h
  split at h
  · exact Option.noConfusion h
  · split at h
    · exact Option.noConfusion h
    · simp only [Option.some.injEq] at h
      subst h
      exact ⟨rfl, rfl, rfl, rfl, rfl⟩

theorem Step.best (env : Env) (s s' : Search) (h : Step env s s') :
    (s'.bestf = s.bestf ∧ s'.bestk = s.bestk ∧ s'.bestp = s.bestp)
      ∨ (Dbl.gt s'.fitc s.bestf = true ∧ s'.bestf = s'.fitc) := by
  cases h with
  | restart j _ _ h =>
    obtain ⟨h1, h2, h3, _⟩ := columnRestart_best env j s s' h
    exact Or.inl ⟨h1, h2, h3⟩
  | inner j _ _ h =>
    rcases innerIter_best env j s s' h with ⟨h1, h2, _⟩ | ⟨_, h2, h3, h4, _⟩
    · exact Or.inr ⟨h1, h2⟩
    · exact Or.inl ⟨h2, h3, h4⟩

theorem steps_bestf (env : Env) (s s' : Search) (h : Relation.ReflTransGen (Step env) s s') :
    s'.bestf = s.bestf ∨ Dbl.gt s'.bestf s.bestf = true := by
  induction h with
  | refl => exact Or.inl rfl
  | tail _ hstep ih =>
    rcases Step.best env _ _ hstep with ⟨h1, _⟩ | ⟨h1, h2⟩
    · rw [h1]; exact ih
    · right
      rw [h2]
      rcases ih with he | hg
      · rw [← he]; exact h1
      · exact Dbl.gt_trans h1 hg

theorem innerLoop_steps (env : Env) (j : Nat) : ∀ (fuel : Nat) (s s' : Search),
    innerLoop env j fuel s = some s' → Relation.ReflTransGen (Step env) s s' := by
  intro fuel
  induction fuel with
  | zero => intro s s' h; simp [innerLoop] at h
  | succ fuel ih =>
    intro s s' h
    unfold innerLoop at h
    split at h
    · split at h
      · exact Option.noConfusion h
      · rename_i s1 h1
        exact Relation.ReflTransGen.head (Step.inner j s s1 h1) (ih s1 s' h)
    · simp only [Option.some.injEq] at h
      subst h
      exact Relation.ReflTransGen.refl

theorem forLoop_steps (env : Env) (fuel : Nat) : ∀ (js : List Nat) (s s' : Search),
    forLoop env fuel js s = some s' → Relation.ReflTransGen (Step env) s s' := by
  intro js
  induction js with
  | nil =>
    intro s s' h
    simp only [forLoop, Option.some.injEq] at h
    subst h
    exact Relation.ReflTransGen.refl
  | cons j js ih =>
    intro s s' h
    unfold forLoop at h
    split at h
    · exact Option.noConfusion h
    · rename_i s1 h1
      split at h
      · exact Option.noConfusion h
      · rename_i s2 h2
        exact Relation.ReflTransGen.head (Step.restart j s s1 h1)
          ((innerLoop_steps env j fuel s1 s2 h2).trans (ih s2 s' h))

theorem mainLoop_steps (env : Env) : ∀ (fuel : Nat) (s s' : Search),
    mainLoop env fuel s = some s' → Relation.ReflTransGen (Step env) s s' := by
  intro fuel
  induction fuel with
  | zero => intro s s' h; simp [mainLoop] at h
  | succ fuel ih =>
    intro s s' h
    rw [mainLoop] at h
    by_cases hb : s.bigcount < budget env.period (strlen env.c)
    · rw [if_pos hb] at h
      cases h1 : forLoop env fuel (List.range env.period) s with
      | none => rw [h1] at h; exact Option.noConfusion h
      | some s1 =>
        rw [h1] at h
        exact (forLoop_steps env fuel _ s s1 h1).trans (ih s1 s' h)
    · rw [if_neg hb] at h
      simp only [Option.some.injEq] at h
      subst h
      exact Relation.ReflTransGen.refl

/-- C7: across every sequence of column restarts and inner-loop iterations, whatever the
random values, and in particular across every run of the main loop, the recorded best
fitness `bestf` never decreases (it stays equal or becomes strictly greater); and in a
single step the recorded best key, best plaintext or best fitness change only if the
child's fitness is strictly greater than the best fitness recorded before the step, the
new best fitness being that child's fitness. -/
theorem bestf_monotone (env : Env) (s s' : Search) (a b : Search) (fuel : Nat)
    (r r' : Search)
    (hseq : Relation.ReflTransGen (Step env) s s') (hstep : Step env a b)
    (hrun : mainLoop env fuel r = some r') :
    (s'.bestf = s.bestf ∨ Dbl.gt s'.bestf s.bestf = true)
      ∧ ((b.bestk ≠ a.bestk ∨ b.bestp ≠ a.bestp ∨ b.bestf ≠ a.bestf) →
          Dbl.gt b.fitc a.bestf = true ∧ b.bestf = b.fitc)
      ∧ (r'.bestf = r.bestf ∨ Dbl.gt r'.bestf r.bestf = true) := by
  refine ⟨steps_bestf env s s' hseq, fun hchg => ?_,
    steps_bestf env r r' (mainLoop_steps env fuel r r' hrun)⟩
  rcases Step.best env a b hstep with ⟨h1, h2, h3⟩ | h
  · rcases hchg with h | h | h
    · exact absurd h2 h
    · exact absurd h3 h
    · exact absurd h1 h
  · exact h

/-- Evaluation of `fitness` on a text with a single window. -/
theorem fitness_single (tetragrams : Int → Dbl) (text : List Char) (k : Int)
    (hlen : strlen text = 4) (hk : tetragramIndex text 0 = k) :
    fitness tetragrams text = Dbl.div (Dbl.add (Dbl.fin 0) (tetragrams k)) (Dbl.fin 1) := by
  unfold fitness fitnessLoop
  rw [hlen]
  simp [List.range_succ, hk, Dbl.ofInt]

/-- One inner-loop iteration on the concrete state `demoParent`. -/
theorem innerIter_demo : innerIter demoEnv 0 demoParent = some demoChild := by
  have hswap : random_swap ((copy_keys demoParent.pk demoParent.ck demoEnv.period).getD 0 [])
      demoParent.rnd = some ("BACDEFGHIJKLMNOPQRSTUVWXYZ".toList, []) := by decide
  have hck : (copy_keys demoParent.pk demoParent.ck demoEnv.period).set 0
      "BACDEFGHIJKLMNOPQRSTUVWXYZ".toList = ["BACDEFGHIJKLMNOPQRSTUVWXYZ".toList] := by decide
  have hdec : decrypt demoEnv.c ["BACDEFGHIJKLMNOPQRSTUVWXYZ".toList] demoEnv.period
      = some "BACD".toList := by decide
  have hfit : fitness demoEnv.tetragrams "BACD".toList = Dbl.fin 17631 := by
    rw [fitness_single demoEnv.tetragrams "BACD".toList 17631 (by decide) (by decide)]
    have h := round64_intCast 17631 (by norm_num) (by norm_num)
    show Dbl.div (Dbl.add (Dbl.fin 0) (Dbl.fin ((17631 : Int) : ℚ))) (Dbl.fin 1) = Dbl.fin 17631
    rw [Dbl.add_fin, zero_add, h, Dbl.div_fin (by norm_num), div_one, h]
    norm_num
  have hstr : strcpy "BACD".toList = "BACD".toList := by decide
  unfold innerIter
  simp only [hswap, hck, hdec, hfit, hstr]
  simp only [demoParent, demoChild, demoEnv, Dbl.gt]
  simp
  decide

/-- Witness for C7: the ciphertext `ABCD`, period 1, the table whose entry at key `k` is
`k`; one inner-loop iteration from the identity key with draws `0, 1` produces the child
plaintext `BACD` of fitness 17631, which replaces the recorded best of fitness 0; and a
run of the main loop entered with `bigcount` at its bound. -/
theorem bestf_monotone_witness :
    Relation.ReflTransGen (Step demoEnv) demoParent demoChild
      ∧ Step demoEnv demoParent demoChild
      ∧ mainLoop demoEnv 1 demoIdle = some demoIdle
      ∧ ((demoChild.bestf = demoParent.bestf ∨ Dbl.gt demoChild.bestf demoParent.bestf = true)
        ∧ ((demoChild.bestk ≠ demoParent.bestk ∨ demoChild.bestp ≠ demoParent.bestp
              ∨ demoChild.bestf ≠ demoParent.bestf) →
            Dbl.gt demoChild.fitc demoParent.bestf = true ∧ demoChild.bestf = demoChild.fitc)
        ∧ (demoIdle.bestf = demoIdle.bestf ∨ Dbl.gt demoIdle.bestf demoIdle.bestf = true)) :=
  have hstep : Step demoEnv demoParent demoChild := Step.inner 0 _ _ innerIter_demo
  have hrun : mainLoop demoEnv 1 demoIdle = some demoIdle := by
    have hb : budget demoEnv.period (strlen demoEnv.c) = 1250000 := by decide
    rw [mainLoop, hb, if_neg (by simp [demoIdle])]
  ⟨Relation.ReflTransGen.single hstep, hstep, hrun,
    bestf_monotone demoEnv demoParent demoChild demoParent demoChild 1 demoIdle demoIdle
      (Relation.ReflTransGen.single hstep) hstep hrun⟩

/-! ## Evaluating the index of coincidence -/

/-- On a text of at most 10000 uppercase letters, the operands of the final division of
`index_of_coincidence` are `26 * Σ count_i * (count_i - 1)` and `L * (L - 1)`. -/
theorem index_of_coincidence_of_isUpper (text : List Char)
    (hup : ∀ ch ∈ text, isUpper ch = true) (hmax : text.length ≤ 10000) :
    index_of_coincidence text
      = Dbl.div
          (Dbl.fin (26 * ((∑ i in Finset.range 26,
            (text.count (letter i) : Int) * ((text.count (letter i) : Int) - 1) : Int) : ℚ)))
          (Dbl.fin (((text.length : Int) * ((text.length : Int) - 1) : Int) : ℚ)) := by
  have hc : ∀ i ∈ Finset.range 26, (letterCounts text).getD i 0 = (text.count (letter i) : Int) :=
    fun i hi => getD_letterCounts text hup i (Finset.mem_range.1 hi)
  obtain ⟨hn0, hn1⟩ := numer_bounds text hup
  have hL : (text.length : Int) * ((text.length : Int) - 1) ≤ 10000 * 9999 := by
    rcases Nat.eq_zero_or_pos text.length with h0 | h0
    · rw [h0]; decide
    · exact mul_le_mul (by omega) (by omega) (by omega) (by omega)
  have hL0 : 0 ≤ (text.length : Int) * ((text.length : Int) - 1) := le_trans hn0 hn1
  unfold index_of_coincidence
  simp only [iocSums_eq]
  rw [Finset.sum_congr rfl (fun i hi => by rw [hc i hi]),
    Finset.sum_congr rfl hc, count_letter_sum text hup,
    wrap32_of_range (by omega) (by omega),
    wrap32_of_range (x := (text.length : Int)) (by omega) (by omega),
    wrap32_of_range (x := (text.length : Int) - 1) (by omega) (by omega),
    wrap32_of_range (by omega) (by omega)]
  rw [Dbl.mul_26 _ (by omega) (by omega)]
  rfl

/-- A text of at least two distinct uppercase letters has index of coincidence 0. -/
theorem index_of_coincidence_nodup (text : List Char) (hup : ∀ ch ∈ text, isUpper ch = true)
    (hnd : text.Nodup) (h2 : 2 ≤ text.length) (hmax : text.length ≤ 10000) :
    index_of_coincidence text = Dbl.fin 0 := by
  rw [index_of_coincidence_of_isUpper text hup hmax]
  have hz : ∑ i in Finset.range 26,
      (text.count (letter i) : Int) * ((text.count (letter i) : Int) - 1) = 0 := by
    apply Finset.sum_eq_zero
    intro i _
    have hle : text.count (letter i) ≤ 1 := List.nodup_iff_count_le_one.1 hnd _
    rcases Nat.le_one_iff_eq_zero_or_eq_one.1 hle with h | h <;> rw [h] <;> simp
  have hd : (((text.length : Int) * ((text.length : Int) - 1) : Int) : ℚ) ≠ 0 := by
    have : (text.length : Int) * ((text.length : Int) - 1) ≠ 0 :=
      ne_of_gt (mul_pos (by omega) (by omega))
    exact_mod_cast this
  rw [hz, Dbl.div_fin hd]
  simp [round64_zero]

theorem foldl_add_const (f : Nat → Dbl) (a : Int) (n : Nat)
    (h : ∀ i, i < n → f i = Dbl.fin (a : ℚ)) (hb : (n : Int) * |a| < 9007199254740992) :
    (List.range n).foldl (fun acc i => Dbl.add acc (f i)) (Dbl.fin 0)
      = Dbl.fin (((n : Int) * a : Int) : ℚ) := by
  induction n with
  | zero => simp
  | succ n ih =>
    have hstep : ((n : Int) + 1) * |a| < 9007199254740992 := by exact_mod_cast hb
    have hab : 0 ≤ |a| := abs_nonneg a
    have hn : (n : Int) * |a| < 9007199254740992 := by nlinarith
    rw [List.range_succ, List.foldl_append, ih (fun i hi => h i (by omega)) hn]
    simp only [List.foldl_cons, List.foldl_nil]
    rw [h n (by omega), Dbl.add_fin]
    have habs : |((n : Int) + 1) * a| < 9007199254740992 := by
      rw [abs_mul, abs_of_nonneg (by omega : (0 : Int) ≤ (n : Int) + 1)]; exact hstep
    have h2 := abs_lt.1 habs
    have := round64_intCast (((n : Int) + 1) * a) h2.1 h2.2
    push_cast at this ⊢
    rw [← this]
    congr 1
    ring

/-- When every slice of a candidate period `n ≥ 1` has the integer `a` as index of
coincidence (`n * |a|` below `2^53`), the averaged index of coincidence is `a`: the sum
and the quotient are exact. -/
theorem averagedIoc_const (c : List Char) (n : Nat) (a : Int) (hn : 1 ≤ n)
    (h : ∀ i, i < n → index_of_coincidence (sliceOf c n i) = Dbl.fin (a : ℚ))
    (hb : (n : Int) * |a| < 9007199254740992) :
    averagedIoc c n = Dbl.fin (a : ℚ) := by
  unfold averagedIoc
  rw [foldl_add_const (fun i => index_of_coincidence (sliceOf c n i)) a n h hb]
  have hq : ((n : Int) : ℚ) ≠ 0 := by
    have : (n : Int) ≠ 0 := by omega
    exact_mod_cast this
  unfold Dbl.ofInt
  rw [Dbl.div_fin hq]
  have hab : |a| < 9007199254740992 := by
    have h1 : (1 : Int) ≤ n := by omega
    have h0 : 0 ≤ |a| := abs_nonneg a
    nlinarith
  have h2 := abs_lt.1 hab
  rw [← round64_intCast a h2.1 h2.2]
  congr 1
  push_cast
  field_simp

/-- When every slice of a candidate period `n ≥ 1` has index of coincidence 0, the
averaged index of coincidence is 0. -/
theorem averagedIoc_zero (c : List Char) (n : Nat) (hn : 1 ≤ n)
    (h : ∀ i, i < n → index_of_coincidence (sliceOf c n i) = Dbl.fin 0) :
    averagedIoc c n = Dbl.fin 0 := by
  have := averagedIoc_const c n 0 hn (by simpa using h) (by simp)
  simpa using this

/-- At the candidate period 1 the averaged index of coincidence is that of the only
slice, rounded by the addition to `0.` and the division by 1: it stays between two
integers that bound the index of coincidence of the slice. -/
theorem averagedIoc_one_bounds (c : List Char) (q : ℚ) (a b : Int)
    (h : index_of_coincidence (sliceOf c 1 0) = Dbl.fin q)
    (ha : -9007199254740992 < a) (hb : b < 9007199254740992) (h1 : (a : ℚ) ≤ q)
    (h2 : q ≤ b) :
    ∃ r : ℚ, averagedIoc c 1 = Dbl.fin r ∧ (a : ℚ) ≤ r ∧ r ≤ b := by
  unfold averagedIoc
  rw [show List.range 1 = [0] from rfl, List.foldl_cons, List.foldl_nil, h, Dbl.add_fin]
  obtain ⟨r1, hr1, hr1a, hr1b⟩ := round64_bracket (q := 0 + q) ha hb (by linarith) (by linarith)
  rw [hr1]
  unfold Dbl.ofInt
  rw [Dbl.div_fin (by norm_num)]
  obtain ⟨r2, hr2, hr2a, hr2b⟩ := round64_bracket (q := r1 / (((1 : Nat) : Int) : ℚ)) ha hb
    (by norm_num; exact hr1a) (by norm_num; exact hr1b)
  exact ⟨r2, hr2, hr2a, hr2b⟩

/-! ## The run on `cipher46` -/

set_option maxRecDepth 100000 in
set_option maxHeartbeats 4000000 in
theorem cipher46_slices_nodup : ∀ q ∈ List.range 23, 2 ≤ q → ∀ i ∈ List.range q,
    (sliceOf cipher46 q i).Nodup ∧ (∀ ch ∈ sliceOf cipher46 q i, isUpper ch = true)
      ∧ 2 ≤ (sliceOf cipher46 q i).length ∧ (sliceOf cipher46 q i).length ≤ 10000 := by
  decide

set_option maxRecDepth 100000 in
set_option maxHeartbeats 4000000 in
theorem cipher46_slices_23 : ∀ i ∈ List.range 23,
    (iocSums (letterCounts (sliceOf cipher46 23 i))).1 = 2
      ∧ wrap32 ((iocSums (letterCounts (sliceOf cipher46 23 i))).2
          * wrap32 ((iocSums (letterCounts (sliceOf cipher46 23 i))).2 - 1)) = 2 := by
  decide

set_option maxRecDepth 100000 in
set_option maxHeartbeats 4000000 in
theorem cipher46_slice_1 :
    (iocSums (letterCounts (sliceOf cipher46 1 0))).1 = 46
      ∧ wrap32 ((iocSums (letterCounts (sliceOf cipher46 1 0))).2
          * wrap32 ((iocSums (letterCounts (sliceOf cipher46 1 0))).2 - 1)) = 2070 := by
  decide

/-- The averaged index of coincidence of `cipher46` at the candidate periods 1 to 23. -/
theorem averagedIoc_cipher46 :
    (∃ r : ℚ, averagedIoc cipher46 1 = Dbl.fin r ∧ 0 ≤ r ∧ r ≤ 1)
      ∧ (∀ q, 2 ≤ q → q < 23 → averagedIoc cipher46 q = Dbl.fin 0)
      ∧ averagedIoc cipher46 23 = Dbl.fin 26 := by
  refine ⟨?_, fun q h2 h23 => ?_, ?_⟩
  · have hi : ∃ q : ℚ, index_of_coincidence (sliceOf cipher46 1 0) = Dbl.fin q
        ∧ ((0 : Int) : ℚ) ≤ q ∧ q ≤ ((1 : Int) : ℚ) := by
      rw [index_of_coincidence_eval _ 46 2070 cipher46_slice_1.1 cipher46_slice_1.2
        (by norm_num) (by norm_num), Dbl.div_fin (by norm_num)]
      exact round64_bracket (by norm_num) (by norm_num) (by norm_num) (by norm_num)
    obtain ⟨q, hq, hq0, hq1⟩ := hi
    obtain ⟨r, hr, hr0, hr1⟩ := averagedIoc_one_bounds cipher46 q 0 1 hq (by norm_num)
      (by norm_num) hq0 hq1
    exact ⟨r, hr, by simpa using hr0, by simpa using hr1⟩
  · apply averagedIoc_zero _ _ (by omega)
    intro i hi
    obtain ⟨hnd, hup, hl2, hmax⟩ :=
      cipher46_slices_nodup q (List.mem_range.2 h23) h2 i (List.mem_range.2 hi)
    exact index_of_coincidence_nodup _ hup hnd hl2 hmax
  · have := averagedIoc_const cipher46 23 26 (by omega) (by
      intro i hi
      obtain ⟨h1, h2⟩ := cipher46_slices_23 i (List.mem_range.2 hi)
      rw [index_of_coincidence_eval _ 2 2 h1 h2 (by norm_num) (by norm_num),
        Dbl.div_fin (by norm_num)]
      have h26 := round64_intCast 26 (by norm_num) (by norm_num)
      norm_num at h26 ⊢
      exact h26) (by norm_num)
    simpa using this

/-- On `cipher46` the period detector rejects the periods 1 to 22 and accepts 23. -/
theorem accepts_cipher46 :
    accepts cipher46 23 = true ∧ ∀ q, 0 < q → q < 23 → accepts cipher46 q = false := by
  obtain ⟨⟨r, h1, _, hr1⟩, h2, h23⟩ := averagedIoc_cipher46
  constructor
  · obtain ⟨w, hw, _, hw0⟩ := mul_12_bounds (x := 0) (a := 0) (b := 0) (by norm_num)
      (by norm_num) (by norm_num) (by norm_num)
    unfold accepts previousIoc
    rw [h23, if_neg (by omega), h2 22 (by omega) (by omega), hw, round64_165]
    have h3 : Dbl.gt (Dbl.fin 26) (Dbl.fin (3715469692580659 / 2251799813685248)) = true := by
      simp only [Dbl.gt, decide_eq_true_eq]
      norm_num
    have h4 : Dbl.gt (Dbl.fin 26) (Dbl.fin w) = true := by
      simp only [Dbl.gt, decide_eq_true_eq]
      push_cast at hw0
      exact lt_of_le_of_lt hw0 (by norm_num)
    rw [h3, h4]; rfl
  · intro q hq0 hq
    unfold accepts
    rw [round64_165]
    rcases Nat.lt_or_ge q 2 with hlt | hge
    · have : q = 1 := by omega
      subst this
      rw [h1]
      have h3 : Dbl.gt (Dbl.fin r) (Dbl.fin (3715469692580659 / 2251799813685248)) = false := by
        simp only [Dbl.gt, decide_eq_false_iff_not, not_lt]
        exact le_trans hr1 (by norm_num)
      rw [h3, Bool.false_and]
    · rw [h2 q hge hq]
      have h3 : Dbl.gt (Dbl.fin 0) (Dbl.fin (3715469692580659 / 2251799813685248)) = false := by
        simp only [Dbl.gt, decide_eq_false_iff_not, not_lt]
        norm_num
      rw [h3, Bool.false_and]

set_option maxRecDepth 100000 in
/-- On `cipher46` period detection returns 23 and leaves `WW` in the buffer `slice`. -/
theorem findPeriod_cipher46 (slice0 : List Char) (fuel : Nat) (hfuel : 23 ≤ fuel) :
    ∃ st, findPeriod cipher46 slice0 fuel = some st ∧ st.period = 23
      ∧ st.slice = "WW".toList := by
  obtain ⟨st, hst, hp⟩ := periodLoop_complete cipher46 fuel (periodStart slice0) 23 rfl
    (by show 0 < 23; omega) (by show 23 ≤ 0 + fuel; omega) accepts_cipher46.1
    (fun q h1 h2 => accepts_cipher46.2 q h1 h2)
  obtain ⟨_, _, _, _, hs⟩ := periodLoop_sound cipher46 fuel (periodStart slice0) st rfl hst
  refine ⟨st, hst, hp, ?_⟩
  rw [hs, hp]
  decide

/-- On a ciphertext over `A`–`Z` and a key of permutation columns `decrypt` returns a
plaintext of the length of the ciphertext. -/
theorem decrypt_total (c : List Char) (key : Key) (k : Nat)
    (hc : ∀ ch ∈ c, isUpper ch = true) (hk : 1 ≤ k)
    (hkey : ∀ r, r < k → isPermutation (key.getD r [])) :
    ∃ p, decrypt c key k = some p ∧ p.length = c.length := by
  obtain ⟨p, hp, hlen, _, _⟩ := decryptFrom_spec hk hkey c 0 hc
  refine ⟨p, ?_, hlen⟩
  unfold decrypt
  rw [strlen_of_isUpper hc, List.take_length]
  exact hp

theorem mainLoop_of_budget (env : Env) (f : Nat) (s : Search)
    (h : ¬ s.bigcount < budget env.period (strlen env.c)) : mainLoop env (f + 1) s = some s := by
  rw [mainLoop, if_neg h]

/-- A run of `main` in which the bound of the main loop is not positive: the loop body
never runs and the report is made of the contents that the arrays `bestk` and `bestp`
had before the search, next to the fitness of the plaintext of the initial key. -/
theorem main_of_budget_nonpos (monograms : Nat → Dbl) (tetragrams : Int → Dbl)
    (arg : List Char) (u : Search) (slice0 : List Char) (fuel : Nat) (st : PeriodState)
    (p : List Char) (hc : strcpy arg = arg) (hst : findPeriod arg slice0 fuel = some st)
    (hp : decrypt arg (initKey monograms st.slice st.period u.pk) st.period = some p)
    (hb : budget st.period (strlen arg) ≤ 0) (hfuel : 1 ≤ fuel) :
    main monograms tetragrams arg u slice0 fuel
      = some { bestp := strcpy u.bestp, bestk := u.bestk.take st.period,
               bestf := fitness tetragrams p } := by
  rw [main]
  simp only [hc, hst, searchStart, hp]
  cases fuel with
  | zero => omega
  | succ f =>
    have hm := mainLoop_of_budget { tetragrams := tetragrams, c := arg, period := st.period } f
        { pk := initKey monograms st.slice st.period u.pk, ck := u.ck, bestk := u.bestk, p := p,
          bestp := u.bestp, fitp := u.fitp, fitc := u.fitc, bestf := fitness tetragrams p,
          count := u.count, bigcount := 0, rnd := u.rnd } (not_lt.2 hb)
    simp only [hm]

set_option maxRecDepth 100000 in
/-- The run of `main` on `cipher46`: the period is 23, the bound of the main loop
overflows to a negative value, the loop body never runs, and the report is made of the
contents of the never-written arrays `bestk` and `bestp` next to the fitness of the
plaintext of the initial key. -/
theorem main_cipher46 (monograms : Nat → Dbl) (tetragrams : Int → Dbl) (u : Search)
    (slice0 : List Char) (fuel : Nat)
    (href : ∀ k, k < 26 → Dbl.gt (monograms k) (Dbl.fin (-1)) = true)
    (hpk : 23 ≤ u.pk.length) (hfuel : 23 ≤ fuel) :
    ∃ p, decrypt cipher46 (initKey monograms "WW".toList 23 u.pk) 23 = some p
      ∧ p.length = 46
      ∧ main monograms tetragrams cipher46 u slice0 fuel
          = some { bestp := strcpy u.bestp, bestk := u.bestk.take 23,
                   bestf := fitness tetragrams p } := by
  obtain ⟨st, hst, hper, hslice⟩ := findPeriod_cipher46 slice0 fuel hfuel
  have hkey : ∀ r, r < 23 → isPermutation ((initKey monograms "WW".toList 23 u.pk).getD r []) :=
    fun r hr => by
      unfold initKey
      rw [(initKey_getD (initColumn monograms "WW".toList) u.pk 23 hpk).2.1 r hr]
      exact initColumn_isPermutation monograms "WW".toList (by decide) (by decide) href
  obtain ⟨p, hp, hlen⟩ := decrypt_total cipher46 _ 23 (by decide) (by omega) hkey
  refine ⟨p, hp, by rw [hlen]; rfl, ?_⟩
  have hc : strcpy cipher46 = cipher46 := by decide
  have hb : budget ((23 : Nat) : Int) (strlen cipher46) = -35868854 := by decide
  have hmain := main_of_budget_nonpos monograms tetragrams cipher46 u slice0 fuel st p hc hst
    (by rw [hper, hslice]; exact hp) (by rw [hper, hb]; decide) (by omega)
  rw [hper] at hmain
  exact hmain

/-- C8 (failing run): on the 46-letter ciphertext `cipher46`, with the table of
`monograms.h` having entry `k + 1` at index `k` and any table of `tetragrams.h`, `main`
terminates and reports, next to the fitness of the 46-letter plaintext of the initial key,
the contents `bestk0` and `bestp0` that the arrays `bestk` and `bestp` held before the
search: neither array is ever written. -/
theorem main_reports_unwritten_best (tetragrams : Int → Dbl) (bestk0 : Key)
    (bestp0 : List Char) :
    ∃ p, decrypt cipher46
          (initKey (fun k => Dbl.fin ((k : ℚ) + 1)) "WW".toList 23 (uninit46 bestk0 bestp0).pk) 23
          = some p
      ∧ p.length = 46
      ∧ main (fun k => Dbl.fin ((k : ℚ) + 1)) tetragrams cipher46 (uninit46 bestk0 bestp0) [] 23
          = some { bestp := strcpy bestp0, bestk := bestk0.take 23,
                   bestf := fitness tetragrams p } :=
  main_cipher46 (fun k => Dbl.fin ((k : ℚ) + 1)) tetragrams (uninit46 bestk0 bestp0) [] 23
    (fun k _ => by
      have : (0 : ℚ) ≤ (k : ℚ) := Nat.cast_nonneg k
      simp only [Dbl.gt, decide_eq_true_eq]
      linarith)
    (by simp [uninit46]) (le_refl _)

/-- Across any sequence of steps, either the recorded best key, plaintext and fitness
are all untouched, or the recorded best fitness has strictly increased. -/
theorem steps_best_unwritten (env : Env) (s s' : Search)
    (h : Relation.ReflTransGen (Step env) s s') :
    (s'.bestf = s.bestf ∧ s'.bestk = s.bestk ∧ s'.bestp = s.bestp)
      ∨ Dbl.gt s'.bestf s.bestf = true := by
  induction h with
  | refl => exact Or.inl ⟨rfl, rfl, rfl⟩
  | tail _ hstep ih =>
    rcases Step.best env _ _ hstep with ⟨h1, h2, h3⟩ | ⟨h1, h2⟩
    · rcases ih with ⟨e1, e2, e3⟩ | hg
      · exact Or.inl ⟨h1.trans e1, h2.trans e2, h3.trans e3⟩
      · right; rw [h1]; exact hg
    · right
      rw [h2]
      rcases ih with ⟨e1, _, _⟩ | hg
      · rw [← e1]; exact h1
      · exact Dbl.gt_trans h1 hg

/-- In every run of the main loop that ends with the best fitness it started with (no
child ever scored above the baseline), the arrays `bestk` and `bestp` are never written:
they end with the contents they had at the entry of the loop. -/
theorem mainLoop_best_unwritten (env : Env) (fuel : Nat) (s s' : Search)
    (hrun : mainLoop env fuel s = some s') (hsame : s'.bestf = s.bestf) :
    s'.bestk = s.bestk ∧ s'.bestp = s.bestp := by
  rcases steps_best_unwritten env s s' (mainLoop_steps env fuel s s' hrun) with ⟨_, h2, h3⟩ | hg
  · exact ⟨h2, h3⟩
  · rw [hsame, Dbl.gt_irrefl] at hg
    exact Bool.noConfusion hg

/-! ## The bound of the main loop -/

/-- For periods up to 20 the `int` expression `5000000*period*period/length` does not
overflow and equals the integer quotient of `5000000 * period²` by `length`. -/
theorem budget_of_le_20 (period length : Int) (hp1 : 1 ≤ period) (hp2 : period ≤ 20)
    (hl : 1 ≤ length) :
    budget period length = 5000000 * period ^ 2 / length := by
  have h1 : wrap32 (5000000 * period) = 5000000 * period :=
    wrap32_of_range (by omega) (by omega)
  have hsq : period * period ≤ 20 * 20 := mul_le_mul hp2 hp2 (by omega) (by omega)
  have hsq0 : 1 * 1 ≤ period * period := mul_le_mul hp1 hp1 (by omega) (by omega)
  have h2 : wrap32 (5000000 * period * period) = 5000000 * period * period := by
    rw [mul_assoc]
    exact wrap32_of_range (by omega) (by omega)
  unfold budget
  rw [h1, h2, Int.tdiv_eq_ediv (by rw [mul_assoc]; omega) (by omega)]
  congr 1
  ring

/-- C11 (failing values): for period 23 and ciphertext length 46, the values that `main`
reaches on `cipher46`, the `int` expression `5000000*period*period/length` wraps around
and yields `-35868854`, whereas `5000000 * 23² / 46` is `57500000`; the same happens at the
smallest overflowing period 21 and at the largest period 100. -/
theorem budget_overflows :
    budget 23 46 = -35868854 ∧ (5000000 * 23 ^ 2 / 46 : Int) = 57500000
      ∧ wrap32 (wrap32 (5000000 * 23) * 23) = -1649967296
      ∧ budget 21 9999 = -209017 ∧ (5000000 * 21 ^ 2 / 9999 : Int) = 220522
      ∧ budget 100 9999 = -153976 ∧ (5000000 * 100 ^ 2 / 9999 : Int) = 5000500 := by
  decide

/-! ## Fitness of short texts -/

/-- C12 as stated fails: on the three-letter text `ABC` (and the table whose entry at key
`k` is `k`) `fitness` raises no error; its loop runs for no window, leaving the sum and the
window count at zero, and the function returns the quotient of the two, NaN. -/
theorem fitness_short_no_error :
    fitnessLoop (fun k => Dbl.fin k) "ABC".toList = (Dbl.fin 0, 0)
      ∧ fitness (fun k => Dbl.fin k) "ABC".toList = Dbl.div (Dbl.fin 0) (Dbl.ofInt 0)
      ∧ fitness (fun k => Dbl.fin k) "ABC".toList = Dbl.nan := by
  have hl : strlen "ABC".toList = 3 := by decide
  have h : fitnessLoop (fun k => Dbl.fin k) "ABC".toList = (Dbl.fin 0, 0) := by
    unfold fitnessLoop
    rw [hl]
    rfl
  refine ⟨h, ?_, ?_⟩
  · unfold fitness
    rw [h]
  · unfold fitness
    rw [h]
    exact Dbl.div_zero_zero

/-- C12 (amended): for every text of fewer than 4 characters, the empty text included,
and every table, `fitness` does not fail: its loop looks up no window, the sum and the
window count stay zero, and the function returns the quotient `0.0/0`, which is NaN. -/
theorem fitness_short (tetragrams : Int → Dbl) (text : List Char) (h : strlen text < 4) :
    fitnessLoop tetragrams text = (Dbl.fin 0, 0) ∧ fitness tetragrams text = Dbl.nan := by
  have hz : ((strlen text : Int) - 3).toNat = 0 := by omega
  have hloop : fitnessLoop tetragrams text = (Dbl.fin 0, 0) := by
    unfold fitnessLoop
    rw [hz]
    rfl
  refine ⟨hloop, ?_⟩
  unfold fitness
  rw [hloop]
  exact Dbl.div_zero_zero

/-- Witness for C12 (amended): the text `ABC` and the table whose entry at key `k` is `k`. -/
theorem fitness_short_witness :
    strlen "ABC".toList < 4
      ∧ fitnessLoop (fun k => Dbl.fin k) "ABC".toList = (Dbl.fin 0, 0)
      ∧ fitness (fun k => Dbl.fin k) "ABC".toList = Dbl.nan :=
  ⟨by decide, fitness_short (fun k => Dbl.fin k) "ABC".toList (by decide)⟩

/-! ## Decryption of a character that is not in its column -/

theorem positionFrom_not_mem (c : Char) : ∀ (l : List Char) (i : Nat), c ∉ l →
    positionFrom c l i = -1 := by
  intro l
  induction l with
  | nil => intro i _; rfl
  | cons x t ih =>
    intro i h
    rw [positionFrom, if_neg (fun e => h (by rw [e]; exact List.mem_cons_self _ _))]
    exact ih (i + 1) (fun hm => h (List.mem_cons_of_mem _ hm))

theorem positionFrom_ge (c : Char) : ∀ (l : List Char) (i : Nat),
    positionFrom c l i = -1 ∨ (i : Int) ≤ positionFrom c l i := by
  intro l
  induction l with
  | nil => intro i; left; rfl
  | cons x t ih =>
    intro i
    unfold positionFrom
    by_cases hx : c = x
    · rw [if_pos hx]; right; exact le_refl _
    · rw [if_neg hx]
      rcases ih (i + 1) with h | h
      · left; exact h
      · right; omega

theorem positionFrom_append_not_mem (c : Char) : ∀ (l1 l2 : List Char) (i : Nat), c ∉ l1 →
    positionFrom c (l1 ++ l2) i = positionFrom c l2 (i + l1.length) := by
  intro l1
  induction l1 with
  | nil => intro l2 i _; simp
  | cons x t ih =>
    intro l2 i h
    rw [List.cons_append, positionFrom,
      if_neg (fun e => h (by rw [e]; exact List.mem_cons_self _ _)),
      ih l2 (i + 1) (fun hm => h (List.mem_cons_of_mem _ hm)), List.length_cons]
    congr 1
    omega

/-- A character that is not among the bytes of a column is not found inside the column:
`position` returns `-1` or an index past the column. -/
theorem position_not_mem (column rest : List Char) (ch : Char) (h : ch ∉ column) :
    position ch (column ++ rest) = -1
      ∨ (column.length : Int) ≤ position ch (column ++ rest) := by
  unfold position
  rw [take_strlen, List.takeWhile_append]
  split
  · rw [positionFrom_append_not_mem ch _ _ 0 h, Nat.zero_add]
    exact positionFrom_ge ch _ _
  · left
    exact positionFrom_not_mem ch _ 0 (fun hm => h (List.takeWhile_subset _ hm))

theorem alphabetAt_eq_some {v : Int} {x : Char} (h : alphabetAt v = some x)
    (hv : v = -1 ∨ 26 ≤ v) : v = 26 ∧ x = nul := by
  unfold alphabetAt at h
  split at h
  · rename_i hr
    have hv26 : v = 26 := by omega
    subst hv26
    simp only [Option.some.injEq] at h
    exact ⟨rfl, by rw [← h]; decide⟩
  · exact Option.noConfusion h

theorem decryptFrom_reads (key : Key) (k : Nat) : ∀ (text : List Char) (i0 : Nat) (p : List Char),
    decryptFrom key k i0 text = some p →
      ∀ j, j < text.length →
        alphabetAt (position (text.getD j nul) (rowString key ((i0 + j) % k)))
          = some (p.getD j nul) := by
  intro text
  induction text with
  | nil => intro i0 p _ j hj; simp at hj
  | cons ch t ih =>
    intro i0 p h j hj
    unfold decryptFrom at h
    split at h
    · rename_i x xs hx hxs
      simp only [Option.some.injEq] at h
      subst h
      cases j with
      | zero => simpa using hx
      | succ j =>
        have := ih (i0 + 1) xs hxs j (by simpa using hj)
        simpa [show i0 + (j + 1) = i0 + 1 + j by omega] using this
    · exact Option.noConfusion h

/-- C13 as stated fails: with a first column of 26 `B` followed in memory by a row that
starts with `A`, the ciphertext character `A` does not occur in column 0, yet `decrypt`
raises no error and produces a plaintext: `position` finds `A` at index 26, past the
column, and `alphabet[26]` is the terminating NUL. With nothing after the column
`position` returns `-1`, which is used as the index all the same. -/
theorem decrypt_without_error :
    'A' ∉ (["BBBBBBBBBBBBBBBBBBBBBBBBBB".toList, alphabet] : Key).getD (0 % 1) []
      ∧ position 'A' (rowString ["BBBBBBBBBBBBBBBBBBBBBBBBBB".toList, alphabet] (0 % 1)) = 26
      ∧ decrypt "AB".toList ["BBBBBBBBBBBBBBBBBBBBBBBBBB".toList, alphabet] 1
          = some [nul, 'A']
      ∧ position 'A' (rowString ["BBBBBBBBBBBBBBBBBBBBBBBBBB".toList] (0 % 1)) = -1 := by
  decide

/-- C13 (amended): when the ciphertext character `c[i]` does not occur in the 26 bytes of
column `i mod k`, `decrypt` raises no error: `position` returns `-1`, or an index of at
least 26 (the character occurs in the bytes stored after the column), never a rank below
26, and `decrypt` uses the result unchecked as index into `alphabet`; whenever `decrypt`
yields a plaintext, the index is 26 and the plaintext character at `i` is the terminating
NUL of `alphabet`, not a letter. -/
theorem decrypt_not_in_column (c : List Char) (key : Key) (k i : Nat) (hi : i < strlen c)
    (hlen : (key.getD (i % k) []).length = 26) (hnot : c.getD i nul ∉ key.getD (i % k) []) :
    (position (c.getD i nul) (rowString key (i % k)) = -1
        ∨ 26 ≤ position (c.getD i nul) (rowString key (i % k)))
      ∧ ∀ p, decrypt c key k = some p →
          position (c.getD i nul) (rowString key (i % k)) = 26 ∧ p.getD i nul = nul := by
  have hr : i % k < key.length := by
    by_contra hlt
    have h0 : key.getD (i % k) [] = [] := by
      rw [List.getD_eq_getElem?_getD, List.getElem?_eq_none (by omega)]; rfl
    rw [h0] at hlen
    simp at hlen
  have hpos : position (c.getD i nul) (rowString key (i % k)) = -1
      ∨ 26 ≤ position (c.getD i nul) (rowString key (i % k)) := by
    rw [rowString_eq_append key _ hr]
    have := position_not_mem (key.getD (i % k) []) (rowString key (i % k + 1)) _ hnot
    rw [hlen] at this
    exact this
  refine ⟨hpos, fun p hp => ?_⟩
  unfold decrypt at hp
  have hlt : i < (c.take (strlen c)).length := by
    rw [List.length_take, Nat.min_eq_left (strlen_le_length c)]; exact hi
  have hread := decryptFrom_reads key k _ 0 p hp i hlt
  have hget : (c.take (strlen c)).getD i nul = c.getD i nul := by
    simp only [List.getD_eq_getElem?_getD, List.getElem?_take, if_pos hi]
  rw [hget, Nat.zero_add] at hread
  exact alphabetAt_eq_some hread hpos

/-- Witness for C13 (amended): the ciphertext `AB`, period 1, and the key whose column 0
is 26 `B`, followed by the canonical alphabet. -/
theorem decrypt_not_in_column_witness :
    0 < strlen "AB".toList
      ∧ ((["BBBBBBBBBBBBBBBBBBBBBBBBBB".toList, alphabet] : Key).getD (0 % 1) []).length = 26
      ∧ "AB".toList.getD 0 nul
          ∉ (["BBBBBBBBBBBBBBBBBBBBBBBBBB".toList, alphabet] : Key).getD (0 % 1) []
      ∧ ((position ("AB".toList.getD 0 nul)
              (rowString ["BBBBBBBBBBBBBBBBBBBBBBBBBB".toList, alphabet] (0 % 1)) = -1
            ∨ 26 ≤ position ("AB".toList.getD 0 nul)
              (rowString ["BBBBBBBBBBBBBBBBBBBBBBBBBB".toList, alphabet] (0 % 1)))
          ∧ ∀ p, decrypt "AB".toList ["BBBBBBBBBBBBBBBBBBBBBBBBBB".toList, alphabet] 1 = some p →
              position ("AB".toList.getD 0 nul)
                  (rowString ["BBBBBBBBBBBBBBBBBBBBBBBBBB".toList, alphabet] (0 % 1)) = 26
                ∧ p.getD 0 nul = nul) :=
  ⟨by decide, by decide, by decide,
    decrypt_not_in_column "AB".toList ["BBBBBBBBBBBBBBBBBBBBBBBBBB".toList, alphabet] 1 0
      (by decide) (by decide) (by decide)⟩

/-! ## Index of coincidence of special texts -/

theorem not_dvd_mul_pred (L : Nat) (h2 : 2 ≤ L) (hL : L < 2147483648) :
    ¬ (4294967296 ∣ L * (L - 1)) := by
  intro hd
  have h32 : (4294967296 : Nat) = 2 ^ 32 := by norm_num
  rcases Nat.even_or_odd L with he | ho
  · have hodd : Odd (L - 1) := Nat.Even.sub_odd (by omega) he odd_one
    have hc : Nat.Coprime 4294967296 (L - 1) := by
      rw [h32]; exact Nat.Coprime.pow_left 32 (Nat.coprime_two_left.2 hodd)
    have := Nat.le_of_dvd (by omega) (hc.dvd_of_dvd_mul_right hd)
    omega
  · have hc : Nat.Coprime 4294967296 L := by
      rw [h32]; exact Nat.Coprime.pow_left 32 (Nat.coprime_two_left.2 ho)
    have := Nat.le_of_dvd (by omega) (hc.dvd_of_dvd_mul_left hd)
    omega

/-- For a length that an `int` holds, the product `L * (L - 1)` does not wrap to zero. -/
theorem wrap32_mul_pred_ne_zero (L : Nat) (h2 : 2 ≤ L) (hL : L < 2147483648) :
    wrap32 ((L : Int) * ((L : Int) - 1)) ≠ 0 := by
  intro h
  have hcast : (L : Int) * ((L : Int) - 1) = ((L * (L - 1) : Nat) : Int) := by
    push_cast [Nat.cast_sub (show 1 ≤ L by omega)]; ring
  rw [hcast] at h
  unfold wrap32 at h
  have hmod : ((L * (L - 1) : Nat) : Int) % 4294967296 = 0 := by omega
  have hdvd : ((4294967296 : Nat) : Int) ∣ ((L * (L - 1) : Nat) : Int) :=
    Int.dvd_of_emod_eq_zero hmod
  exact not_dvd_mul_pred L h2 hL (Int.natCast_dvd_natCast.1 hdvd)

theorem count_letter_replicate {x : Char} (hx : isUpper x = true) (L i : Nat) (hi : i < 26) :
    (List.replicate L x).count (letter i) = if x.toNat - 65 = i then L else 0 := by
  rw [List.count_replicate]
  have hiff : (x.toNat - 65 = i) ↔ (x == letter i) = true := by
    have hup := (isUpper_iff x).1 hx
    rw [beq_iff_eq]
    constructor
    · intro e; rw [← e]; exact eq_letter_of_isUpper hx
    · intro e; rw [e, toNat_letter hi]; omega
  by_cases hc : x.toNat - 65 = i
  · rw [if_pos hc, if_pos (hiff.1 hc)]
  · rw [if_neg hc, if_neg (fun e => hc (hiff.2 e))]

/-- C14: for every letter `x` of `A`–`Z` and every length `L ≥ 2` (a length that the
`int` variable `length` holds, `L < 2^31`), `index_of_coincidence` of the text made of `L`
copies of `x` is `26.0`. -/
theorem index_of_coincidence_replicate (x : Char) (L : Nat) (hx : isUpper x = true)
    (h2 : 2 ≤ L) (hL : L < 2147483648) :
    index_of_coincidence (List.replicate L x) = Dbl.fin 26 := by
  have hup : ∀ ch ∈ List.replicate L x, isUpper ch = true :=
    fun ch hch => by rw [List.eq_of_mem_replicate hch]; exact hx
  have hx26 : x.toNat - 65 < 26 := by have := (isUpper_iff x).1 hx; omega
  have hc : ∀ i ∈ Finset.range 26,
      (letterCounts (List.replicate L x)).getD i 0 = if x.toNat - 65 = i then (L : Int) else 0 := by
    intro i hi
    rw [getD_letterCounts _ hup i (Finset.mem_range.1 hi),
      count_letter_replicate hx L i (Finset.mem_range.1 hi)]
    split <;> simp
  have hnum : ∑ i in Finset.range 26,
      (letterCounts (List.replicate L x)).getD i 0
        * ((letterCounts (List.replicate L x)).getD i 0 - 1) = (L : Int) * ((L : Int) - 1) := by
    rw [Finset.sum_congr rfl (fun i hi => by rw [hc i hi]),
      Finset.sum_eq_single (x.toNat - 65)]
    · rw [if_pos rfl]
    · intro b _ hb; rw [if_neg (Ne.symm hb)]; simp
    · intro hn; exact absurd (Finset.mem_range.2 hx26) hn
  have htot : ∑ i in Finset.range 26, (letterCounts (List.replicate L x)).getD i 0 = (L : Int) := by
    rw [Finset.sum_congr rfl hc, Finset.sum_ite_eq, if_pos (Finset.mem_range.2 hx26)]
  have hw := wrap32_mul_pred_ne_zero L h2 hL
  unfold index_of_coincidence
  simp only [iocSums_eq]
  rw [hnum, htot, wrap32_of_range (x := (L : Int)) (by omega) (by omega), wrap32_mul_right]
  rw [Dbl.mul_26 _ (wrap32_range _).1 (wrap32_range _).2]
  unfold Dbl.ofInt
  have hq : ((wrap32 ((L : Int) * ((L : Int) - 1)) : Int) : ℚ) ≠ 0 := by exact_mod_cast hw
  have h26 := round64_intCast 26 (by norm_num) (by norm_num)
  rw [Dbl.div_fin hq, mul_div_assoc, div_self hq, mul_one]
  norm_num at h26
  exact h26

/-- Witness for C14: 70000 copies of `K`, a length at which `L * (L - 1)` overflows. -/
theorem index_of_coincidence_replicate_witness :
    isUpper 'K' = true ∧ 2 ≤ 70000 ∧ 70000 < 2147483648
      ∧ index_of_coincidence (List.replicate 70000 'K') = Dbl.fin 26 :=
  ⟨by decide, by decide, by decide,
    index_of_coincidence_replicate 'K' 70000 (by decide) (by decide) (by decide)⟩

/-- C15: for every text that contains each of the 26 letters exactly once, in any order,
`index_of_coincidence` is `0.0`. -/
theorem index_of_coincidence_isPermutation (text : List Char) (h : isPermutation text) :
    index_of_coincidence text = Dbl.fin 0
      ∧ text.length = 26 ∧ ∀ k, k < 26 → text.count (letter k) = 1 := by
  have hnd : text.Nodup := (List.Perm.nodup_iff h).2 (by decide)
  have hlen := h.length_eq
  exact ⟨index_of_coincidence_nodup text (fun ch hch => (h.mem_iff ch).1 hch) hnd
    (by omega) (by omega), hlen, fun k hk => count_eq_one_of_isPermutation h hk⟩

/-- Witness for C15: the keyboard order `QWERTYUIOPASDFGHJKLZXCVBNM`. -/
theorem index_of_coincidence_isPermutation_witness :
    isPermutation "QWERTYUIOPASDFGHJKLZXCVBNM".toList
      ∧ index_of_coincidence "QWERTYUIOPASDFGHJKLZXCVBNM".toList = Dbl.fin 0
      ∧ "QWERTYUIOPASDFGHJKLZXCVBNM".toList.length = 26
      ∧ ∀ k, k < 26 → "QWERTYUIOPASDFGHJKLZXCVBNM".toList.count (letter k) = 1 :=
  ⟨by decide, index_of_coincidence_isPermutation "QWERTYUIOPASDFGHJKLZXCVBNM".toList (by decide)⟩

/-! ## One inner-loop iteration -/

theorem foldl_set_getD (f : Nat → List Char) (target : Key) (n : Nat) (hn : n ≤ target.length) :
    ((List.range n).foldl (fun tgt i => tgt.set i (f i)) target).length = target.length
      ∧ (∀ i, i < n →
          ((List.range n).foldl (fun tgt i => tgt.set i (f i)) target).getD i [] = f i)
      ∧ (∀ i, n ≤ i →
          ((List.range n).foldl (fun tgt i => tgt.set i (f i)) target).getD i []
            = target.getD i []) := by
  induction n with
  | zero => exact ⟨rfl, fun i hi => by omega, fun i _ => rfl⟩
  | succ n ih =>
    obtain ⟨h1, h2, h3⟩ := ih (by omega)
    rw [List.range_succ, List.foldl_append]
    simp only [List.foldl_cons, List.foldl_nil]
    refine ⟨by rw [List.length_set, h1], fun i hi => ?_, fun i hi => ?_⟩
    · simp only [List.getD_eq_getElem?_getD, List.getElem?_set]
      by_cases he : n = i
      · subst he
        rw [if_pos rfl, if_pos (by rw [h1]; omega)]
        rfl
      · rw [if_neg he]
        have := h2 i (by omega)
        rwa [List.getD_eq_getElem?_getD] at this
    · have := h3 i (by omega)
      simp only [List.getD_eq_getElem?_getD, List.getElem?_set] at this ⊢
      rw [if_neg (by omega)]
      exact this

theorem copy_keys_getD (source target : Key) (n : Nat) (hn : n ≤ target.length) :
    (copy_keys source target n).length = target.length
      ∧ (∀ i, i < n → (copy_keys source target n).getD i [] = source.getD i [])
      ∧ (∀ i, n ≤ i → (copy_keys source target n).getD i [] = target.getD i []) :=
  foldl_set_getD (fun i => source.getD i []) target n hn

/-- The parts of the state after one inner-loop iteration. -/
theorem innerIter_eq (env : Env) (j : Nat) (s s' : Search) (h : innerIter env j s = some s') :
    ∃ col rnd p,
      random_swap ((copy_keys s.pk s.ck env.period).getD j []) s.rnd = some (col, rnd)
        ∧ decrypt env.c ((copy_keys s.pk s.ck env.period).set j col) env.period = some p
        ∧ s'.ck = (copy_keys s.pk s.ck env.period).set j col
        ∧ s'.p = p ∧ s'.fitc = fitness env.tetragrams p ∧ s'.rnd = rnd
        ∧ (Dbl.gt s'.fitc s.fitp = true →
            s'.pk = copy_keys s'.ck s.pk env.period ∧ s'.fitp = s'.fitc ∧ s'.count = 0)
        ∧ (Dbl.gt s'.fitc s.fitp = false →
            s'.pk = s.pk ∧ s'.fitp = s.fitp ∧ s'.count = s.count + 1) := by
  unfold innerIter at h
  simp only at h
  split at h
  · exact Option.noConfusion h
  · rename_i col rnd hsw
    split at h
    · exact Option.noConfusion h
    · rename_i p hdec
      simp only [Option.some.injEq] at h
      subst h
      refine ⟨col, rnd, p, hsw, hdec, ?_⟩
      by_cases hp : Dbl.gt (fitness env.tetragrams p) s.fitp = true <;>
        by_cases hb : Dbl.gt (fitness env.tetragrams p) s.bestf = true <;>
        simp [hp, hb]

theorem swap_getD (row : List Char) {a b : Nat} (ha : a < row.length) (hb : b < row.length)
    (hab : a ≠ b) :
    ((row.set a (row.getD b nul)).set b (row.getD a nul)).getD a nul = row.getD b nul
      ∧ ((row.set a (row.getD b nul)).set b (row.getD a nul)).getD b nul = row.getD a nul
      ∧ ∀ m, m ≠ a → m ≠ b →
          ((row.set a (row.getD b nul)).set b (row.getD a nul)).getD m nul = row.getD m nul := by
  refine ⟨?_, ?_, ?_⟩
  · simp only [List.getD_eq_getElem?_getD, List.getElem?_set, if_neg (Ne.symm hab),
      List.length_set]
    simp [ha]
  · simp only [List.getD_eq_getElem?_getD, List.getElem?_set, List.length_set]
    simp [hb]
  · intro m hma hmb
    simp only [List.getD_eq_getElem?_getD, List.getElem?_set, if_neg (Ne.symm hma),
      if_neg (Ne.symm hmb)]

theorem getD_ne_of_nodup {row : List Char} (hnd : row.Nodup) {a b : Nat} (ha : a < row.length)
    (hb : b < row.length) (hab : a ≠ b) : row.getD a nul ≠ row.getD b nul := by
  rw [List.getD_eq_getElem _ _ ha, List.getD_eq_getElem _ _ hb]
  intro h
  exact hab ((hnd.getElem_inj_iff).1 h)

/-- C16: one inner-loop iteration on column `j` of a parent key whose columns are
permutations. The child key equals the parent key in every column other than `j` and
differs from it in column `j` in exactly two positions `a ≠ b`, whose letters are
exchanged; the child's fitness is that of the plaintext decrypted with the child key. If
the child's fitness is strictly greater than the parent's, the parent key and the parent
fitness become the child's and the stagnation counter becomes 0; otherwise the parent key
and the parent fitness are unchanged and the stagnation counter increases by exactly 1. -/
theorem innerIter_step (env : Env) (j : Nat) (s s' : Search) (hj : j < env.period)
    (hpk : env.period ≤ s.pk.length) (hck : env.period ≤ s.ck.length)
    (hperm : ∀ r, r < env.period → isPermutation (s.pk.getD r []))
    (h : innerIter env j s = some s') :
    (∀ r, r < env.period → r ≠ j → s'.ck.getD r [] = s.pk.getD r [])
      ∧ (∃ a b, a < 26 ∧ b < 26 ∧ a ≠ b
          ∧ (s'.ck.getD j []).getD a nul = (s.pk.getD j []).getD b nul
          ∧ (s'.ck.getD j []).getD b nul = (s.pk.getD j []).getD a nul
          ∧ (s'.ck.getD j []).getD a nul ≠ (s.pk.getD j []).getD a nul
          ∧ (s'.ck.getD j []).getD b nul ≠ (s.pk.getD j []).getD b nul
          ∧ ∀ m, m ≠ a → m ≠ b → (s'.ck.getD j []).getD m nul = (s.pk.getD j []).getD m nul)
      ∧ (decrypt env.c s'.ck env.period = some s'.p ∧ s'.fitc = fitness env.tetragrams s'.p)
      ∧ (Dbl.gt s'.fitc s.fitp = true →
          (∀ r, r < env.period → s'.pk.getD r [] = s'.ck.getD r [])
            ∧ s'.fitp = s'.fitc ∧ s'.count = 0)
      ∧ (Dbl.gt s'.fitc s.fitp = false →
          s'.pk = s.pk ∧ s'.fitp = s.fitp ∧ s'.count = s.count + 1) := by
  obtain ⟨col, rnd, p, hsw, hdec, hck', hp, hfit, _, hacc, hrej⟩ := innerIter_eq env j s s' h
  obtain ⟨hl, hlow, _⟩ := copy_keys_getD s.pk s.ck env.period hck
  rw [hlow j hj] at hsw
  obtain ⟨a, b, ha, hb, hab, hcol⟩ := random_swap_spec _ _ _ _ hsw
  have hrow := hperm j hj
  have hlen := hrow.length_eq
  have hnd : (s.pk.getD j []).Nodup := (List.Perm.nodup_iff hrow).2 (by decide)
  have hcj : s'.ck.getD j [] = col := by
    rw [hck']
    have hjl : j < (copy_keys s.pk s.ck env.period).length := by rw [hl]; omega
    simp only [List.getD_eq_getElem?_getD, List.getElem?_set]
    rw [if_pos trivial, if_pos hjl]
    rfl
  obtain ⟨hsa, hsb, hsm⟩ := swap_getD (s.pk.getD j []) (by omega) (by omega) hab
  refine ⟨fun r hr hrj => ?_, ⟨a, b, ha, hb, hab, ?_, ?_, ?_, ?_, ?_⟩, ⟨?_, ?_⟩, fun hgt => ?_,
    hrej⟩
  · rw [hck']
    have := hlow r hr
    simp only [List.getD_eq_getElem?_getD, List.getElem?_set, if_neg (Ne.symm hrj)] at this ⊢
    exact this
  · rw [hcj, hcol]; exact hsa
  · rw [hcj, hcol]; exact hsb
  · rw [hcj, hcol, hsa]; exact getD_ne_of_nodup hnd (by omega) (by omega) (Ne.symm hab)
  · rw [hcj, hcol, hsb]; exact getD_ne_of_nodup hnd (by omega) (by omega) hab
  · intro m hma hmb; rw [hcj, hcol]; exact hsm m hma hmb
  · rw [hck', hp]; exact hdec
  · rw [hfit, hp]
  · obtain ⟨h1, h2, h3⟩ := hacc hgt
    refine ⟨fun r hr => ?_, h2, h3⟩
    rw [h1]
    exact (copy_keys_getD s'.ck s.pk env.period hpk).2.1 r hr

/-- Witness for C16: the iteration `innerIter_demo` on the ciphertext `ABCD`, in which
the letters `A` and `B` of the only column are exchanged and the child is accepted. -/
theorem innerIter_step_witness :
    0 < demoEnv.period ∧ demoEnv.period ≤ demoParent.pk.length
      ∧ demoEnv.period ≤ demoParent.ck.length
      ∧ (∀ r, r < demoEnv.period → isPermutation (demoParent.pk.getD r []))
      ∧ innerIter demoEnv 0 demoParent = some demoChild
      ∧ ((∀ r, r < demoEnv.period → r ≠ 0 → demoChild.ck.getD r [] = demoParent.pk.getD r [])
        ∧ (∃ a b, a < 26 ∧ b < 26 ∧ a ≠ b
            ∧ (demoChild.ck.getD 0 []).getD a nul = (demoParent.pk.getD 0 []).getD b nul
            ∧ (demoChild.ck.getD 0 []).getD b nul = (demoParent.pk.getD 0 []).getD a nul
            ∧ (demoChild.ck.getD 0 []).getD a nul ≠ (demoParent.pk.getD 0 []).getD a nul
            ∧ (demoChild.ck.getD 0 []).getD b nul ≠ (demoParent.pk.getD 0 []).getD b nul
            ∧ ∀ m, m ≠ a → m ≠ b →
                (demoChild.ck.getD 0 []).getD m nul = (demoParent.pk.getD 0 []).getD m nul)
        ∧ (decrypt demoEnv.c demoChild.ck demoEnv.period = some demoChild.p
            ∧ demoChild.fitc = fitness demoEnv.tetragrams demoChild.p)
        ∧ (Dbl.gt demoChild.fitc demoParent.fitp = true →
            (∀ r, r < demoEnv.period → demoChild.pk.getD r [] = demoChild.ck.getD r [])
              ∧ demoChild.fitp = demoChild.fitc ∧ demoChild.count = 0)
        ∧ (Dbl.gt demoChild.fitc demoParent.fitp = false →
            demoChild.pk = demoParent.pk ∧ demoChild.fitp = demoParent.fitp
              ∧ demoChild.count = demoParent.count + 1)) :=
  ⟨by decide, by decide, by decide, by decide, innerIter_demo,
    innerIter_step demoEnv 0 demoParent demoChild (by decide) (by decide) (by decide)
      (by decide) innerIter_demo⟩

/-! ## The slice used by the key initialiser -/

/-- C17: when period detection returns the period `p`, the buffer `slice` that `main`
passes to the key initialiser for every column holds the last slice built by the
detector, the characters at the positions `p*j + (p-1)` for `j < length / p`; each of the
`p` initial key columns is the column computed from this one slice, so the `p` initial
columns are identical to one another. -/
theorem initKey_columns_identical (monograms : Nat → Dbl) (c slice0 : List Char) (fuel : Nat)
    (st : PeriodState) (pk : Key) (h : findPeriod c slice0 fuel = some st)
    (hroom : st.period ≤ pk.length) :
    st.slice = (List.range (strlen c / st.period)).map
        (fun j => c.getD (st.period * j + (st.period - 1)) nul)
      ∧ (∀ i, i < st.period →
          (initKey monograms st.slice st.period pk).getD i []
            = initColumn monograms (sliceOf c st.period (st.period - 1)))
      ∧ (∀ i i2, i < st.period → i2 < st.period →
          (initKey monograms st.slice st.period pk).getD i []
            = (initKey monograms st.slice st.period pk).getD i2 []) := by
  obtain ⟨_, _, _, _, hs⟩ := periodLoop_sound c fuel (periodStart slice0) st rfl h
  have hget := (initKey_getD (initColumn monograms st.slice) pk st.period hroom).2.1
  refine ⟨by rw [hs]; rfl, fun i hi => ?_, fun i i2 hi hi2 => ?_⟩
  · unfold initKey
    rw [hget i hi, hs]
  · unfold initKey
    rw [hget i hi, hget i2 hi2]

/-- Witness for C17: the ciphertext `ABAB`, period 2: both initial columns are computed
from the slice `BB` of position 1, although the slice of position 0 is `AA`. -/
theorem initKey_columns_identical_witness :
    findPeriod "ABAB".toList [] 2
        = some { period := 2, oldioc := Dbl.fin 26, found := true, slice := "BB".toList }
      ∧ 2 ≤ ([[], []] : Key).length
      ∧ sliceOf "ABAB".toList 2 0 = "AA".toList
      ∧ ("BB".toList = (List.range (strlen "ABAB".toList / 2)).map
            (fun j => "ABAB".toList.getD (2 * j + (2 - 1)) nul)
        ∧ (∀ i, i < 2 →
            (initKey (fun k => Dbl.fin k) "BB".toList 2 [[], []]).getD i []
              = initColumn (fun k => Dbl.fin k) (sliceOf "ABAB".toList 2 (2 - 1)))
        ∧ (∀ i i2, i < 2 → i2 < 2 →
            (initKey (fun k => Dbl.fin k) "BB".toList 2 [[], []]).getD i []
              = (initKey (fun k => Dbl.fin k) "BB".toList 2 [[], []]).getD i2 [])) :=
  ⟨findPeriod_abab, by decide, by decide,
    initKey_columns_identical (fun k => Dbl.fin k) "ABAB".toList [] 2 _ [[], []]
      findPeriod_abab (by decide)⟩

/-! ## Period detection: degenerate slices and period 1 -/

theorem sliceOf_index_lt (c : List Char) (p i j : Nat) (hi : i < p) (hj : j < strlen c / p) :
    p * j + i < c.length := by
  have h1 : p * j + i < p * (strlen c / p) := by
    calc p * j + i < p * j + p := by omega
      _ = p * (j + 1) := by ring
      _ ≤ p * (strlen c / p) := Nat.mul_le_mul_left p hj
  exact lt_of_lt_of_le h1 (le_trans (Nat.mul_div_le _ _) (strlen_le_length c))

theorem isUpper_sliceOf (c : List Char) (hup : ∀ ch ∈ c, isUpper ch = true) (p i : Nat)
    (hi : i < p) : ∀ ch ∈ sliceOf c p i, isUpper ch = true := by
  intro ch hch
  unfold sliceOf at hch
  obtain ⟨j, hj, rfl⟩ := List.mem_map.1 hch
  have hlt := sliceOf_index_lt c p i j hi (List.mem_range.1 hj)
  unfold charAt
  rw [List.getD_eq_getElem _ _ hlt]
  exact hup _ (List.getElem_mem hlt)

theorem nodup_sliceOf (c : List Char) (hnd : c.Nodup) (p i : Nat) (hi : i < p) :
    (sliceOf c p i).Nodup := by
  unfold sliceOf
  apply List.Nodup.map_on _ (List.nodup_range _)
  intro x hx y hy hxy
  have hlx := sliceOf_index_lt c p i x hi (List.mem_range.1 hx)
  have hly := sliceOf_index_lt c p i y hi (List.mem_range.1 hy)
  unfold charAt at hxy
  rw [List.getD_eq_getElem _ _ hlx, List.getD_eq_getElem _ _ hly] at hxy
  have := (hnd.getElem_inj_iff).1 hxy
  have hp : p * x = p * y := by omega
  exact Nat.eq_of_mul_eq_mul_left (by omega) hp

theorem length_sliceOf (c : List Char) (p i : Nat) : (sliceOf c p i).length = strlen c / p := by
  simp [sliceOf]

/-- A text of fewer than two uppercase letters has index of coincidence NaN, the value
of the division `0.0/0`. -/
theorem index_of_coincidence_short (text : List Char) (hup : ∀ ch ∈ text, isUpper ch = true)
    (h : text.length < 2) : index_of_coincidence text = Dbl.nan := by
  rw [index_of_coincidence_of_isUpper text hup (by omega)]
  obtain ⟨hn0, hn1⟩ := numer_bounds text hup
  have hd : (text.length : Int) * ((text.length : Int) - 1) = 0 := by
    rcases Nat.lt_succ_iff.1 h with h1
    rcases Nat.le_one_iff_eq_zero_or_eq_one.1 h1 with h0 | h0 <;> rw [h0] <;> simp
  rw [hd] at hn1 ⊢
  have hs : ∑ i in Finset.range 26,
      (text.count (letter i) : Int) * ((text.count (letter i) : Int) - 1) = 0 := by omega
  rw [hs]
  simp [Dbl.div, Dbl.infOfSign]

theorem foldl_add_nan (f : Nat → Dbl) (n : Nat) (hn : 1 ≤ n) (h : ∀ i, i < n → f i = Dbl.nan) :
    (List.range n).foldl (fun acc i => Dbl.add acc (f i)) (Dbl.fin 0) = Dbl.nan := by
  obtain ⟨m, rfl⟩ : ∃ m, n = m + 1 := ⟨n - 1, by omega⟩
  rw [List.range_succ, List.foldl_append]
  simp only [List.foldl_cons, List.foldl_nil]
  rw [h m (by omega)]
  cases (List.range m).foldl (fun acc i => Dbl.add acc (f i)) (Dbl.fin 0) <;> rfl

/-- When every slice of a candidate period has fewer than two characters, the averaged
index of coincidence is NaN. -/
theorem averagedIoc_degenerate (c : List Char) (hup : ∀ ch ∈ c, isUpper ch = true) (p : Nat)
    (hp : 1 ≤ p) (hshort : strlen c / p < 2) : averagedIoc c p = Dbl.nan := by
  unfold averagedIoc
  rw [foldl_add_nan (fun i => index_of_coincidence (sliceOf c p i)) p hp
    (fun i hi => index_of_coincidence_short _ (isUpper_sliceOf c hup p i hi)
      (by rw [length_sliceOf]; exact hshort))]
  rfl

theorem length_le_of_nodup_isUpper (c : List Char) (hup : ∀ ch ∈ c, isUpper ch = true)
    (hnd : c.Nodup) : c.length ≤ 26 := by
  have hsub : c ⊆ alphabet := fun ch hch => mem_alphabet_of_isUpper (hup ch hch)
  exact (List.subperm_of_subset hnd hsub).length_le

theorem accepts_of_not_gt (c : List Char) (p : Nat)
    (h : Dbl.gt (averagedIoc c p) (round64 (165 / 100)) = false) : accepts c p = false := by
  unfold accepts
  rw [h]
  rfl

/-- On a text of uppercase letters in which no letter occurs twice, the averaged index of
coincidence never exceeds the threshold 1.65: it is 0 while the slices have two or more
characters and NaN afterwards. -/
theorem averagedIoc_nodup (c : List Char) (hup : ∀ ch ∈ c, isUpper ch = true) (hnd : c.Nodup)
    (p : Nat) (hp : 1 ≤ p) :
    averagedIoc c p = Dbl.fin 0 ∨ averagedIoc c p = Dbl.nan := by
  rcases Nat.lt_or_ge (strlen c / p) 2 with hlt | hge
  · right; exact averagedIoc_degenerate c hup p hp hlt
  · left
    apply averagedIoc_zero c p hp
    intro i hi
    have hlen : (sliceOf c p i).length ≤ 26 := by
      rw [length_sliceOf]
      exact le_trans (Nat.div_le_self _ _)
        (le_trans (strlen_le_length c) (length_le_of_nodup_isUpper c hup hnd))
    exact index_of_coincidence_nodup _ (isUpper_sliceOf c hup p i hi) (nodup_sliceOf c hnd p i hi)
      (by rw [length_sliceOf]; exact hge) (by omega)

/-- C19: there are ciphertexts on which period detection never terminates. On every text
of uppercase letters in which no letter occurs twice, the acceptance test is false at
every candidate period `p ≥ 1`: the averaged index of coincidence does not exceed 1.65
(neither the number `165/100` nor the binary64 constant `IOCTHRESHOLD`);
at every `p` greater than half the length each slice has fewer than 2 characters and the
averaged index of coincidence is NaN; and the scan does not set `found` within any number
of iterations. -/
theorem findPeriod_never_stops (c : List Char) (hup : ∀ ch ∈ c, isUpper ch = true)
    (hnd : c.Nodup) :
    (∀ p, 1 ≤ p →
        Dbl.gt (averagedIoc c p) (Dbl.fin (165 / 100)) = false ∧ accepts c p = false)
      ∧ (∀ p, 1 ≤ p → Dbl.gt (averagedIoc c p) IOCTHRESHOLD = false)
      ∧ (∀ p, c.length < 2 * p →
          (∀ i, i < p → (sliceOf c p i).length < 2) ∧ averagedIoc c p = Dbl.nan)
      ∧ ∀ slice0 fuel, findPeriod c slice0 fuel = none := by
  have hgt : ∀ p, 1 ≤ p → Dbl.gt (averagedIoc c p) (Dbl.fin (165 / 100)) = false := by
    intro p hp
    rcases averagedIoc_nodup c hup hnd p hp with h | h <;> rw [h]
    · simp only [Dbl.gt]; norm_num
    · rfl
  have hgt2 : ∀ p, 1 ≤ p → Dbl.gt (averagedIoc c p) (round64 (165 / 100)) = false := by
    intro p hp
    rw [round64_165]
    rcases averagedIoc_nodup c hup hnd p hp with h | h <;> rw [h]
    · simp only [Dbl.gt]; norm_num
    · rfl
  refine ⟨fun p hp => ⟨hgt p hp, accepts_of_not_gt c p (hgt2 p hp)⟩, hgt2, fun p hp => ?_,
    fun slice0 fuel => ?_⟩
  · have hdiv : strlen c / p < 2 := by
      rw [strlen_of_isUpper hup]
      exact (Nat.div_lt_iff_lt_mul (by omega)).2 (by omega)
    exact ⟨fun i _ => by rw [length_sliceOf]; exact hdiv,
      averagedIoc_degenerate c hup p (by omega) hdiv⟩
  · cases h : findPeriod c slice0 fuel with
    | none => rfl
    | some st =>
      obtain ⟨h1, _, h3, _, _⟩ := periodLoop_sound c fuel (periodStart slice0) st rfl h
      rw [accepts_of_not_gt c st.period (hgt2 st.period h1)] at h3
      exact Bool.noConfusion h3

/-- Witness for C19: the ciphertext `ABCD`. -/
theorem findPeriod_never_stops_witness :
    (∀ ch ∈ "ABCD".toList, isUpper ch = true) ∧ "ABCD".toList.Nodup
      ∧ ((∀ p, 1 ≤ p →
            Dbl.gt (averagedIoc "ABCD".toList p) (Dbl.fin (165 / 100)) = false
              ∧ accepts "ABCD".toList p = false)
        ∧ (∀ p, 1 ≤ p → Dbl.gt (averagedIoc "ABCD".toList p) IOCTHRESHOLD = false)
        ∧ (∀ p, "ABCD".toList.length < 2 * p →
            (∀ i, i < p → (sliceOf "ABCD".toList p i).length < 2)
              ∧ averagedIoc "ABCD".toList p = Dbl.nan)
        ∧ ∀ slice0 fuel, findPeriod "ABCD".toList slice0 fuel = none) :=
  ⟨by decide, by decide, findPeriod_never_stops "ABCD".toList (by decide) (by decide)⟩

theorem sliceOf_one (c : List Char) (hup : ∀ ch ∈ c, isUpper ch = true) : sliceOf c 1 0 = c := by
  unfold sliceOf
  rw [strlen_of_isUpper hup, Nat.div_one]
  apply List.ext_getElem
  · simp
  · intro n h1 h2
    simp only [List.getElem_map, List.getElem_range, charAt]
    rw [show 1 * n + 0 = n by omega, List.getD_eq_getElem _ _ h2]

/-- The index of coincidence of a text of 2 to 10000 uppercase letters is a finite value
between 0 and 26. -/
theorem index_of_coincidence_range (text : List Char) (hup : ∀ ch ∈ text, isUpper ch = true)
    (h2 : 2 ≤ text.length) (hmax : text.length ≤ 10000) :
    ∃ q : ℚ, index_of_coincidence text = Dbl.fin q ∧ 0 ≤ q ∧ q ≤ 26 := by
  obtain ⟨hn0, hn1⟩ := numer_bounds text hup
  have hD : (0 : Int) < (text.length : Int) * ((text.length : Int) - 1) :=
    mul_pos (by omega) (by omega)
  have hDq : (0 : ℚ) < (((text.length : Int) * ((text.length : Int) - 1) : Int) : ℚ) := by
    exact_mod_cast hD
  have hS0 : (0 : ℚ) ≤ ((∑ i in Finset.range 26,
      (text.count (letter i) : Int) * ((text.count (letter i) : Int) - 1) : Int) : ℚ) := by
    exact_mod_cast hn0
  have hS1 : ((∑ i in Finset.range 26,
      (text.count (letter i) : Int) * ((text.count (letter i) : Int) - 1) : Int) : ℚ)
      ≤ (((text.length : Int) * ((text.length : Int) - 1) : Int) : ℚ) := by
    exact_mod_cast hn1
  rw [index_of_coincidence_of_isUpper text hup hmax, Dbl.div_fin (ne_of_gt hDq)]
  have key : ∀ n d : ℚ, 0 ≤ n → n ≤ d → 0 < d →
      ∃ r : ℚ, round64 (26 * n / d) = Dbl.fin r ∧ 0 ≤ r ∧ r ≤ 26 := by
    intro n d hn hnd hd
    obtain ⟨r, hr, hr0, hr26⟩ := round64_bracket (a := 0) (b := 26) (q := 26 * n / d)
      (by norm_num) (by norm_num) (by push_cast; positivity)
      (by push_cast; rw [div_le_iff₀ hd]; nlinarith)
    exact ⟨r, hr, by simpa using hr0, by simpa using hr26⟩
  exact key _ _ hS0 hS1 hDq

/-- The averaged index of coincidence at period 1 of a ciphertext of 2 to 10000 uppercase
letters is a finite value between 0 and 26. -/
theorem averagedIoc_one_range (c : List Char) (hup : ∀ ch ∈ c, isUpper ch = true)
    (h2 : 2 ≤ c.length) (hmax : c.length ≤ 10000) :
    ∃ q : ℚ, averagedIoc c 1 = Dbl.fin q ∧ 0 ≤ q ∧ q ≤ 26 := by
  obtain ⟨q, hq, h0, h26⟩ := index_of_coincidence_range c hup h2 hmax
  obtain ⟨r, hr, hr0, hr26⟩ := averagedIoc_one_bounds c q 0 26
    (by rw [sliceOf_one c hup]; exact hq) (by norm_num) (by norm_num)
    (by simpa using h0) (by simpa using h26)
  exact ⟨r, hr, by simpa using hr0, by simpa using hr26⟩

/-- At period 1 the averaged index of coincidence of a ciphertext of at most 10000
uppercase letters is NaN or a finite value of at most 26, and the acceptance test fails. -/
theorem accepts_one (c : List Char) (hup : ∀ ch ∈ c, isUpper ch = true)
    (hmax : c.length ≤ 10000) :
    (averagedIoc c 1 = Dbl.nan ∨ ∃ q : ℚ, averagedIoc c 1 = Dbl.fin q ∧ 0 ≤ q ∧ q ≤ 26)
      ∧ Dbl.gt (averagedIoc c 1) (Dbl.mul (Dbl.fin (12 / 10)) (Dbl.fin 99)) = false
      ∧ Dbl.gt (averagedIoc c 1) (Dbl.mul IOCMULTTHRESH (Dbl.fin 99)) = false
      ∧ accepts c 1 = false := by
  have hav : averagedIoc c 1 = Dbl.nan ∨ ∃ q : ℚ, averagedIoc c 1 = Dbl.fin q ∧ 0 ≤ q ∧ q ≤ 26 := by
    rcases Nat.lt_or_ge c.length 2 with hlt | hge
    · left
      exact averagedIoc_degenerate c hup 1 (le_refl _)
        (by rw [strlen_of_isUpper hup, Nat.div_one]; exact hlt)
    · right
      exact averagedIoc_one_range c hup hge hmax
  obtain ⟨w0, hw0, hw0a, _⟩ := round64_bracket (q := 12 / 10 * 99) (a := 118) (b := 119)
    (by norm_num) (by norm_num) (by norm_num) (by norm_num)
  obtain ⟨w1, hw1, hw1a, _⟩ := mul_12_bounds (x := 99) (a := 99) (b := 99) (by norm_num)
    (by norm_num) (by norm_num) (by norm_num)
  have hgt : Dbl.gt (averagedIoc c 1) (Dbl.mul (Dbl.fin (12 / 10)) (Dbl.fin 99)) = false := by
    rw [Dbl.mul_fin, hw0]
    rcases hav with h | ⟨q, h, _, h26⟩ <;> rw [h]
    · rfl
    · simp only [Dbl.gt, decide_eq_false_iff_not, not_lt]
      push_cast at hw0a
      linarith
  have hgt2 : Dbl.gt (averagedIoc c 1) (Dbl.mul IOCMULTTHRESH (Dbl.fin 99)) = false := by
    unfold IOCMULTTHRESH
    rw [hw1]
    rcases hav with h | ⟨q, h, _, h26⟩ <;> rw [h]
    · rfl
    · simp only [Dbl.gt, decide_eq_false_iff_not, not_lt]
      push_cast at hw1a
      linarith
  refine ⟨hav, hgt, hgt2, ?_⟩
  unfold accepts previousIoc
  unfold IOCMULTTHRESH at hgt2
  rw [if_pos (le_refl _), hgt2, Bool.and_false]

/-- C20: the period detector never returns period 1. For every ciphertext of at most
10000 uppercase letters, the averaged index of coincidence at period 1 is at most 26 (or
NaN for fewer than 2 letters), which does not exceed 1.2 times the initial previous score
99 (neither the rounded product of `12/10` and 99 nor the product `IOCMULTTHRESH*oldioc`
that the program computes), so the acceptance test fails at period 1, and any period that
the detector returns is at least 2. -/
theorem findPeriod_ge_two (c slice0 : List Char) (fuel : Nat) (st : PeriodState)
    (hup : ∀ ch ∈ c, isUpper ch = true) (hmax : c.length ≤ 10000)
    (h : findPeriod c slice0 fuel = some st) :
    (2 ≤ c.length → ∃ q : ℚ, averagedIoc c 1 = Dbl.fin q ∧ 0 ≤ q ∧ q ≤ 26)
      ∧ Dbl.gt (averagedIoc c 1) (Dbl.mul (Dbl.fin (12 / 10)) (Dbl.fin 99)) = false
      ∧ Dbl.gt (averagedIoc c 1) (Dbl.mul IOCMULTTHRESH (Dbl.fin 99)) = false
      ∧ accepts c 1 = false
      ∧ 2 ≤ st.period := by
  obtain ⟨_, hgt, hgt2, hacc⟩ := accepts_one c hup hmax
  obtain ⟨h1, _, h3, _, _⟩ := periodLoop_sound c fuel (periodStart slice0) st rfl h
  refine ⟨fun h2 => averagedIoc_one_range c hup h2 hmax, hgt, hgt2, hacc, ?_⟩
  by_contra hlt
  have hp1 : st.period = 1 := by
    have : 0 < st.period := h1
    omega
  rw [hp1, hacc] at h3
  exact Bool.noConfusion h3

/-- Witness for C20: on the ciphertext `ABAB`, whose index of coincidence, next to `26/3`,
is above 1.65, the detector returns period 2. -/
theorem findPeriod_ge_two_witness :
    (∀ ch ∈ "ABAB".toList, isUpper ch = true) ∧ "ABAB".toList.length ≤ 10000
      ∧ findPeriod "ABAB".toList [] 2
          = some { period := 2, oldioc := Dbl.fin 26, found := true, slice := "BB".toList }
      ∧ ((2 ≤ "ABAB".toList.length →
            ∃ q : ℚ, averagedIoc "ABAB".toList 1 = Dbl.fin q ∧ 0 ≤ q ∧ q ≤ 26)
        ∧ Dbl.gt (averagedIoc "ABAB".toList 1) (Dbl.mul (Dbl.fin (12 / 10)) (Dbl.fin 99)) = false
        ∧ Dbl.gt (averagedIoc "ABAB".toList 1) (Dbl.mul IOCMULTTHRESH (Dbl.fin 99)) = false
        ∧ accepts "ABAB".toList 1 = false
        ∧ 2 ≤ (2 : Nat)) :=
  ⟨by decide, by decide, findPeriod_abab,
    findPeriod_ge_two "ABAB".toList [] 2 _ (by decide) (by decide) findPeriod_abab⟩

/-! ## The rounded product of the acceptance test -/

/-- The roundings met by the detector on `cipher12` at the periods 3 and 4. -/
theorem cipher12_rounding :
    round64 (26 * 2 / 12) = Dbl.fin (4878899596318037 / 1125899906842624)
      ∧ round64 (13 + 4878899596318037 / 1125899906842624)
          = Dbl.fin (4878899596318037 / 281474976710656)
      ∧ round64 (4878899596318037 / 281474976710656 + 4878899596318037 / 1125899906842624)
          = Dbl.fin (3049312247698773 / 140737488355328)
      ∧ round64 (3049312247698773 / 140737488355328 / 3)
          = Dbl.fin (1016437415899591 / 140737488355328)
      ∧ round64 (26 * 2 / 6) = Dbl.fin (4878899596318037 / 562949953421312)
      ∧ round64 (4878899596318037 / 562949953421312)
          = Dbl.fin (4878899596318037 / 562949953421312)
      ∧ round64 (4878899596318037 / 562949953421312 + 26)
          = Dbl.fin (4878899596318037 / 140737488355328)
      ∧ round64 (4878899596318037 / 140737488355328)
          = Dbl.fin (4878899596318037 / 140737488355328)
      ∧ round64 (4878899596318037 / 140737488355328 / 4)
          = Dbl.fin (4878899596318037 / 562949953421312)
      ∧ round64 (5404319552844595 / 4503599627370496 * (1016437415899591 / 140737488355328))
          = Dbl.fin (4878899596318037 / 562949953421312) := by
  refine ⟨?_, ?_, ?_, ?_, ?_, ?_, ?_, ?_, ?_, ?_⟩
  · rw [round64_eval 2 4878899596318037 (by norm_num [abs_of_pos]) (by norm_num [abs_of_pos])
      (by norm_num) (by norm_num [abs_lt]) (by norm_num [abs_lt])]
    norm_num
  · rw [round64_eval 4 4878899596318037 (by norm_num [abs_of_pos]) (by norm_num [abs_of_pos])
      (by norm_num) (by norm_num [abs_lt]) (by norm_num [abs_lt])]
    norm_num
  · rw [round64_eval 4 6098624495397546 (by norm_num [abs_of_pos]) (by norm_num [abs_of_pos])
      (by norm_num) (by norm_num [abs_lt]) (by norm_num [abs_lt])]
    norm_num
  · rw [round64_eval 2 8131499327196728 (by norm_num [abs_of_pos]) (by norm_num [abs_of_pos])
      (by norm_num) (by norm_num [abs_lt]) (by norm_num [abs_lt])]
    norm_num
  · rw [round64_eval 3 4878899596318037 (by norm_num [abs_of_pos]) (by norm_num [abs_of_pos])
      (by norm_num) (by norm_num [abs_lt]) (by norm_num [abs_lt])]
    norm_num
  · rw [round64_eval 3 4878899596318037 (by norm_num [abs_of_pos]) (by norm_num [abs_of_pos])
      (by norm_num) (by norm_num [abs_lt]) (by norm_num [abs_lt])]
    norm_num
  · rw [round64_eval 5 4878899596318037 (by norm_num [abs_of_pos]) (by norm_num [abs_of_pos])
      (by norm_num) (by norm_num [abs_lt]) (by norm_num [abs_lt])]
    norm_num
  · rw [round64_eval 5 4878899596318037 (by norm_num [abs_of_pos]) (by norm_num [abs_of_pos])
      (by norm_num) (by norm_num [abs_lt]) (by norm_num [abs_lt])]
    norm_num
  · rw [round64_eval 3 4878899596318037 (by norm_num [abs_of_pos]) (by norm_num [abs_of_pos])
      (by norm_num) (by norm_num [abs_lt]) (by norm_num [abs_lt])]
    norm_num
  · rw [round64_eval 3 4878899596318037 (by norm_num [abs_of_pos]) (by norm_num [abs_of_pos])
      (by norm_num) (by norm_num [abs_lt]) (by norm_num [abs_lt])]
    norm_num

set_option maxRecDepth 100000 in
set_option maxHeartbeats 4000000 in
/-- The slices of `cipher12` at the periods 1 to 5, by the integer sums of
`index_of_coincidence`: numerator and denominator of each slice. -/
theorem cipher12_slices :
    ((iocSums (letterCounts (sliceOf cipher12 1 0))).1 = 50
      ∧ wrap32 ((iocSums (letterCounts (sliceOf cipher12 1 0))).2
          * wrap32 ((iocSums (letterCounts (sliceOf cipher12 1 0))).2 - 1)) = 132)
      ∧ (∀ i ∈ List.range 2,
          (iocSums (letterCounts (sliceOf cipher12 2 i))).1 = [8, 12].getD i 0
            ∧ wrap32 ((iocSums (letterCounts (sliceOf cipher12 2 i))).2
                * wrap32 ((iocSums (letterCounts (sliceOf cipher12 2 i))).2 - 1)) = 30)
      ∧ (∀ i ∈ List.range 3,
          (iocSums (letterCounts (sliceOf cipher12 3 i))).1 = [6, 2, 2].getD i 0
            ∧ wrap32 ((iocSums (letterCounts (sliceOf cipher12 3 i))).2
                * wrap32 ((iocSums (letterCounts (sliceOf cipher12 3 i))).2 - 1)) = 12)
      ∧ (∀ i ∈ List.range 4,
          (iocSums (letterCounts (sliceOf cipher12 4 i))).1 = [2, 6, 0, 0].getD i 0
            ∧ wrap32 ((iocSums (letterCounts (sliceOf cipher12 4 i))).2
                * wrap32 ((iocSums (letterCounts (sliceOf cipher12 4 i))).2 - 1)) = 6)
      ∧ (∀ i ∈ List.range 5,
          (iocSums (letterCounts (sliceOf cipher12 5 i))).1 = 2
            ∧ wrap32 ((iocSums (letterCounts (sliceOf cipher12 5 i))).2
                * wrap32 ((iocSums (letterCounts (sliceOf cipher12 5 i))).2 - 1)) = 2) := by
  decide

/-- The number 26 is a binary64 number. -/
theorem round64_26 : round64 26 = Dbl.fin 26 := by
  have := round64_intCast 26 (by norm_num) (by norm_num)
  norm_num at this
  exact this

/-- The number 13 is a binary64 number. -/
theorem round64_13 : round64 13 = Dbl.fin 13 := by
  have := round64_intCast 13 (by norm_num) (by norm_num)
  norm_num at this
  exact this

/-- The score of `cipher12` at period 3: the slices score 13, `26*2/12` and `26*2/12`. -/
theorem averagedIoc_cipher12_3 :
    averagedIoc cipher12 3 = Dbl.fin (1016437415899591 / 140737488355328) := by
  obtain ⟨e1, e2, e3, e4, _⟩ := cipher12_rounding
  have h := cipher12_slices.2.2.1
  have i0 : index_of_coincidence (sliceOf cipher12 3 0) = Dbl.fin 13 := by
    rw [index_of_coincidence_eval _ 6 12 (h 0 (by decide)).1 (h 0 (by decide)).2 (by norm_num)
      (by norm_num), Dbl.div_fin (by norm_num)]
    rw [show (26 * ((6 : Int) : ℚ) / ((12 : Int) : ℚ)) = 13 by norm_num, round64_13]
  have i1 : index_of_coincidence (sliceOf cipher12 3 1)
      = Dbl.fin (4878899596318037 / 1125899906842624) := by
    rw [index_of_coincidence_eval _ 2 12 (h 1 (by decide)).1 (h 1 (by decide)).2 (by norm_num)
      (by norm_num), Dbl.div_fin (by norm_num)]
    rw [show (26 * ((2 : Int) : ℚ) / ((12 : Int) : ℚ)) = 26 * 2 / 12 by norm_num, e1]
  have i2 : index_of_coincidence (sliceOf cipher12 3 2)
      = Dbl.fin (4878899596318037 / 1125899906842624) := by
    rw [index_of_coincidence_eval _ 2 12 (h 2 (by decide)).1 (h 2 (by decide)).2 (by norm_num)
      (by norm_num), Dbl.div_fin (by norm_num)]
    rw [show (26 * ((2 : Int) : ℚ) / ((12 : Int) : ℚ)) = 26 * 2 / 12 by norm_num, e1]
  unfold averagedIoc
  rw [show List.range 3 = [0, 1, 2] from rfl, List.foldl_cons, List.foldl_cons, List.foldl_cons,
    List.foldl_nil, i0, i1, i2, Dbl.add_fin, zero_add, round64_13, Dbl.add_fin, e2, Dbl.add_fin,
    e3]
  unfold Dbl.ofInt
  rw [Dbl.div_fin (by norm_num)]
  rw [show (3049312247698773 / 140737488355328 / (((3 : Nat) : Int) : ℚ) : ℚ)
    = 3049312247698773 / 140737488355328 / 3 by norm_num, e4]

/-- The score of `cipher12` at period 4: the slices score `26*2/6`, 26, 0 and 0. -/
theorem averagedIoc_cipher12_4 :
    averagedIoc cipher12 4 = Dbl.fin (4878899596318037 / 562949953421312) := by
  obtain ⟨_, _, _, _, e5, e6, e7, e8, e9, _⟩ := cipher12_rounding
  have h := cipher12_slices.2.2.2.1
  have i0 : index_of_coincidence (sliceOf cipher12 4 0)
      = Dbl.fin (4878899596318037 / 562949953421312) := by
    rw [index_of_coincidence_eval _ 2 6 (h 0 (by decide)).1 (h 0 (by decide)).2 (by norm_num)
      (by norm_num), Dbl.div_fin (by norm_num)]
    rw [show (26 * ((2 : Int) : ℚ) / ((6 : Int) : ℚ)) = 26 * 2 / 6 by norm_num, e5]
  have i1 : index_of_coincidence (sliceOf cipher12 4 1) = Dbl.fin 26 := by
    rw [index_of_coincidence_eval _ 6 6 (h 1 (by decide)).1 (h 1 (by decide)).2 (by norm_num)
      (by norm_num), Dbl.div_fin (by norm_num)]
    rw [show (26 * ((6 : Int) : ℚ) / ((6 : Int) : ℚ)) = 26 by norm_num, round64_26]
  have i2 : index_of_coincidence (sliceOf cipher12 4 2) = Dbl.fin 0 := by
    rw [index_of_coincidence_eval _ 0 6 (h 2 (by decide)).1 (h 2 (by decide)).2 (by norm_num)
      (by norm_num), Dbl.div_fin (by norm_num)]
    rw [show (26 * ((0 : Int) : ℚ) / ((6 : Int) : ℚ)) = 0 by norm_num, round64_zero]
  have i3 : index_of_coincidence (sliceOf cipher12 4 3) = Dbl.fin 0 := by
    rw [index_of_coincidence_eval _ 0 6 (h 3 (by decide)).1 (h 3 (by decide)).2 (by norm_num)
      (by norm_num), Dbl.div_fin (by norm_num)]
    rw [show (26 * ((0 : Int) : ℚ) / ((6 : Int) : ℚ)) = 0 by norm_num, round64_zero]
  unfold averagedIoc
  rw [show List.range 4 = [0, 1, 2, 3] from rfl, List.foldl_cons, List.foldl_cons,
    List.foldl_cons, List.foldl_cons, List.foldl_nil, i0, i1, i2, i3, Dbl.add_fin, zero_add, e6,
    Dbl.add_fin, e7, Dbl.add_fin, add_zero, e8, Dbl.add_fin, add_zero, e8]
  unfold Dbl.ofInt
  rw [Dbl.div_fin (by norm_num)]
  rw [show (4878899596318037 / 140737488355328 / (((4 : Nat) : Int) : ℚ) : ℚ)
    = 4878899596318037 / 140737488355328 / 4 by norm_num, e9]

/-- The score of `cipher12` at period 5: every slice is a doubled letter and scores 26. -/
theorem averagedIoc_cipher12_5 : averagedIoc cipher12 5 = Dbl.fin 26 := by
  have h := cipher12_slices.2.2.2.2
  have := averagedIoc_const cipher12 5 26 (by omega) (by
    intro i hi
    obtain ⟨h1, h2⟩ := h i (List.mem_range.2 hi)
    rw [index_of_coincidence_eval _ 2 2 h1 h2 (by norm_num) (by norm_num),
      Dbl.div_fin (by norm_num)]
    have h26 := round64_intCast 26 (by norm_num) (by norm_num)
    norm_num at h26 ⊢
    exact h26) (by norm_num)
  simpa using this

/-- The score of `cipher12` at period 1, the rounded `26*50/132`, lies between 9 and 10. -/
theorem averagedIoc_cipher12_1 :
    ∃ r : ℚ, averagedIoc cipher12 1 = Dbl.fin r ∧ 9 ≤ r ∧ r ≤ 10 := by
  have h := cipher12_slices.1
  have hi : ∃ q : ℚ, index_of_coincidence (sliceOf cipher12 1 0) = Dbl.fin q
      ∧ ((9 : Int) : ℚ) ≤ q ∧ q ≤ ((10 : Int) : ℚ) := by
    rw [index_of_coincidence_eval _ 50 132 h.1 h.2 (by norm_num) (by norm_num),
      Dbl.div_fin (by norm_num)]
    exact round64_bracket (by norm_num) (by norm_num) (by norm_num) (by norm_num)
  obtain ⟨q, hq, hq0, hq1⟩ := hi
  obtain ⟨r, hr, hr0, hr1⟩ := averagedIoc_one_bounds cipher12 q 9 10 hq (by norm_num)
    (by norm_num) hq0 hq1
  exact ⟨r, hr, by simpa using hr0, by simpa using hr1⟩

/-- The score of `cipher12` at period 2, from the slice scores `26*8/30` and `26*12/30`,
lies between 8 and 9. -/
theorem averagedIoc_cipher12_2 :
    ∃ r : ℚ, averagedIoc cipher12 2 = Dbl.fin r ∧ 8 ≤ r ∧ r ≤ 9 := by
  have h := cipher12_slices.2.1
  obtain ⟨x0, i0, hx0a, hx0b⟩ : ∃ q : ℚ, index_of_coincidence (sliceOf cipher12 2 0) = Dbl.fin q
      ∧ ((6 : Int) : ℚ) ≤ q ∧ q ≤ ((7 : Int) : ℚ) := by
    rw [index_of_coincidence_eval _ 8 30 (h 0 (by decide)).1 (h 0 (by decide)).2 (by norm_num)
      (by norm_num), Dbl.div_fin (by norm_num)]
    exact round64_bracket (by norm_num) (by norm_num) (by norm_num) (by norm_num)
  obtain ⟨x1, i1, hx1a, hx1b⟩ : ∃ q : ℚ, index_of_coincidence (sliceOf cipher12 2 1) = Dbl.fin q
      ∧ ((10 : Int) : ℚ) ≤ q ∧ q ≤ ((11 : Int) : ℚ) := by
    rw [index_of_coincidence_eval _ 12 30 (h 1 (by decide)).1 (h 1 (by decide)).2 (by norm_num)
      (by norm_num), Dbl.div_fin (by norm_num)]
    exact round64_bracket (by norm_num) (by norm_num) (by norm_num) (by norm_num)
  push_cast at hx0a hx0b hx1a hx1b
  obtain ⟨y0, hy0, hy0a, hy0b⟩ := round64_bracket (q := 0 + x0) (a := 6) (b := 7) (by norm_num)
    (by norm_num) (by push_cast; linarith) (by push_cast; linarith)
  push_cast at hy0a hy0b
  obtain ⟨y1, hy1, hy1a, hy1b⟩ := round64_bracket (q := y0 + x1) (a := 16) (b := 18)
    (by norm_num) (by norm_num) (by push_cast; linarith) (by push_cast; linarith)
  push_cast at hy1a hy1b
  obtain ⟨r, hr, hra, hrb⟩ := round64_bracket (q := y1 / (((2 : Nat) : Int) : ℚ)) (a := 8)
    (b := 9) (by norm_num) (by norm_num) (by push_cast; linarith) (by push_cast; linarith)
  push_cast at hra hrb
  refine ⟨r, ?_, hra, hrb⟩
  unfold averagedIoc
  rw [show List.range 2 = [0, 1] from rfl, List.foldl_cons, List.foldl_cons, List.foldl_nil,
    i0, i1, Dbl.add_fin, hy0, Dbl.add_fin, hy1]
  unfold Dbl.ofInt
  rw [Dbl.div_fin (by norm_num), hr]

/-- On `cipher12` the detector rejects the periods 1 to 4 and accepts period 5. At
period 4 the product `IOCMULTTHRESH*oldioc` rounds to the score itself. -/
theorem accepts_cipher12 :
    accepts cipher12 5 = true ∧ (∀ q, 0 < q → q < 5 → accepts cipher12 q = false)
      ∧ Dbl.mul IOCMULTTHRESH (averagedIoc cipher12 3) = averagedIoc cipher12 4 := by
  obtain ⟨r1, h1, h1a, h1b⟩ := averagedIoc_cipher12_1
  obtain ⟨r2, h2, h2a, h2b⟩ := averagedIoc_cipher12_2
  have h3 := averagedIoc_cipher12_3
  have h4 := averagedIoc_cipher12_4
  have h5 := averagedIoc_cipher12_5
  have e10 := cipher12_rounding.2.2.2.2.2.2.2.2.2
  have hmul : Dbl.mul IOCMULTTHRESH (averagedIoc cipher12 3) = averagedIoc cipher12 4 := by
    unfold IOCMULTTHRESH
    rw [h3, h4, round64_12, Dbl.mul_fin, e10]
  refine ⟨?_, ?_, hmul⟩
  · obtain ⟨w, hw, _, hwb⟩ := round64_bracket
      (q := 5404319552844595 / 4503599627370496 * (4878899596318037 / 562949953421312))
      (a := 10) (b := 11) (by norm_num) (by norm_num) (by norm_num) (by norm_num)
    push_cast at hwb
    unfold accepts previousIoc
    rw [if_neg (by norm_num), h5, show 5 - 1 = 4 from rfl, h4, round64_165, round64_12,
      Dbl.mul_fin, hw]
    have g1 : Dbl.gt (Dbl.fin 26) (Dbl.fin (3715469692580659 / 2251799813685248)) = true := by
      simp only [Dbl.gt, decide_eq_true_eq]; norm_num
    have g2 : Dbl.gt (Dbl.fin 26) (Dbl.fin w) = true := by
      simp only [Dbl.gt, decide_eq_true_eq]; linarith
    rw [g1, g2]; rfl
  · intro q hq0 hq5
    have hcases : q = 1 ∨ q = 2 ∨ q = 3 ∨ q = 4 := by omega
    rcases hcases with rfl | rfl | rfl | rfl
    · exact (accepts_one cipher12 (by decide) (by decide)).2.2.2
    · obtain ⟨w, hw, hwa, _⟩ := round64_bracket
        (q := 5404319552844595 / 4503599627370496 * r1) (a := 10) (b := 12) (by norm_num)
        (by norm_num) (by push_cast; nlinarith) (by push_cast; nlinarith)
      push_cast at hwa
      unfold accepts previousIoc
      rw [if_neg (by norm_num), h2, show 2 - 1 = 1 from rfl, h1, round64_12, Dbl.mul_fin, hw]
      have g : Dbl.gt (Dbl.fin r2) (Dbl.fin w) = false := by
        simp only [Dbl.gt, decide_eq_false_iff_not, not_lt]; linarith
      rw [g, Bool.and_false]
    · obtain ⟨w, hw, hwa, _⟩ := round64_bracket
        (q := 5404319552844595 / 4503599627370496 * r2) (a := 9) (b := 11) (by norm_num)
        (by norm_num) (by push_cast; nlinarith) (by push_cast; nlinarith)
      push_cast at hwa
      unfold accepts previousIoc
      rw [if_neg (by norm_num), h3, show 3 - 1 = 2 from rfl, h2, round64_12, Dbl.mul_fin, hw]
      have g : Dbl.gt (Dbl.fin (1016437415899591 / 140737488355328)) (Dbl.fin w) = false := by
        simp only [Dbl.gt, decide_eq_false_iff_not, not_lt]
        exact le_trans (by norm_num) hwa
      rw [g, Bool.and_false]
    · unfold accepts previousIoc
      rw [if_neg (by norm_num), show 4 - 1 = 3 from rfl]
      unfold IOCMULTTHRESH at hmul
      rw [hmul, Dbl.gt_irrefl, Bool.and_false]

/-- Period detection on `cipher12` returns period 5. -/
theorem findPeriod_cipher12 (slice0 : List Char) (fuel : Nat) (hfuel : 5 ≤ fuel) :
    ∃ st, findPeriod cipher12 slice0 fuel = some st ∧ st.period = 5 :=
  periodLoop_complete cipher12 fuel (periodStart slice0) 5 rfl
    (by show 0 < 5; omega) (by show 5 ≤ 0 + fuel; omega) accepts_cipher12.1
    (fun q h1 h2 => accepts_cipher12.2.1 q h1 h2)

/-- The product of the second acceptance test is the rounded one. On the ciphertext
`AABCAAABCACA` the detector's scores at the periods 3 and 4 are the binary64 numbers
`1016437415899591 / 2^47` and `4878899596318037 / 2^49`; as rational numbers the second
exceeds `12/10` times the first (also with the binary64 number nearest to `12/10` as the
factor), but the product `IOCMULTTHRESH*oldioc` that the detector computes rounds to the
score at period 4 itself, so the test `ioc > IOCMULTTHRESH*oldioc` fails at period 4 and
the detector returns period 5. -/
theorem cipher12_rounded_product :
    averagedIoc cipher12 3 = Dbl.fin (1016437415899591 / 140737488355328)
      ∧ averagedIoc cipher12 4 = Dbl.fin (4878899596318037 / 562949953421312)
      ∧ (165 / 100 : ℚ) < 4878899596318037 / 562949953421312
      ∧ (12 / 10 : ℚ) * (1016437415899591 / 140737488355328)
          < 4878899596318037 / 562949953421312
      ∧ IOCMULTTHRESH = Dbl.fin (5404319552844595 / 4503599627370496)
      ∧ (5404319552844595 / 4503599627370496 : ℚ) * (1016437415899591 / 140737488355328)
          < 4878899596318037 / 562949953421312
      ∧ Dbl.mul IOCMULTTHRESH (averagedIoc cipher12 3) = averagedIoc cipher12 4
      ∧ accepts cipher12 4 = false
      ∧ ∃ st, findPeriod cipher12 [] 5 = some st ∧ st.period = 5 :=
  ⟨averagedIoc_cipher12_3, averagedIoc_cipher12_4, by norm_num, by norm_num, round64_12,
    by norm_num, accepts_cipher12.2.2, accepts_cipher12.2.1 4 (by omega) (by omega),
    findPeriod_cipher12 [] 5 (le_refl 5)⟩

/-! ## Frequency ranks -/

theorem Dbl.gt_trichotomy {a b : Dbl} (ha : a ≠ Dbl.nan) (hb : b ≠ Dbl.nan) :
    Dbl.gt a b = true ∨ a = b ∨ Dbl.gt b a = true := by
  cases a <;> cases b <;> simp_all [Dbl.gt]
  exact lt_trichotomy _ _ |>.elim (fun h => Or.inr (Or.inr h))
    (fun h => h.elim (fun e => Or.inr (Or.inl e)) (fun h => Or.inl h))

theorem Dbl.ne_nan_of_gt {a b : Dbl} (h : Dbl.gt a b = true) : a ≠ Dbl.nan := by
  intro e
  rw [e] at h
  cases b <;> simp [Dbl.gt] at h

theorem precedes_iff (x : List Dbl) (m k : Nat) :
    precedes x m k = true ↔
      Dbl.gt (x.getD m Dbl.nan) (x.getD k Dbl.nan) = true
        ∨ (x.getD m Dbl.nan = x.getD k Dbl.nan ∧ m < k) := by
  simp [precedes]

theorem precedes_irrefl (x : List Dbl) (k : Nat) : precedes x k k = false := by
  simp [precedes, Dbl.gt_irrefl]

theorem precedes_trans {x : List Dbl} {a b c : Nat} (h1 : precedes x a b = true)
    (h2 : precedes x b c = true) : precedes x a c = true := by
  rw [precedes_iff] at h1 h2 ⊢
  rcases h1 with h1 | ⟨e1, l1⟩ <;> rcases h2 with h2 | ⟨e2, l2⟩
  · exact Or.inl (Dbl.gt_trans h1 h2)
  · left; rw [← e2]; exact h1
  · left; rw [e1]; exact h2
  · right; exact ⟨e1.trans e2, by omega⟩

theorem precedes_asymm {x : List Dbl} {a b : Nat} (h1 : precedes x a b = true) :
    precedes x b a = false := by
  by_contra h2
  have h2t : precedes x b a = true := by simpa using h2
  have := precedes_trans h1 h2t
  rw [precedes_irrefl] at this
  exact Bool.noConfusion this

theorem precedes_total {x : List Dbl} {a b : Nat} (ha : x.getD a Dbl.nan ≠ Dbl.nan)
    (hb : x.getD b Dbl.nan ≠ Dbl.nan) (hab : a ≠ b) :
    precedes x a b = true ∨ precedes x b a = true := by
  rw [precedes_iff, precedes_iff]
  rcases Dbl.gt_trichotomy ha hb with h | h | h
  · exact Or.inl (Or.inl h)
  · rcases Nat.lt_or_gt_of_ne hab with hl | hl
    · exact Or.inl (Or.inr ⟨h, hl⟩)
    · exact Or.inr (Or.inr ⟨h.symm, hl⟩)
  · exact Or.inr (Or.inl h)

theorem countP_lt_countP {α : Type} (p q : α → Bool) : ∀ (l : List α),
    (∀ a ∈ l, p a = true → q a = true) → (∃ a ∈ l, p a = false ∧ q a = true) →
      l.countP p < l.countP q := by
  intro l
  induction l with
  | nil => intro _ h; obtain ⟨a, ha, _⟩ := h; simp at ha
  | cons x t ih =>
    intro hsub hex
    have hle : t.countP p ≤ t.countP q :=
      List.countP_mono_left (fun a ha => hsub a (List.mem_cons_of_mem _ ha))
    rw [List.countP_cons, List.countP_cons]
    obtain ⟨a, ha, hpa, hqa⟩ := hex
    rcases List.mem_cons.1 ha with rfl | hat
    · rw [hpa, hqa]; simp; omega
    · have hlt := ih (fun b hb => hsub b (List.mem_cons_of_mem _ hb)) ⟨a, hat, hpa, hqa⟩
      by_cases hpx : p x = true
      · rw [hpx, hsub x (List.mem_cons_self _ _) hpx]; simp; omega
      · have : p x = false := by simpa using hpx
        rw [this]
        by_cases hqx : q x = true
        · rw [hqx]; simp; omega
        · have : q x = false := by simpa using hqx
          rw [this]; simp; omega

theorem rankIn_lt_of_precedes {x : List Dbl} {a b : Nat} (ha : a < 26)
    (h : precedes x a b = true) : rankIn x a < rankIn x b := by
  unfold rankIn
  apply countP_lt_countP
  · intro m _ hm; exact precedes_trans hm h
  · exact ⟨a, List.mem_range.2 ha, precedes_irrefl x a, h⟩

theorem rankIn_lt (x : List Dbl) {k : Nat} (hk : k < 26) : rankIn x k < 26 := by
  have h : rankIn x k < (List.range 26).countP (fun _ => true) := by
    unfold rankIn
    apply countP_lt_countP
    · intro _ _ _; rfl
    · exact ⟨k, List.mem_range.2 hk, precedes_irrefl x k, rfl⟩
  simpa using h

theorem rankIn_injective {x : List Dbl} (hnum : ∀ k, k < 26 → x.getD k Dbl.nan ≠ Dbl.nan)
    {a b : Nat} (ha : a < 26) (hb : b < 26) (h : rankIn x a = rankIn x b) : a = b := by
  by_contra hab
  rcases precedes_total (hnum a ha) (hnum b hb) hab with hp | hp
  · have := rankIn_lt_of_precedes ha hp; omega
  · have := rankIn_lt_of_precedes hb hp; omega

theorem precedes_of_rankIn_lt {x : List Dbl} (hnum : ∀ k, k < 26 → x.getD k Dbl.nan ≠ Dbl.nan)
    {a b : Nat} (ha : a < 26) (hb : b < 26) (h : rankIn x a < rankIn x b) :
    precedes x a b = true := by
  have hab : a ≠ b := fun e => by rw [e] at h; omega
  rcases precedes_total (hnum a ha) (hnum b hb) hab with hp | hp
  · exact hp
  · have := rankIn_lt_of_precedes hb hp; omega

theorem Dbl.gt_of_not_live {v w : Dbl} (hv : v ≠ Dbl.nan)
    (hnl : ¬ Dbl.gt v (Dbl.fin (-1)) = true) (hw : Dbl.gt w (Dbl.fin (-1)) = true) :
    Dbl.gt w v = true := by
  rcases Dbl.gt_trichotomy hv (show Dbl.fin (-1) ≠ Dbl.nan by simp) with h | h | h
  · exact absurd h hnl
  · rw [h]; exact hw
  · exact Dbl.gt_trans hw h

/-- The scan selects the first maximum: when some entry is unconsumed, the selected
index comes before every other index in the descending order of the scanned array. -/
theorem scanUpdate_foldl_first (x : List Dbl)
    (hnum : ∀ k, k < 26 → x.getD k Dbl.nan ≠ Dbl.nan) (n : Nat) (hn : n ≤ 26) :
    ((List.range n).foldl (scanUpdate x) (0, Dbl.fin (-1)) = (0, Dbl.fin (-1))
        ∧ ∀ k, k < n → ¬ live x k)
      ∨ (((List.range n).foldl (scanUpdate x) (0, Dbl.fin (-1))).1 < n
        ∧ ((List.range n).foldl (scanUpdate x) (0, Dbl.fin (-1))).2
            = x.getD ((List.range n).foldl (scanUpdate x) (0, Dbl.fin (-1))).1 Dbl.nan
        ∧ live x ((List.range n).foldl (scanUpdate x) (0, Dbl.fin (-1))).1
        ∧ ∀ m, m < n → m ≠ ((List.range n).foldl (scanUpdate x) (0, Dbl.fin (-1))).1 →
            precedes x ((List.range n).foldl (scanUpdate x) (0, Dbl.fin (-1))).1 m = true) := by
  induction n with
  | zero => left; exact ⟨rfl, fun k hk => by omega⟩
  | succ n ih =>
    have ih := ih (by omega)
    rw [List.range_succ, List.foldl_append]
    simp only [List.foldl_cons, List.foldl_nil]
    generalize (List.range n).foldl (scanUpdate x) (0, Dbl.fin (-1)) = st at ih
    unfold scanUpdate
    by_cases hgt : Dbl.gt (x.getD n Dbl.nan) st.2 = true
    · rw [if_pos hgt]
      right
      rcases ih with ⟨hst, hnone⟩ | ⟨_, hmax, hlive, hfirst⟩
      · rw [hst] at hgt
        refine ⟨by simp, rfl, hgt, fun m hm hne => ?_⟩
        have hmn : m < n := by
          have : m ≠ n := hne
          omega
        rw [precedes_iff]
        left
        exact Dbl.gt_of_not_live (hnum m (by omega)) (hnone m hmn) hgt
      · rw [hmax] at hgt
        refine ⟨by simp, rfl, Dbl.gt_trans hgt hlive, fun m hm hne => ?_⟩
        have hmn : m < n := by
          have : m ≠ n := hne
          omega
        rw [precedes_iff]
        left
        by_cases hmi : m = st.1
        · rw [hmi]; exact hgt
        · rcases (precedes_iff x st.1 m).1 (hfirst m hmn hmi) with h | ⟨e, _⟩
          · exact Dbl.gt_trans hgt h
          · rw [← e]; exact hgt
    · rw [if_neg hgt]
      rcases ih with ⟨hst, hnone⟩ | ⟨hlt, hmax, hlive, hfirst⟩
      · left
        refine ⟨hst, fun k hk => ?_⟩
        rcases Nat.lt_succ_iff_lt_or_eq.1 hk with h | h
        · exact hnone k h
        · subst h; rw [hst] at hgt; exact hgt
      · right
        refine ⟨by omega, hmax, hlive, fun m hm hne => ?_⟩
        rcases Nat.lt_succ_iff_lt_or_eq.1 hm with h | h
        · exact hfirst m h hne
        · subst h
          rw [hmax] at hgt
          rw [precedes_iff]
          rcases Dbl.gt_trichotomy (hnum st.1 (by omega)) (hnum m (by omega)) with h | h | h
          · exact Or.inl h
          · exact Or.inr ⟨h, hlt⟩
          · exact absurd h hgt

theorem scanUpdate_first (x : List Dbl) (hnum : ∀ k, k < 26 → x.getD k Dbl.nan ≠ Dbl.nan)
    {k : Nat} (hk : k < 26) (hlive : live x k) :
    ((List.range 26).foldl (scanUpdate x) (0, Dbl.fin (-1))).1 < 26
      ∧ live x ((List.range 26).foldl (scanUpdate x) (0, Dbl.fin (-1))).1
      ∧ ∀ m, m < 26 → m ≠ ((List.range 26).foldl (scanUpdate x) (0, Dbl.fin (-1))).1 →
          precedes x ((List.range 26).foldl (scanUpdate x) (0, Dbl.fin (-1))).1 m = true := by
  rcases scanUpdate_foldl_first x hnum 26 (le_refl _) with ⟨_, hnone⟩ | ⟨hlt, _, hl, hf⟩
  · exact absurd hlive (hnone k hk)
  · exact ⟨hlt, hl, hf⟩

theorem getD_set {α : Type} (x : List α) (i k : Nat) (v d : α) (hi : i < x.length) :
    (x.set i v).getD k d = if i = k then v else x.getD k d := by
  simp only [List.getD_eq_getElem?_getD, List.getElem?_set]
  by_cases h : i = k
  · subst h; simp [hi]
  · simp [h]

/-- Every rank below 26 is the rank of some index. -/
theorem exists_rankIn_eq {x : List Dbl} (hnum : ∀ k, k < 26 → x.getD k Dbl.nan ≠ Dbl.nan)
    {r : Nat} (hr : r < 26) : ∃ k, k < 26 ∧ rankIn x k = r := by
  have hinj : Function.Injective
      (fun k : Fin 26 => (⟨rankIn x k.1, rankIn_lt x k.2⟩ : Fin 26)) := by
    intro a b h
    exact Fin.ext (rankIn_injective hnum a.2 b.2 (congrArg Fin.val h))
  obtain ⟨k, hk⟩ := Finite.injective_iff_surjective.1 hinj ⟨r, hr⟩
  exact ⟨k.1, k.2, congrArg Fin.val hk⟩

/-- One scan of an array whose entries of rank below `n` are consumed selects the index
of rank `n`; consuming it leaves the entries of rank below `n + 1` consumed. -/
theorem rank_scan_step {x0 x : List Dbl} {n : Nat} (hlive0 : ∀ k, k < 26 → live x0 k)
    (hlen : x.length = 26)
    (hval : ∀ k, k < 26 →
      x.getD k Dbl.nan = if rankIn x0 k < n then Dbl.fin (-1) else x0.getD k Dbl.nan)
    (hn : n < 26) :
    ((List.range 26).foldl (scanUpdate x) (0, Dbl.fin (-1))).1 < 26
      ∧ rankIn x0 ((List.range 26).foldl (scanUpdate x) (0, Dbl.fin (-1))).1 = n
      ∧ ∀ k, k < 26 →
          (x.set ((List.range 26).foldl (scanUpdate x) (0, Dbl.fin (-1))).1
              (Dbl.fin (-1))).getD k Dbl.nan
            = if rankIn x0 k < n + 1 then Dbl.fin (-1) else x0.getD k Dbl.nan := by
  have hnum0 : ∀ k, k < 26 → x0.getD k Dbl.nan ≠ Dbl.nan :=
    fun k hk => Dbl.ne_nan_of_gt (hlive0 k hk)
  have hnum : ∀ k, k < 26 → x.getD k Dbl.nan ≠ Dbl.nan := by
    intro k hk
    rw [hval k hk]
    by_cases h : rankIn x0 k < n
    · rw [if_pos h]; simp
    · rw [if_neg h]; exact hnum0 k hk
  have hlive_iff : ∀ k, k < 26 → (live x k ↔ n ≤ rankIn x0 k) := by
    intro k hk
    unfold live
    rw [hval k hk]
    by_cases h : rankIn x0 k < n
    · rw [if_pos h]
      constructor
      · intro hg; simp [Dbl.gt] at hg
      · intro hle; omega
    · rw [if_neg h]
      exact ⟨fun _ => by omega, fun _ => hlive0 k hk⟩
  obtain ⟨m, hm, hrm⟩ := exists_rankIn_eq hnum0 hn
  have hml : live x m := (hlive_iff m hm).2 (by omega)
  obtain ⟨hI, hIl, hfirst⟩ := scanUpdate_first x hnum hm hml
  generalize ((List.range 26).foldl (scanUpdate x) (0, Dbl.fin (-1))).1 = I at hI hIl hfirst
  have hIge : n ≤ rankIn x0 I := (hlive_iff I hI).1 hIl
  have hIeq : rankIn x0 I = n := by
    by_contra hne
    have hmI : m ≠ I := fun e => hne (by rw [← e]; exact hrm)
    have hp := hfirst m hm hmI
    have hp0 : precedes x0 I m = true := by
      unfold precedes at hp ⊢
      rw [hval I hI, hval m hm, if_neg (by omega), if_neg (by omega)] at hp
      exact hp
    have := rankIn_lt_of_precedes hI hp0
    omega
  refine ⟨hI, hIeq, fun k hk => ?_⟩
  rw [getD_set x I k _ _ (by omega)]
  by_cases hIk : I = k
  · subst hIk; rw [if_pos rfl, if_pos (by omega)]
  · rw [if_neg hIk, hval k hk]
    have hrk : rankIn x0 k ≠ n := fun e => hIk (rankIn_injective hnum0 hI hk (by omega))
    by_cases h : rankIn x0 k < n
    · rw [if_pos h, if_pos (by omega)]
    · rw [if_neg h, if_neg (by omega)]

/-- One round of the key initialiser preserves the rank invariant. -/
theorem RankInv.round {f0 r0 : List Dbl} {n : Nat} {st : InitState}
    (hf0 : ∀ k, k < 26 → live f0 k) (hr0 : ∀ k, k < 26 → live r0 k)
    (h : RankInv f0 r0 n st) (hn : n < 26) : RankInv f0 r0 (n + 1) (assignStep st) := by
  have hnumf : ∀ k, k < 26 → f0.getD k Dbl.nan ≠ Dbl.nan :=
    fun k hk => Dbl.ne_nan_of_gt (hf0 k hk)
  have hnumr : ∀ k, k < 26 → r0.getD k Dbl.nan ≠ Dbl.nan :=
    fun k hk => Dbl.ne_nan_of_gt (hr0 k hk)
  obtain ⟨hIf, hrf, hvf⟩ := rank_scan_step hf0 h.len_f h.val_f hn
  obtain ⟨hIr, hrr, hvr⟩ := rank_scan_step hr0 h.len_r h.val_r hn
  unfold assignStep
  rw [scanMax_eq]
  simp only
  generalize ((List.range 26).foldl (scanUpdate st.freqs) (0, Dbl.fin (-1))).1 = If
    at hIf hrf hvf
  generalize ((List.range 26).foldl (scanUpdate st.reference) (0, Dbl.fin (-1))).1 = Ir
    at hIr hrr hvr
  rw [(alphabetAt_of_lt hIf).2]
  constructor
  · simp [h.len_pk]
  · simp [h.len_f]
  · simp [h.len_r]
  · exact hvf
  · exact hvr
  · intro kr kf hkr hkf heq hlt
    show (st.pk.set Ir (letter If)).getD kr nul = letter kf
    rw [getD_set st.pk Ir kr _ _ (by rw [h.len_pk]; exact hIr)]
    by_cases hc : Ir = kr
    · rw [if_pos hc]
      congr 1
      apply rankIn_injective hnumf hIf hkf
      rw [hrf, ← heq, ← hc, hrr]
    · rw [if_neg hc]
      have hne : rankIn r0 kr ≠ n := fun e => hc (rankIn_injective hnumr hIr hkr (by omega))
      exact h.paired kr kf hkr hkf heq (by omega)

theorem RankInv.rounds {f0 r0 : List Dbl} {st : InitState}
    (hf0 : ∀ k, k < 26 → live f0 k) (hr0 : ∀ k, k < 26 → live r0 k)
    (h : RankInv f0 r0 0 st) :
    ∀ n, n ≤ 26 → RankInv f0 r0 n ((List.range n).foldl (fun st _ => assignStep st) st) := by
  intro n
  induction n with
  | zero => intro _; exact h
  | succ n ih =>
    intro hn
    rw [List.range_succ, List.foldl_append]
    exact (ih (by omega)).round hf0 hr0 (by omega)

theorem live_monogram_frequencies (slice : List Char)
    (hslice : ∀ ch ∈ slice, isUpper ch = true) (hne : slice ≠ []) :
    ∀ k, k < 26 → live (monogram_frequencies slice) k := by
  intro k hk
  unfold live
  obtain ⟨r, hr, hr0⟩ := monogram_frequencies_nonneg slice hslice hne k hk
  rw [hr]
  simp only [Dbl.gt, decide_eq_true_eq]
  linarith

theorem live_reference (monograms : Nat → Dbl)
    (href : ∀ k, k < 26 → Dbl.gt (monograms k) (Dbl.fin (-1)) = true) :
    ∀ k, k < 26 → live ((List.range 26).map monograms) k := by
  intro k hk
  unfold live
  have : ((List.range 26).map monograms).getD k Dbl.nan = monograms k := by
    rw [List.getD_eq_getElem _ _ (by simpa using hk)]
    simp
  rw [this]
  exact href k hk

/-- The column computed by the key initialiser pairs the ranks: the slot of the reference
letter of a given rank holds the observed letter of the same rank. -/
theorem initColumn_paired (monograms : Nat → Dbl) (slice : List Char)
    (hslice : ∀ ch ∈ slice, isUpper ch = true) (hne : slice ≠ [])
    (href : ∀ k, k < 26 → Dbl.gt (monograms k) (Dbl.fin (-1)) = true) :
    ∀ kr kf, kr < 26 → kf < 26 →
      rankIn ((List.range 26).map monograms) kr = rankIn (monogram_frequencies slice) kf →
        (initColumn monograms slice).getD kr nul = letter kf := by
  have hf0 := live_monogram_frequencies slice hslice hne
  have hr0 := live_reference monograms href
  have h0 : RankInv (monogram_frequencies slice) ((List.range 26).map monograms) 0
      (initStart monograms slice) := by
    unfold initStart
    constructor
    · simp
    · exact (monogram_frequencies_getD slice hslice).1
    · simp
    · intro k _; rw [if_neg (by omega)]
    · intro k _; rw [if_neg (by omega)]
    · intro kr kf _ _ _ hlt; omega
  intro kr kf hkr hkf heq
  exact (h0.rounds hf0 hr0 26 (le_refl _)).paired kr kf hkr hkf heq (rankIn_lt _ hkr)

/-- C18: the key initialiser pairs frequency ranks monotonically, ties broken by scan
order. For a non-empty slice of uppercase letters and a reference table whose entries
are above `-1`, in every column `i < period` of the initialised key: for each rank
`r < 26` there are a reference letter `kr` and an observed letter `kf` of rank `r` in the
descending-frequency orders (equal frequencies by ascending index) of the reference table
and of the slice's monogram frequencies, they are the only ones of that rank, and slot
`kr` of the column holds the letter `kf`. -/
theorem initKey_pairs_ranks (monograms : Nat → Dbl) (slice : List Char) (period : Nat)
    (pk : Key) (hslice : ∀ ch ∈ slice, isUpper ch = true) (hne : slice ≠ [])
    (href : ∀ k, k < 26 → Dbl.gt (monograms k) (Dbl.fin (-1)) = true)
    (hroom : period ≤ pk.length) :
    ∀ i, i < period → ∀ r, r < 26 →
      ∃ kr kf, kr < 26 ∧ kf < 26
        ∧ rankIn ((List.range 26).map monograms) kr = r
        ∧ rankIn (monogram_frequencies slice) kf = r
        ∧ (∀ k, k < 26 → rankIn ((List.range 26).map monograms) k = r → k = kr)
        ∧ (∀ k, k < 26 → rankIn (monogram_frequencies slice) k = r → k = kf)
        ∧ ((initKey monograms slice period pk).getD i []).getD kr nul = letter kf := by
  intro i hi r hr
  have hnumf : ∀ k, k < 26 → (monogram_frequencies slice).getD k Dbl.nan ≠ Dbl.nan :=
    fun k hk => Dbl.ne_nan_of_gt (live_monogram_frequencies slice hslice hne k hk)
  have hnumr : ∀ k, k < 26 → ((List.range 26).map monograms).getD k Dbl.nan ≠ Dbl.nan :=
    fun k hk => Dbl.ne_nan_of_gt (live_reference monograms href k hk)
  obtain ⟨kr, hkr, hrr⟩ := exists_rankIn_eq hnumr hr
  obtain ⟨kf, hkf, hrf⟩ := exists_rankIn_eq hnumf hr
  refine ⟨kr, kf, hkr, hkf, hrr, hrf,
    fun k hk e => rankIn_injective hnumr hk hkr (by rw [e, hrr]),
    fun k hk e => rankIn_injective hnumf hk hkf (by rw [e, hrf]), ?_⟩
  unfold initKey
  rw [(initKey_getD (initColumn monograms slice) pk period hroom).2.1 i hi]
  exact initColumn_paired monograms slice hslice hne href kr kf hkr hkf (by rw [hrr, hrf])

/-- Witness for C18: the slice `EEA`, period 2, and the table whose entry `k` is `k`. -/
theorem initKey_pairs_ranks_witness :
    (∀ ch ∈ "EEA".toList, isUpper ch = true) ∧ "EEA".toList ≠ []
      ∧ (∀ k, k < 26 → Dbl.gt ((fun k : Nat => Dbl.fin (k : ℚ)) k) (Dbl.fin (-1)) = true)
      ∧ 2 ≤ ([[], []] : Key).length
      ∧ ∀ i, i < 2 → ∀ r, r < 26 →
          ∃ kr kf, kr < 26 ∧ kf < 26
            ∧ rankIn ((List.range 26).map (fun k : Nat => Dbl.fin (k : ℚ))) kr = r
            ∧ rankIn (monogram_frequencies "EEA".toList) kf = r
            ∧ (∀ k, k < 26 →
                rankIn ((List.range 26).map (fun k : Nat => Dbl.fin (k : ℚ))) k = r → k = kr)
            ∧ (∀ k, k < 26 → rankIn (monogram_frequencies "EEA".toList) k = r → k = kf)
            ∧ ((initKey (fun k => Dbl.fin (k : ℚ)) "EEA".toList 2 [[], []]).getD i []).getD
                kr nul = letter kf :=
  have href : ∀ k, k < 26 → Dbl.gt ((fun k : Nat => Dbl.fin (k : ℚ)) k) (Dbl.fin (-1)) = true :=
    fun k _ => by
      have : (0 : ℚ) ≤ (k : ℚ) := Nat.cast_nonneg k
      simp only [Dbl.gt, decide_eq_true_eq]
      linarith
  ⟨by decide, by decide, href, by decide,
    initKey_pairs_ranks (fun k => Dbl.fin (k : ℚ)) "EEA".toList 2 [[], []]
      (by decide) (by decide) href (by decide)⟩

end Slippery
